import Mathlib

/-!
# string-match: Aho-Corasick longest-common-substring removal

A shallow embedding of `Aho_Boyer_Knuth.cpp`.

* A `std::string` is a `List Char`.
* The heap of `TrieNode` objects is an arena (`Trie := List TrieNode`); a `TrieNode*` is an
  index into the arena, `nullptr` is `none`, and `new TrieNode()` appends a node at the end.
  The root of an automaton is the node at index `0`.
* `unordered_map<char, TrieNode*>` is an association list in insertion order; the order in which
  a range-`for` enumerates it is not fixed by the language, so the functions that enumerate a
  child map take the enumeration order `ord` as a parameter.
* Every function that can dereference a pointer or run a `while` loop returns an `Option`:
  `none` stands for undefined behaviour (null or dangling pointer, `std::out_of_range`) or for a
  loop that did not finish within its iteration budget.
* `int` is 32 bits wide and `size_t` 64 bits.  The conversion `int len = str.length()` is
  `toInt32`, which wraps from `2^31` on; the `size_t` expression `i - match.length() + 1` and
  the sentinel `string::npos` are taken modulo `2^64`.  Offsets and pattern lengths, which the
  program also holds in `int`, are values of `Int`: they never exceed `len`.
-/

set_option autoImplicit false

namespace StringMatch

/-- A `std::string`. -/
abbrev Str := List Char

/-- The `struct TrieNode`. -/
structure TrieNode where
  children : List (Char × Nat)
  fail : Option Nat
  output : List (Str × Int)
deriving DecidableEq

/-- The constructor `TrieNode() : fail(nullptr) {}`. -/
def TrieNode.new : TrieNode := ⟨[], none, []⟩

/-- The node arena. -/
abbrev Trie := List TrieNode

/-- The root pointer handed to every function of the program. -/
def root : Nat := 0

/-- The expression `node->children.find(c)`, with `none` for `end()`. -/
def findChild (n : TrieNode) (c : Char) : Option Nat := n.children.lookup c

/-! ## insertPattern -/

/-- The loop `for (char c : pattern)` of `insertPattern`, started at `node`. -/
def insertLoop : Trie → Nat → List Char → Option (Trie × Nat)
  | t, node, [] => some (t, node)
  | t, node, c :: cs =>
    match t[node]? with
    | none => none
    | some n =>
      match findChild n c with
      | some j => insertLoop t j cs
      | none =>
        insertLoop
          (t.set node { n with children := n.children ++ [(c, t.length)] } ++ [TrieNode.new])
          t.length cs

/-- The function `insertPattern(root, pattern, index)`. -/
def insertPattern (t : Trie) (pattern : Str) (index : Int) : Option Trie :=
  match insertLoop t root pattern with
  | none => none
  | some (t1, node) =>
    match t1[node]? with
    | none => none
    | some n => some (t1.set node { n with output := n.output ++ [(pattern, index)] })

/-- The loop of `main` that inserts every enumerated substring. -/
def insertAll : Trie → List (Str × Int) → Option Trie
  | t, [] => some t
  | t, (p, index) :: rest =>
    match insertPattern t p index with
    | none => none
    | some t1 => insertAll t1 rest

/-! ## buildFailureLinks -/

/-- The loop `while (fail != root && fail->children.find(ch) == fail->children.end())
fail = fail->fail;` with an iteration budget. -/
def followFail (t : Trie) (ch : Char) : Nat → Nat → Option Nat
  | 0, _ => none
  | fuel + 1, f =>
    match t[f]? with
    | none => none
    | some fn =>
      if f ≠ root ∧ findChild fn ch = none then
        match fn.fail with
        | none => none
        | some g => followFail t ch fuel g
      else some f

/-- The loop `for (auto& [ch, child] : root->children)` of `buildFailureLinks`. -/
def initRootChildren : Trie → List (Char × Nat) → List Nat → Option (Trie × List Nat)
  | t, [], q => some (t, q)
  | t, (_, child) :: rest, q =>
    match t[child]? with
    | none => none
    | some cn => initRootChildren (t.set child { cn with fail := some root }) rest (q ++ [child])

/-- The body of the inner loop of `buildFailureLinks` for one `[ch, child]` of `current`. -/
def linkChild (t : Trie) (current : Nat) (ch : Char) (child : Nat) : Option Trie :=
  match t[current]? with
  | none => none
  | some cur =>
    match cur.fail with
    | none => none
    | some f0 =>
      match followFail t ch t.length f0 with
      | none => none
      | some f =>
        match t[f]? with
        | none => none
        | some fn =>
          let target := match findChild fn ch with
            | some g => g
            | none => root
          match t[child]? with
          | none => none
          | some cn =>
            match t[target]? with
            | none => none
            | some tn =>
              some (t.set child { cn with fail := some target, output := cn.output ++ tn.output })

/-- The loop `for (auto& [ch, child] : current->children)` inside the breadth-first loop. -/
def linkChildren : Trie → Nat → List (Char × Nat) → List Nat → Option (Trie × List Nat)
  | t, _, [], q => some (t, q)
  | t, current, (ch, child) :: rest, q =>
    match linkChild t current ch child with
    | none => none
    | some t1 => linkChildren t1 current rest (q ++ [child])

/-- The loop `while (!q.empty())` of `buildFailureLinks`, with an iteration budget. -/
def bfsLoop (ord : List (Char × Nat) → List (Char × Nat)) : Nat → Trie → List Nat → Option Trie
  | _, t, [] => some t
  | 0, _, _ :: _ => none
  | fuel + 1, t, current :: q =>
    match t[current]? with
    | none => none
    | some cur =>
      match linkChildren t current (ord cur.children) q with
      | none => none
      | some (t1, q1) => bfsLoop ord fuel t1 q1

/-- The function `buildFailureLinks(root)`; `ord` is the enumeration order of a child map. -/
def buildFailureLinks (ord : List (Char × Nat) → List (Char × Nat)) (t : Trie) : Option Trie :=
  match t[root]? with
  | none => none
  | some r =>
    match initRootChildren (t.set root { r with fail := some root }) (ord r.children) [] with
    | none => none
    | some (t1, q) => bfsLoop ord t1.length t1 q

/-! ## generateSubstrings -/

/-- The call `str.substr(start, length)`. -/
def substr (str : Str) (start length : Nat) : Str := (str.drop start).take length

/-- The values `n, n - 1, ..., 1` taken by `length` in `for (length = n; length > 0; --length)`. -/
def countDown : Nat → List Nat
  | 0 => []
  | n + 1 => (n + 1) :: countDown n

/-- The conversion of an integer value to the 32-bit `int`, as in `int len = str.length()`:
the value is reduced modulo `2^32` into the range from `-2^31` to `2^31 - 1`. -/
def toInt32 (n : Int) : Int := (n + 2 ^ 31) % 2 ^ 32 - 2 ^ 31

/-- The inner loop `for (int start = 0; start <= len - length; ++start)`.  The difference
`len - length` is the exact one; it is in the range of `int` whenever `len` is not negative.
For a negative `len` the loop body is not entered when the difference is in range, and the
same is taken where the subtraction would overflow, which the language leaves undefined. -/
def substringsOfLength (str : Str) (len length : Int) : List (Str × Int) :=
  (List.range (len - length + 1).toNat).map
    (fun start => (substr str start length.toNat, (start : Int)))

/-- The function `generateSubstrings(str, maxLength)`, with `int len = str.length()`. -/
def generateSubstrings (str : Str) (maxLength : Int) : List (Str × Int) :=
  (countDown maxLength.toNat).flatMap
    (fun length => substringsOfLength str (toInt32 (str.length : Int)) (length : Int))

/-! ## searchAndRemoveLongestMatch -/

/-- The constant `string::npos`. -/
def npos : Nat := 2 ^ 64 - 1

/-- The `size_t` expression `i - match.length() + 1`, evaluated from left to right: the
difference is reduced modulo `2^64` and so is the sum. -/
def startIndexOf (i matchLength : Nat) : Nat :=
  ((((i : Int) - (matchLength : Int)) % (2 ^ 64 : Int) + 1) % (2 ^ 64 : Int)).toNat

/-- The four locals of `searchAndRemoveLongestMatch` that describe the best match so far. -/
structure Best where
  longestMatchLength : Int
  matchStartIndex : Nat
  longestMatch : Str
  str1MatchIndex : Int
deriving DecidableEq

/-- The initial values of the locals. -/
def Best.init : Best := ⟨0, npos, [], -1⟩

/-- The body of `for (const auto& [match, index] : node->output)` for one entry. -/
def recordEntry (i : Nat) (b : Best) (e : Str × Int) : Best :=
  if (e.1.length : Int) > b.longestMatchLength then
    ⟨(e.1.length : Int), startIndexOf i e.1.length, e.1, e.2⟩
  else b

/-- The loop `for (const auto& [match, index] : node->output)` at text position `i`. -/
def recordOutputs (i : Nat) : List (Str × Int) → Best → Best
  | [], b => b
  | e :: rest, b => recordOutputs i rest (recordEntry i b e)

/-- The automaton step taken for the character `c`: the `while` loop over failure links and the
following `if`. -/
def stepNode (t : Trie) (node : Nat) (c : Char) : Option Nat :=
  match followFail t c t.length node with
  | none => none
  | some f =>
    match t[f]? with
    | none => none
    | some fn =>
      match findChild fn c with
      | some g => some g
      | none => some f

/-- The loop `for (size_t i = 0; i < text.size(); ++i)`, on the rest of the text from `i`. -/
def scanLoop (t : Trie) : List Char → Nat → Nat → Best → Option (Nat × Best)
  | [], _, node, b => some (node, b)
  | c :: cs, i, node, b =>
    match stepNode t node c with
    | none => none
    | some node1 =>
      match t[node1]? with
      | none => none
      | some n1 => scanLoop t cs (i + 1) node1 (recordOutputs i n1.output b)

/-- Lines 72-98 of `searchAndRemoveLongestMatch`: the locals after the scan of `text`. -/
def scan (t : Trie) (text : Str) : Option Best :=
  (scanLoop t text 0 root Best.init).map Prod.snd

/-- The call `patternText.find(longestMatch)`, with `none` for `string::npos`. -/
def find : Str → Str → Option Nat
  | [], pat => if pat = [] then some 0 else none
  | c :: cs, pat =>
    if pat.isPrefixOf (c :: cs) then some 0
    else (find cs pat).map (· + 1)

/-- The call `s.erase(pos, n)`; `none` when it throws `std::out_of_range`. -/
def erase (s : Str) (pos n : Nat) : Option Str :=
  if pos ≤ s.length then some (s.take pos ++ s.drop (pos + n)) else none

/-- The line printed for a removal: pattern, index in the second string, index in the first. -/
structure Removal where
  pattern : Str
  textIndex : Nat
  patternIndex : Int
deriving DecidableEq

/-- The effect of one call of `searchAndRemoveLongestMatch`. -/
structure RoundResult where
  removed : Bool
  text : Str
  patternText : Str
  report : Option Removal
deriving DecidableEq

/-- The function `searchAndRemoveLongestMatch(root, text, patternText)`. -/
def searchAndRemoveLongestMatch (t : Trie) (text patternText : Str) : Option RoundResult :=
  match scan t text with
  | none => none
  | some b =>
    if b.matchStartIndex ≠ npos then
      match find patternText b.longestMatch with
      | some patternIndex =>
        match erase text b.matchStartIndex b.longestMatchLength.toNat,
              erase patternText patternIndex b.longestMatchLength.toNat with
        | some text1, some patternText1 =>
          some ⟨true, text1, patternText1,
            some ⟨b.longestMatch, b.matchStartIndex, b.str1MatchIndex⟩⟩
        | _, _ => none
      | none => some ⟨false, text, patternText, none⟩
    else some ⟨false, text, patternText, none⟩

/-! ## main -/

/-- The automaton of one round: a fresh root, every enumerated substring inserted, failure links
built. -/
def buildAutomaton (ord : List (Char × Nat) → List (Char × Nat)) (str1 : Str) (maxLength : Int) :
    Option Trie :=
  match insertAll [TrieNode.new] (generateSubstrings str1 maxLength) with
  | none => none
  | some t => buildFailureLinks ord t

/-- One iteration of the `while (true)` loop of `main`. -/
def round (ord : List (Char × Nat) → List (Char × Nat)) (maxLength : Int) (str1 str2 : Str) :
    Option RoundResult :=
  match buildAutomaton ord str1 maxLength with
  | none => none
  | some t => searchAndRemoveLongestMatch t str2 str1

/-- The final state of `main`: the printed lines, then `str1` and `str2`. -/
structure Outcome where
  events : List Removal
  str1 : Str
  str2 : Str
deriving DecidableEq

/-- The loop `while (true)` of `main` on the strings `str1`, `str2`, with a budget of rounds. -/
def mainLoop (ord : List (Char × Nat) → List (Char × Nat)) (maxLength : Int) :
    Nat → Str → Str → Option Outcome
  | 0, _, _ => none
  | fuel + 1, str1, str2 =>
    match round ord maxLength str1 str2 with
    | none => none
    | some r =>
      if r.removed then
        match mainLoop ord maxLength fuel r.patternText r.text with
        | none => none
        | some o => some ⟨r.report.toList ++ o.events, o.str1, o.str2⟩
      else some ⟨[], str1, str2⟩

/-- The value `"ATCGTACGTA"` that `main` gives `str1`. -/
def str1Main : Str := ['A', 'T', 'C', 'G', 'T', 'A', 'C', 'G', 'T', 'A']

/-- The value `"CGTACGTGCG"` that `main` gives `str2`. -/
def str2Main : Str := ['C', 'G', 'T', 'A', 'C', 'G', 'T', 'G', 'C', 'G']

/-- The value `6` that `main` gives `maxLength`. -/
def maxLengthMain : Int := 6


/-! ## Observers of an automaton

The functions below do not occur in the program; they are the vocabulary in which its
behaviour is stated. -/

/-- The child map of the node at `i` (empty when `i` is not a node). -/
def childrenOf (t : Trie) (i : Nat) : List (Char × Nat) :=
  match t[i]? with
  | some n => n.children
  | none => []

/-- The failure link of the node at `i`. -/
def failOf (t : Trie) (i : Nat) : Option Nat :=
  match t[i]? with
  | some n => n.fail
  | none => none

/-- The output list of the node at `i`. -/
def outputOf (t : Trie) (i : Nat) : List (Str × Int) :=
  match t[i]? with
  | some n => n.output
  | none => []

/-- The child of node `i` for the character `c`. -/
def child (t : Trie) (i : Nat) (c : Char) : Option Nat := (childrenOf t i).lookup c

/-- The node reached from `i` by following the characters of `w` along child edges. -/
def walk (t : Trie) : Nat → List Char → Option Nat
  | i, [] => some i
  | i, c :: w =>
    match child t i c with
    | some j => walk t j w
    | none => none

/-- The trie shape: `path i` is the word spelled from the root to node `i`, every node is
reached by its own path, and every child map has distinct keys. -/
structure TrieInv (t : Trie) (path : Nat → Str) : Prop where
  pos : 0 < t.length
  root_path : path 0 = []
  child_lt : ∀ i c j, child t i c = some j → j < t.length
  child_path : ∀ i c j, child t i c = some j → path j = path i ++ [c]
  reach : ∀ i, i < t.length → walk t 0 (path i) = some i
  keys : ∀ i, ((childrenOf t i).map Prod.fst).Nodup

/-- The state of the arena after the pairs `ps` have been inserted, in this order, into a
fresh root: no failure link is set and every node holds the pairs registered for its path. -/
structure Inserted (ps : List (Str × Int)) (t : Trie) (path : Nat → Str) : Prop where
  inv : TrieInv t path
  fail_none : ∀ i, failOf t i = none
  own : ∀ i, i < t.length → outputOf t i = ps.filter (fun e => e.1 = path i)
  covered : ∀ i, i < t.length → path i = [] ∨ ∃ e ∈ ps, path i <+: e.1
  present : ∀ e ∈ ps, ∃ i, i < t.length ∧ path i = e.1

/-- The longest suffix of `w` that is a path of the trie. -/
def longestIn (t : Trie) : Str → Str
  | [] => []
  | c :: w => if (walk t 0 (c :: w)).isSome then c :: w else longestIn t w

/-- The longest proper suffix of `w` that is a path of the trie. -/
def lps (t : Trie) (w : Str) : Str := longestIn t w.tail

/-- What the walk of `insertPattern` does to the arena. -/
structure InsertStep (t : Trie) (path : Nat → Str) (node : Nat) (cs : List Char)
    (t1 : Trie) (node1 : Nat) (path1 : Nat → Str) : Prop where
  inv : TrieInv t1 path1
  node_lt : node1 < t1.length
  node_path : path1 node1 = path node ++ cs
  len_le : t.length ≤ t1.length
  old_path : ∀ i, i < t.length → path1 i = path i
  old_fail : ∀ i, i < t.length → failOf t1 i = failOf t i
  old_out : ∀ i, i < t.length → outputOf t1 i = outputOf t i
  new_fail : ∀ i, t.length ≤ i → failOf t1 i = none
  new_out : ∀ i, t.length ≤ i → outputOf t1 i = []
  new_path : ∀ i, t.length ≤ i → i < t1.length → path1 i <+: path node ++ cs


/-- The pairs registered at the node with path `w` (none when `w` is not a path). -/
def ownOut (t : Trie) (w : Str) : List (Str × Int) :=
  match walk t 0 w with
  | some i => outputOf t i
  | none => []

/-- The output list that `buildFailureLinks` leaves at the node with path `w`, computed on the
trie before the links are built: the node's own pairs, followed, for a node below the root's
children, by the list of the node of its longest proper suffix.  The first argument bounds
the recursion. -/
def outSpecAux (t : Trie) : Nat → Str → List (Str × Int)
  | 0, _ => []
  | k + 1, w => ownOut t w ++ (if w.length ≤ 1 then [] else outSpecAux t k (lps t w))

/-- The output list that `buildFailureLinks` leaves at the node with path `w`. -/
def outSpec (t : Trie) (w : Str) : List (Str × Int) := outSpecAux t (w.length + 1) w

/-- The failure links of all nodes of depth at most `d` are the ones of the specification. -/
def LinksUpTo (t : Trie) (path : Nat → Str) (d : Nat) : Prop :=
  ∀ i, i < t.length → i ≠ 0 → (path i).length ≤ d → failOf t i = walk t 0 (lps t (path i))

/-- The result of `buildFailureLinks` on the trie `t0` whose node paths are `path`: the shape
is untouched, the root links to itself, every other node links to the node of the longest
proper suffix of its path and carries the specified output list. -/
structure Built (t0 : Trie) (path : Nat → Str) (t : Trie) : Prop where
  len : t.length = t0.length
  children : ∀ i, childrenOf t i = childrenOf t0 i
  root_fail : failOf t 0 = some 0
  root_out : outputOf t 0 = outputOf t0 0
  fail : ∀ i, i < t.length → i ≠ 0 → failOf t i = walk t0 0 (lps t0 (path i))
  out : ∀ i, i < t.length → i ≠ 0 → outputOf t i = outSpec t0 (path i)

/-- The loop invariant of the breadth-first loop of `buildFailureLinks` at level `d`: `q` is
the queue, `pend` the children of the node being processed that are still to be linked, and
`done` the nodes already taken from the queue. -/
structure BfsInv (t0 : Trie) (path : Nat → Str) (d : Nat) (t : Trie) (q : List Nat)
    (pend : List (Char × Nat)) (done : List Nat) : Prop where
  len : t.length = t0.length
  children : ∀ i, childrenOf t i = childrenOf t0 i
  root_fail : failOf t 0 = some 0
  root_out : outputOf t 0 = outputOf t0 0
  fin : ∀ i, i < t.length → i ≠ 0 → ((path i).length ≤ d ∨ i ∈ q) →
    failOf t i = walk t0 0 (lps t0 (path i)) ∧ outputOf t i = outSpec t0 (path i)
  unfin : ∀ i, i < t.length → i ≠ 0 → ¬ ((path i).length ≤ d ∨ i ∈ q) →
    outputOf t i = outputOf t0 i
  q_mem : ∀ x ∈ q, x < t.length ∧ x ≠ 0 ∧ ((path x).length = d ∨ (path x).length = d + 1)
  q_sorted : q.Pairwise (fun a b => (path a).length ≤ (path b).length)
  parent : ∀ p c i, child t0 p c = some i → (path p).length = d →
    (i ∈ q ↔ (p ∉ q ∧ (c, i) ∉ pend))
  d_pos : 1 ≤ d
  all_nodup : (done ++ q).Nodup
  done_mem : ∀ x ∈ done, x < t.length ∧ x ≠ 0 ∧ (path x).length ≤ d

/-- The output entries that the scan of the text visits, in scan order, each with the text
position at which it is visited.  It follows `scanLoop` and only collects what is visited. -/
def scanEntries (t : Trie) : List Char → Nat → Nat → Option (List (Nat × (Str × Int)))
  | [], _, _ => some []
  | c :: cs, i, node =>
    match stepNode t node c with
    | none => none
    | some node1 =>
      match t[node1]? with
      | none => none
      | some n1 =>
        match scanEntries t cs (i + 1) node1 with
        | none => none
        | some es => some (n1.output.map (fun e => (i, e)) ++ es)

/-- The update of the best match over a list of visited entries. -/
def recordAll (es : List (Nat × (Str × Int))) (b : Best) : Best :=
  es.foldl (fun b x => recordEntry x.1 b x.2) b

/-- The locals recorded when the entry `x` becomes the best match. -/
def bestOf (x : Nat × (Str × Int)) : Best :=
  ⟨(x.2.1.length : Int), startIndexOf x.1 x.2.1.length, x.2.1, x.2.2⟩

/-- The enumeration as the specification words it: for `len` from `min(L, n)` down to `1`, and
for each `len` for `start` from `0` up to `n - len`, the pair of the characters
`S[start .. start + len)` and `start`. -/
def enumSpec (S : Str) (L : Nat) : List (Str × Int) :=
  ((List.range (min L S.length)).map (fun k => min L S.length - k)).flatMap
    (fun len => (List.range (S.length - len + 1)).map
      (fun start => ((S.take (start + len)).drop start, (start : Int))))

/-- The registered pair `e` ends at position `i` of the text `tgt`, and no registered pair that
ends somewhere in `tgt` is longer. -/
def IsBestAt (src tgt : Str) (L : Int) (i : Nat) (e : Str × Int) : Prop :=
  i < tgt.length ∧ e ∈ generateSubstrings src L ∧ e.1 <:+ tgt.take (i + 1) ∧
    ∀ j f, j < tgt.length → f ∈ generateSubstrings src L → f.1 <:+ tgt.take (j + 1) →
      f.1.length ≤ e.1.length

/-- No registered pair ends anywhere in the text `tgt`. -/
def NoEntry (src tgt : Str) (L : Int) : Prop :=
  ∀ j f, j < tgt.length → f ∈ generateSubstrings src L → ¬ f.1 <:+ tgt.take (j + 1)

/-- The node reached from `i` by following `n` failure links. -/
def failChain (t : Trie) : Nat → Nat → Option Nat
  | 0, i => some i
  | n + 1, i =>
    match failOf t i with
    | some f => failChain t n f
    | none => none

/-- A string of `2^31 + 1` characters `a`: its length converted to `int` is negative. -/
def srcWide : Str := List.replicate (2 ^ 31 + 1) 'a'

/-- The string `ab` followed by `2^32 - 1` characters `c`: it has `2^32 + 1` characters and
its length converted to `int` is `1`. -/
def srcWrapped : Str := 'a' :: 'b' :: List.replicate (2 ^ 32 - 1) 'c'


/-! ## Arena accessors -/

theorem childrenOf_of_get {t : Trie} {i : Nat} {n : TrieNode} (h : t[i]? = some n) :
    childrenOf t i = n.children := by
  simp [childrenOf, h]

theorem failOf_of_get {t : Trie} {i : Nat} {n : TrieNode} (h : t[i]? = some n) :
    failOf t i = n.fail := by
  simp [failOf, h]

theorem outputOf_of_get {t : Trie} {i : Nat} {n : TrieNode} (h : t[i]? = some n) :
    outputOf t i = n.output := by
  simp [outputOf, h]

theorem childrenOf_of_ge {t : Trie} {i : Nat} (h : t.length ≤ i) : childrenOf t i = [] := by
  simp [childrenOf, List.getElem?_eq_none h]

theorem failOf_of_ge {t : Trie} {i : Nat} (h : t.length ≤ i) : failOf t i = none := by
  simp [failOf, List.getElem?_eq_none h]

theorem outputOf_of_ge {t : Trie} {i : Nat} (h : t.length ≤ i) : outputOf t i = [] := by
  simp [outputOf, List.getElem?_eq_none h]

theorem get_of_lt {t : Trie} {i : Nat} (h : i < t.length) : ∃ n, t[i]? = some n :=
  ⟨t[i], List.getElem?_eq_getElem h⟩

theorem lt_of_get {t : Trie} {i : Nat} {n : TrieNode} (h : t[i]? = some n) : i < t.length := by
  rcases List.getElem?_eq_some.mp h with ⟨h1, _⟩
  exact h1

theorem childrenOf_set {t : Trie} {i : Nat} {n : TrieNode} (hi : i < t.length) (k : Nat) :
    childrenOf (t.set i n) k = if k = i then n.children else childrenOf t k := by
  unfold childrenOf
  rw [List.getElem?_set]
  by_cases h : i = k
  · subst h; simp [hi]
  · have h2 : ¬ k = i := fun e => h e.symm
    simp [h, h2]

theorem failOf_set {t : Trie} {i : Nat} {n : TrieNode} (hi : i < t.length) (k : Nat) :
    failOf (t.set i n) k = if k = i then n.fail else failOf t k := by
  unfold failOf
  rw [List.getElem?_set]
  by_cases h : i = k
  · subst h; simp [hi]
  · have h2 : ¬ k = i := fun e => h e.symm
    simp [h, h2]

theorem outputOf_set {t : Trie} {i : Nat} {n : TrieNode} (hi : i < t.length) (k : Nat) :
    outputOf (t.set i n) k = if k = i then n.output else outputOf t k := by
  unfold outputOf
  rw [List.getElem?_set]
  by_cases h : i = k
  · subst h; simp [hi]
  · have h2 : ¬ k = i := fun e => h e.symm
    simp [h, h2]

theorem get_append_new (t : Trie) (x : TrieNode) (k : Nat) :
    (t ++ [x])[k]? = if k = t.length then some x else t[k]? := by
  by_cases h : k < t.length
  · rw [List.getElem?_append_left h]
    have : ¬ k = t.length := by omega
    simp [this]
  · by_cases h2 : k = t.length
    · subst h2; simp
    · have h3 : t.length ≤ k := by omega
      rw [List.getElem?_append_right h3, List.getElem?_eq_none h3]
      have : [x].length ≤ k - t.length := by simp; omega
      simp [List.getElem?_eq_none this, h2]

theorem childrenOf_append_new (t : Trie) (x : TrieNode) (k : Nat) :
    childrenOf (t ++ [x]) k = if k = t.length then x.children else childrenOf t k := by
  unfold childrenOf
  rw [get_append_new]
  by_cases h : k = t.length <;> simp [h]

theorem failOf_append_new (t : Trie) (x : TrieNode) (k : Nat) :
    failOf (t ++ [x]) k = if k = t.length then x.fail else failOf t k := by
  unfold failOf
  rw [get_append_new]
  by_cases h : k = t.length <;> simp [h]

theorem outputOf_append_new (t : Trie) (x : TrieNode) (k : Nat) :
    outputOf (t ++ [x]) k = if k = t.length then x.output else outputOf t k := by
  unfold outputOf
  rw [get_append_new]
  by_cases h : k = t.length <;> simp [h]

/-! ## Walking the trie -/

theorem walk_append (t : Trie) (u v : List Char) (i : Nat) :
    walk t i (u ++ v) = (walk t i u).bind (fun j => walk t j v) := by
  induction u generalizing i with
  | nil => simp [walk]
  | cons c u ih =>
    simp only [List.cons_append, walk]
    cases h : child t i c with
    | none => simp
    | some j => simp [ih]

theorem walk_snoc (t : Trie) (u : List Char) (c : Char) (i : Nat) :
    walk t i (u ++ [c]) = (walk t i u).bind (fun j => child t j c) := by
  rw [walk_append]
  congr 1
  funext j
  simp only [walk]
  cases child t j c <;> rfl

theorem child_lt_self {t : Trie} {i j : Nat} {c : Char} (h : child t i c = some j) :
    i < t.length := by
  by_contra hc
  have : childrenOf t i = [] := childrenOf_of_ge (by omega)
  simp [child, this] at h

theorem walk_from {t : Trie} {path : Nat → Str} (inv : TrieInv t path) :
    ∀ (w : List Char) (i j : Nat), i < t.length → walk t i w = some j →
      j < t.length ∧ path j = path i ++ w := by
  intro w
  induction w with
  | nil =>
    intro i j hi h
    simp only [walk, Option.some.injEq] at h
    subst h
    simp [hi]
  | cons c w ih =>
    intro i j hi h
    simp only [walk] at h
    cases hc : child t i c with
    | none => simp [hc] at h
    | some k =>
      simp only [hc] at h
      obtain ⟨h1, h2⟩ := ih k j (inv.child_lt i c k hc) h
      refine ⟨h1, ?_⟩
      rw [h2, inv.child_path i c k hc]
      simp

theorem walk_root {t : Trie} {path : Nat → Str} (inv : TrieInv t path) {w : List Char} {j : Nat}
    (h : walk t 0 w = some j) : j < t.length ∧ path j = w := by
  obtain ⟨h1, h2⟩ := walk_from inv w 0 j inv.pos h
  refine ⟨h1, ?_⟩
  rw [h2, inv.root_path]
  simp

theorem walk_iff {t : Trie} {path : Nat → Str} (inv : TrieInv t path) (w : List Char) (j : Nat) :
    walk t 0 w = some j ↔ j < t.length ∧ path j = w := by
  constructor
  · exact walk_root inv
  · rintro ⟨h1, h2⟩
    rw [← h2]
    exact inv.reach j h1

theorem path_inj {t : Trie} {path : Nat → Str} (inv : TrieInv t path) {i j : Nat}
    (hi : i < t.length) (hj : j < t.length) (h : path i = path j) : i = j := by
  have h1 := inv.reach i hi
  have h2 := inv.reach j hj
  rw [h] at h1
  rw [h1] at h2
  exact Option.some.inj h2

theorem walk_initial {t : Trie} {u w : List Char} (hp : u <+: w) {i : Nat}
    (h : (walk t i w).isSome) : (walk t i u).isSome := by
  obtain ⟨v, rfl⟩ := hp
  rw [walk_append] at h
  cases h2 : walk t i u with
  | none => simp [h2] at h
  | some j => simp
theorem length_addChild (t : Trie) (node : Nat) (n : TrieNode) :
    (t.set node n ++ [TrieNode.new]).length = t.length + 1 := by
  simp

theorem child_addChild {t : Trie} {node : Nat} {n : TrieNode} {c : Char}
    (hn : t[node]? = some n) (hc : findChild n c = none) (i : Nat) (d : Char) :
    child (t.set node { n with children := n.children ++ [(c, t.length)] } ++ [TrieNode.new]) i d =
      if i = node ∧ d = c then some t.length else child t i d := by
  have hlt : node < t.length := lt_of_get hn
  unfold child
  rw [childrenOf_append_new, List.length_set, childrenOf_set hlt]
  by_cases h1 : i = t.length
  · have h2 : ¬ i = node := by omega
    have h3 : childrenOf t i = [] := childrenOf_of_ge (by omega)
    have h4 : ¬ (i = node ∧ d = c) := fun h => h2 h.1
    rw [if_neg h4, h3]
    simp [h1, TrieNode.new]
  · by_cases h2 : i = node
    · subst h2
      simp only [h1, if_false, if_true, true_and]
      rw [List.lookup_append, childrenOf_of_get hn]
      by_cases h3 : d = c
      · subst h3
        have : List.lookup d n.children = none := hc
        simp [this, List.lookup_cons]
      · have h4 : (d == c) = false := by simpa using h3
        simp [h3, List.lookup_cons, h4]
    · simp [h1, h2]

theorem walk_mono {t s : Trie} (h : ∀ i c j, child t i c = some j → child s i c = some j) :
    ∀ (w : List Char) (i j : Nat), walk t i w = some j → walk s i w = some j := by
  intro w
  induction w with
  | nil => intro i j hw; simpa [walk] using hw
  | cons c w ih =>
    intro i j hw
    simp only [walk] at hw ⊢
    cases hc : child t i c with
    | none => simp [hc] at hw
    | some k =>
      simp only [hc] at hw
      rw [h i c k hc]
      exact ih k j hw

theorem walk_congr {t s : Trie} (h : ∀ i, childrenOf s i = childrenOf t i) (w : List Char)
    (i : Nat) : walk s i w = walk t i w := by
  induction w generalizing i with
  | nil => rfl
  | cons c w ih =>
    simp only [walk, child, h]
    cases (childrenOf t i).lookup c with
    | none => rfl
    | some k => exact ih k

theorem trieInv_congr {t s : Trie} {path : Nat → Str} (inv : TrieInv t path)
    (hl : s.length = t.length) (h : ∀ i, childrenOf s i = childrenOf t i) : TrieInv s path := by
  have hc : ∀ i c, child s i c = child t i c := fun i c => by simp [child, h]
  refine ⟨by rw [hl]; exact inv.pos, inv.root_path, ?_, ?_, ?_, ?_⟩
  · intro i c j hj
    rw [hl]
    exact inv.child_lt i c j (by rw [← hc]; exact hj)
  · intro i c j hj
    exact inv.child_path i c j (by rw [← hc]; exact hj)
  · intro i hi
    rw [walk_congr h]
    exact inv.reach i (by rw [← hl]; exact hi)
  · intro i
    rw [h]
    exact inv.keys i

theorem trieInv_addChild {t : Trie} {path : Nat → Str} (inv : TrieInv t path) {node : Nat}
    {n : TrieNode} {c : Char} (hn : t[node]? = some n) (hc : findChild n c = none) :
    TrieInv (t.set node { n with children := n.children ++ [(c, t.length)] } ++ [TrieNode.new])
      (Function.update path t.length (path node ++ [c])) := by
  have hlt : node < t.length := lt_of_get hn
  have hne : node ≠ t.length := by omega
  have hch := child_addChild hn hc
  have hmono : ∀ i d j, child t i d = some j →
      child (t.set node { n with children := n.children ++ [(c, t.length)] } ++ [TrieNode.new])
        i d = some j := by
    intro i d j hj
    rw [hch]
    by_cases h : i = node ∧ d = c
    · obtain ⟨h1, h2⟩ := h
      subst h1; subst h2
      have : child t i d = none := by
        simp only [child, childrenOf_of_get hn]; exact hc
      rw [this] at hj
      cases hj
    · simp [h, hj]
  refine ⟨by simp, ?_, ?_, ?_, ?_, ?_⟩
  · have : (0 : Nat) ≠ t.length := by have := inv.pos; omega
    rw [Function.update_noteq this]
    exact inv.root_path
  · intro i d j hj
    rw [hch] at hj
    rw [length_addChild]
    by_cases h : i = node ∧ d = c
    · simp only [h, and_self, if_true, Option.some.injEq] at hj
      omega
    · simp only [h, if_false] at hj
      have := inv.child_lt i d j hj
      omega
  · intro i d j hj
    rw [hch] at hj
    by_cases h : i = node ∧ d = c
    · simp only [h, and_self, if_true, Option.some.injEq] at hj
      obtain ⟨h1, h2⟩ := h
      subst h1; subst h2; subst hj
      rw [Function.update_same, Function.update_noteq hne]
    · simp only [h, if_false] at hj
      have h1 := inv.child_lt i d j hj
      have h2 := child_lt_self hj
      rw [Function.update_noteq (by omega), Function.update_noteq (by omega)]
      exact inv.child_path i d j hj
  · intro i hi
    rw [length_addChild] at hi
    by_cases h : i = t.length
    · subst h
      rw [Function.update_same, walk_snoc, walk_mono hmono _ _ _ (inv.reach node hlt)]
      simp [hch]
    · rw [Function.update_noteq h]
      exact walk_mono hmono _ _ _ (inv.reach i (by omega))
  · intro i
    rw [childrenOf_append_new, List.length_set, childrenOf_set hlt]
    by_cases h1 : i = t.length
    · simp [h1, TrieNode.new]
    · by_cases h2 : i = node
      · subst h2
        simp only [h1, if_false, if_true, List.map_append, List.map_cons, List.map_nil]
        have hk := inv.keys i
        rw [childrenOf_of_get hn] at hk
        rw [List.nodup_append]
        refine ⟨hk, by simp, ?_⟩
        have hnone : List.lookup c n.children = none := hc
        rw [List.lookup_eq_none_iff] at hnone
        intro a ha hb
        simp only [List.mem_singleton] at hb
        subst hb
        rw [List.mem_map] at ha
        obtain ⟨p, hp, hpa⟩ := ha
        have := hnone p hp
        simp [hpa] at this
      · simp only [h1, h2, if_false]
        exact inv.keys i
theorem insertLoop_spec (cs : List Char) :
    ∀ (t : Trie) (node : Nat) (path : Nat → Str), TrieInv t path → node < t.length →
      ∃ t1 node1 path1, insertLoop t node cs = some (t1, node1) ∧
        InsertStep t path node cs t1 node1 path1 := by
  induction cs with
  | nil =>
    intro t node path inv hlt
    refine ⟨t, node, path, rfl, ⟨inv, hlt, by simp, le_refl _, fun _ _ => rfl, fun _ _ => rfl,
      fun _ _ => rfl, fun i hi => failOf_of_ge hi, fun i hi => outputOf_of_ge hi, ?_⟩⟩
    intro i h1 h2
    omega
  | cons c cs ih =>
    intro t node path inv hlt
    obtain ⟨n, hn⟩ := get_of_lt hlt
    simp only [insertLoop, hn]
    cases hc : findChild n c with
    | some j =>
      have hchild : child t node c = some j := by
        simp only [child, childrenOf_of_get hn]; exact hc
      obtain ⟨t1, node1, path1, h1, st⟩ := ih t j path inv (inv.child_lt node c j hchild)
      have hp : path j ++ cs = path node ++ c :: cs := by
        rw [inv.child_path node c j hchild]; simp
      refine ⟨t1, node1, path1, h1, ⟨st.inv, st.node_lt, ?_, st.len_le, st.old_path, st.old_fail,
        st.old_out, st.new_fail, st.new_out, ?_⟩⟩
      · rw [st.node_path, hp]
      · intro i hi1 hi2
        rw [← hp]
        exact st.new_path i hi1 hi2
    | none =>
      have inv1 := trieInv_addChild inv hn hc
      have hlen := length_addChild t node { n with children := n.children ++ [(c, t.length)] }
      obtain ⟨t1, node1, path1, h1, st⟩ := ih _ t.length _ inv1 (by rw [hlen]; omega)
      have hne : node ≠ t.length := by omega
      have hp : Function.update path t.length (path node ++ [c]) t.length ++ cs
          = path node ++ c :: cs := by
        rw [Function.update_same]; simp
      have hnp := st.node_path
      have hle := st.len_le
      have hnew := st.new_path
      rw [hp] at hnp hnew
      rw [hlen] at hle hnew
      have hof := st.old_fail
      have hoo := st.old_out
      have hopath := st.old_path
      have hnf := st.new_fail
      have hno := st.new_out
      rw [hlen] at hof hoo hopath hnf hno
      refine ⟨t1, node1, path1, h1, ⟨st.inv, st.node_lt, ?_, ?_, ?_, ?_, ?_, ?_, ?_, ?_⟩⟩
      · exact hnp
      · omega
      · intro i hi
        rw [hopath i (by omega), Function.update_noteq (by omega)]
      · intro i hi
        rw [hof i (by omega), failOf_append_new, List.length_set, failOf_set hlt]
        have hk : ¬ i = t.length := by omega
        by_cases h2 : i = node
        · subst h2; simp [hk, failOf_of_get hn]
        · simp [hk, h2]
      · intro i hi
        rw [hoo i (by omega), outputOf_append_new, List.length_set, outputOf_set hlt]
        have hk : ¬ i = t.length := by omega
        by_cases h2 : i = node
        · subst h2; simp [hk, outputOf_of_get hn]
        · simp [hk, h2]
      · intro i hi
        by_cases h : i = t.length
        · rw [hof i (by omega), failOf_append_new, List.length_set]
          simp [h, TrieNode.new]
        · exact hnf i (by omega)
      · intro i hi
        by_cases h : i = t.length
        · rw [hoo i (by omega), outputOf_append_new, List.length_set]
          simp [h, TrieNode.new]
        · exact hno i (by omega)
      · intro i hi1 hi2
        by_cases h : i = t.length
        · rw [hopath i (by omega), h, Function.update_same]
          exact ⟨cs, by simp⟩
        · exact hnew i (by omega) hi2
theorem inserted_init : Inserted [] [TrieNode.new] (fun _ => []) := by
  have hch : ∀ i, childrenOf [TrieNode.new] i = [] := by
    intro i
    cases i with
    | zero => simp [childrenOf, TrieNode.new]
    | succ k => simp [childrenOf]
  have hc : ∀ i c, child [TrieNode.new] i c = none := by
    intro i c
    simp [child, hch]
  refine ⟨⟨by simp, rfl, ?_, ?_, ?_, ?_⟩, ?_, ?_, ?_, ?_⟩
  · intro i c j h; simp [hc] at h
  · intro i c j h; simp [hc] at h
  · intro i hi
    have : i = 0 := by simpa using hi
    subst this
    simp [walk]
  · intro i; simp [hch]
  · intro i
    cases i with
    | zero => simp [failOf, TrieNode.new]
    | succ k => simp [failOf]
  · intro i hi
    have : i = 0 := by simpa using hi
    subst this
    simp [outputOf, TrieNode.new]
  · intro i _; exact Or.inl rfl
  · intro e he; simp at he

theorem insertPattern_spec {ps : List (Str × Int)} {t : Trie} {path : Nat → Str}
    (h : Inserted ps t path) (p : Str) (idx : Int) :
    ∃ t1 path1, insertPattern t p idx = some t1 ∧ Inserted (ps ++ [(p, idx)]) t1 path1 := by
  obtain ⟨t1, node1, path1, h1, st⟩ := insertLoop_spec p t root path h.inv h.inv.pos
  obtain ⟨n, hn⟩ := get_of_lt st.node_lt
  have hnp : path1 node1 = p := by
    have := st.node_path
    rw [this]
    show path 0 ++ p = p
    rw [h.inv.root_path]; rfl
  refine ⟨t1.set node1 { n with output := n.output ++ [(p, idx)] }, path1,
    by simp only [insertPattern, h1, hn], ?_⟩
  have hlen : (t1.set node1 { n with output := n.output ++ [(p, idx)] }).length = t1.length :=
    List.length_set _ _ _
  have hch : ∀ i, childrenOf (t1.set node1 { n with output := n.output ++ [(p, idx)] }) i
      = childrenOf t1 i := by
    intro i
    rw [childrenOf_set st.node_lt]
    by_cases hi : i = node1
    · subst hi; simp [childrenOf_of_get hn]
    · simp [hi]
  have hfail1 : ∀ i, failOf t1 i = none := by
    intro i
    by_cases hi : i < t.length
    · rw [st.old_fail i hi]; exact h.fail_none i
    · exact st.new_fail i (by omega)
  have hown1 : ∀ i, i < t1.length → outputOf t1 i = ps.filter (fun e => e.1 = path1 i) := by
    intro i hi1
    by_cases hi : i < t.length
    · rw [st.old_out i hi, h.own i hi, st.old_path i hi]
    · rw [st.new_out i (by omega)]
      symm
      rw [List.filter_eq_nil_iff]
      intro e he
      simp only [decide_eq_true_eq]
      intro heq
      obtain ⟨i0, hi0, hp0⟩ := h.present e he
      have h2 : path1 i0 = path1 i := by rw [st.old_path i0 hi0, hp0, heq]
      have := path_inj st.inv (lt_of_lt_of_le hi0 st.len_le) hi1 h2
      omega
  refine ⟨trieInv_congr st.inv hlen hch, ?_, ?_, ?_, ?_⟩
  · intro i
    rw [failOf_set st.node_lt]
    by_cases hi : i = node1
    · subst hi
      simp only [if_true]
      rw [← failOf_of_get hn]; exact hfail1 i
    · simp [hi, hfail1]
  · intro i hi
    rw [hlen] at hi
    rw [outputOf_set st.node_lt, List.filter_append]
    by_cases hi1 : i = node1
    · subst hi1
      simp only [if_true]
      rw [← outputOf_of_get hn, hown1 i hi, hnp]
      simp
    · simp only [hi1, if_false]
      rw [hown1 i hi]
      have : ¬ p = path1 i := by
        intro heq
        exact hi1 (path_inj st.inv hi st.node_lt (by rw [hnp, heq]))
      simp [this]
  · intro i hi
    rw [hlen] at hi
    by_cases hi0 : i < t.length
    · rw [st.old_path i hi0]
      rcases h.covered i hi0 with h1 | ⟨e, he, hpe⟩
      · exact Or.inl h1
      · exact Or.inr ⟨e, by simp [he], hpe⟩
    · right
      refine ⟨(p, idx), by simp, ?_⟩
      have := st.new_path i (by omega) hi
      have hr : path root = [] := h.inv.root_path
      rw [hr] at this
      simpa using this
  · intro e he
    rw [hlen]
    rw [List.mem_append] at he
    rcases he with he | he
    · obtain ⟨i0, hi0, hp0⟩ := h.present e he
      exact ⟨i0, lt_of_lt_of_le hi0 st.len_le, by rw [st.old_path i0 hi0, hp0]⟩
    · simp only [List.mem_singleton] at he
      subst he
      exact ⟨node1, st.node_lt, hnp⟩

theorem insertAll_spec (qs : List (Str × Int)) :
    ∀ (ps : List (Str × Int)) (t : Trie) (path : Nat → Str), Inserted ps t path →
      ∃ t1 path1, insertAll t qs = some t1 ∧ Inserted (ps ++ qs) t1 path1 := by
  induction qs with
  | nil =>
    intro ps t path h
    exact ⟨t, path, rfl, by simpa using h⟩
  | cons q qs ih =>
    intro ps t path h
    obtain ⟨p, idx⟩ := q
    obtain ⟨t1, path1, h1, hI⟩ := insertPattern_spec h p idx
    obtain ⟨t2, path2, h2, hI2⟩ := ih _ t1 path1 hI
    refine ⟨t2, path2, by simp only [insertAll, h1, h2], ?_⟩
    simpa using hI2

/-- Inserting any list of pairs into a fresh root succeeds and yields a trie. -/
theorem insertAll_fresh (ps : List (Str × Int)) :
    ∃ t path, insertAll [TrieNode.new] ps = some t ∧ Inserted ps t path := by
  obtain ⟨t, path, h1, h2⟩ := insertAll_spec ps [] _ _ inserted_init
  exact ⟨t, path, h1, by simpa using h2⟩

/-! ## Longest suffix that is a path -/

theorem walk_nil_isSome (t : Trie) : (walk t 0 []).isSome := by simp [walk]

theorem longestIn_suffix (t : Trie) (w : Str) : longestIn t w <:+ w := by
  induction w with
  | nil => simp [longestIn]
  | cons c w ih =>
    simp only [longestIn]
    split
    · exact List.suffix_refl _
    · exact ih.trans (List.suffix_cons c w)

theorem longestIn_isSome (t : Trie) (w : Str) : (walk t 0 (longestIn t w)).isSome := by
  induction w with
  | nil => simp [longestIn, walk]
  | cons c w ih =>
    simp only [longestIn]
    split
    · assumption
    · exact ih

theorem longestIn_self {t : Trie} {w : Str} (h : (walk t 0 w).isSome) : longestIn t w = w := by
  cases w with
  | nil => rfl
  | cons c w => simp [longestIn, h]

theorem longestIn_max (t : Trie) (w : Str) {v : Str} (hv : v <:+ w) (h : (walk t 0 v).isSome) :
    v <:+ longestIn t w := by
  induction w with
  | nil =>
    have : v = [] := List.eq_nil_of_suffix_nil hv
    subst this
    simp [longestIn]
  | cons c w ih =>
    simp only [longestIn]
    rcases List.suffix_cons_iff.mp hv with h1 | h1
    · subst h1
      simp [h]
    · split
      · exact h1.trans (List.suffix_cons c w)
      · exact ih h1

theorem longestIn_cons_of_not {t : Trie} {c : Char} {w : Str} (h : ¬ (walk t 0 (c :: w)).isSome) :
    longestIn t (c :: w) = longestIn t w := by
  simp [longestIn, h]

theorem longestIn_snoc (t : Trie) (x : Str) (c : Char) :
    longestIn t (x ++ [c]) = longestIn t (longestIn t x ++ [c]) := by
  induction x with
  | nil => simp [longestIn]
  | cons a x ih =>
    by_cases h : (walk t 0 (a :: x)).isSome
    · rw [longestIn_self h]
    · have h2 : ¬ (walk t 0 (a :: (x ++ [c]))).isSome := by
        intro h3
        exact h (walk_initial (List.prefix_append (a :: x) [c]) h3)
      rw [List.cons_append, longestIn_cons_of_not h2, longestIn_cons_of_not h, ih]

theorem lps_length_lt (t : Trie) {w : Str} (h : w ≠ []) : (lps t w).length < w.length := by
  cases w with
  | nil => exact absurd rfl h
  | cons c w =>
    have := (longestIn_suffix t w).length_le
    simp only [lps, List.tail_cons, List.length_cons]
    omega

theorem lps_suffix (t : Trie) (w : Str) : lps t w <:+ w :=
  (longestIn_suffix t w.tail).trans (List.tail_suffix w)

theorem lps_snoc (t : Trie) {w : Str} (h : w ≠ []) (c : Char) :
    lps t (w ++ [c]) = longestIn t (lps t w ++ [c]) := by
  cases w with
  | nil => exact absurd rfl h
  | cons a w =>
    simp only [lps, List.cons_append, List.tail_cons]
    exact longestIn_snoc t w c

theorem longestIn_congr {t s : Trie} (h : ∀ i, childrenOf s i = childrenOf t i) (w : Str) :
    longestIn s w = longestIn t w := by
  induction w with
  | nil => rfl
  | cons c w ih => simp only [longestIn, walk_congr h, ih]

theorem lps_congr {t s : Trie} (h : ∀ i, childrenOf s i = childrenOf t i) (w : Str) :
    lps s w = lps t w := longestIn_congr h _

/-! ## Following failure links -/

theorem child_eq_findChild {t : Trie} {i : Nat} {n : TrieNode} (h : t[i]? = some n) (c : Char) :
    child t i c = findChild n c := by
  simp [child, childrenOf_of_get h, findChild]

theorem followFail_spec {t : Trie} {path : Nat → Str} (inv : TrieInv t path) (c : Char) :
    ∀ (fuel : Nat) (u : Str) (f : Nat), walk t 0 u = some f → u.length < fuel →
      LinksUpTo t path u.length →
      ∃ v g, followFail t c fuel f = some g ∧ walk t 0 v = some g ∧ v <:+ u ∧
        (g = 0 ∨ child t g c ≠ none) ∧ longestIn t (u ++ [c]) = longestIn t (v ++ [c]) := by
  intro fuel
  induction fuel with
  | zero => intro u f _ h; omega
  | succ fuel ih =>
    intro u f hw hfuel hl
    obtain ⟨hf, hp⟩ := walk_root inv hw
    obtain ⟨fn, hfn⟩ := get_of_lt hf
    simp only [followFail, hfn]
    by_cases hcond : f ≠ root ∧ findChild fn c = none
    · rw [if_pos hcond]
      obtain ⟨hne, hnc⟩ := hcond
      have hu : u ≠ [] := by
        intro h0
        subst h0
        simp only [walk, Option.some.injEq] at hw
        exact hne hw.symm
      have hfail : failOf t f = walk t 0 (lps t u) := by
        have := hl f hf hne (by rw [hp])
        rw [this, hp]
      rw [failOf_of_get hfn] at hfail
      have hsome := longestIn_isSome t u.tail
      cases hg : walk t 0 (lps t u) with
      | none =>
        rw [lps] at hg
        rw [hg] at hsome
        simp at hsome
      | some g =>
        rw [hg] at hfail
        simp only [hfail]
        have hlen := lps_length_lt t hu
        obtain ⟨v, g1, h1, h2, h3, h4, h5⟩ := ih (lps t u) g hg (by omega)
          (fun i hi hi0 hd => hl i hi hi0 (by omega))
        refine ⟨v, g1, h1, h2, h3.trans (lps_suffix t u), h4, ?_⟩
        rw [← h5]
        obtain ⟨a, u0, rfl⟩ := List.exists_cons_of_ne_nil hu
        have hnot : ¬ (walk t 0 (a :: (u0 ++ [c]))).isSome := by
          rw [← List.cons_append, walk_snoc, hw]
          simp [child_eq_findChild hfn, hnc]
        rw [List.cons_append, longestIn_cons_of_not hnot]
        simp only [lps, List.tail_cons]
        exact longestIn_snoc t u0 c
    · rw [if_neg hcond]
      refine ⟨u, f, rfl, hw, List.suffix_refl _, ?_, rfl⟩
      by_cases h0 : f = 0
      · exact Or.inl h0
      · right
        rw [child_eq_findChild hfn]
        intro hn
        exact hcond ⟨h0, hn⟩

/-- The node reached after the `while` loop and the `if` that follows it: the node of the
longest suffix of `u ++ [c]` that is a path. -/
theorem followFail_target {t : Trie} {path : Nat → Str} (inv : TrieInv t path) (c : Char)
    {fuel : Nat} {u : Str} {f : Nat} (hw : walk t 0 u = some f) (hfuel : u.length < fuel)
    (hl : LinksUpTo t path u.length) :
    ∃ g gn, followFail t c fuel f = some g ∧ t[g]? = some gn ∧
      (match findChild gn c with
        | some k => some k
        | none => some g) = walk t 0 (longestIn t (u ++ [c])) ∧
      (findChild gn c = none → g = root) := by
  obtain ⟨v, g, h1, h2, h3, h4, h5⟩ := followFail_spec inv c fuel u f hw hfuel hl
  obtain ⟨hg, hp⟩ := walk_root inv h2
  obtain ⟨gn, hgn⟩ := get_of_lt hg
  refine ⟨g, gn, h1, hgn, ?_, ?_⟩
  · rw [h5]
    cases hk : findChild gn c with
    | some k =>
      have hwk : walk t 0 (v ++ [c]) = some k := by
        rw [walk_snoc, h2]
        simp [child_eq_findChild hgn, hk]
      rw [longestIn_self (by simp [hwk]), hwk]
    | none =>
      have hg0 : g = 0 := by
        rcases h4 with h4 | h4
        · exact h4
        · rw [child_eq_findChild hgn] at h4
          exact absurd hk h4
      subst hg0
      have hv : v = [] := by rw [← hp]; exact inv.root_path
      subst hv
      have hnot : ¬ (walk t 0 ([] ++ [c])).isSome := by
        rw [walk_snoc]
        simp [walk, child_eq_findChild hgn, hk]
      simp only [List.nil_append] at hnot ⊢
      rw [longestIn_cons_of_not hnot]
      simp [longestIn, walk]
  · intro hk
    rcases h4 with h4 | h4
    · exact h4
    · rw [child_eq_findChild hgn] at h4
      exact absurd hk h4
/-! ## Shape facts -/

theorem nodup_length_le {l : List Nat} {n : Nat} (hn : l.Nodup) (hb : ∀ x ∈ l, x < n) :
    l.length ≤ n := by
  have h1 : l.toFinset ⊆ Finset.range n := by
    intro x hx
    rw [List.mem_toFinset] at hx
    exact Finset.mem_range.mpr (hb x hx)
  have h2 := Finset.card_le_card h1
  rw [List.toFinset_card_of_nodup hn, Finset.card_range] at h2
  exact h2

theorem depth_lt_length {t : Trie} {path : Nat → Str} (inv : TrieInv t path) {i : Nat}
    (hi : i < t.length) : (path i).length < t.length := by
  have hsome : ∀ k, (walk t 0 ((path i).take k)).isSome := by
    intro k
    exact walk_initial (List.take_prefix k (path i)) (by simp [inv.reach i hi])
  let g : Nat → Nat := fun k => (walk t 0 ((path i).take k)).getD 0
  have hg : ∀ k, walk t 0 ((path i).take k) = some (g k) := by
    intro k
    have := hsome k
    cases h : walk t 0 ((path i).take k) with
    | none => simp [h] at this
    | some j => simp [g, h]
  have hnd : ((List.range ((path i).length + 1)).map g).Nodup := by
    apply List.Nodup.map_on _ (List.nodup_range _)
    intro x hx y hy hxy
    rw [List.mem_range] at hx hy
    have h1 := (walk_root inv (hg x)).2
    have h2 := (walk_root inv (hg y)).2
    rw [hxy, h2] at h1
    have h3 := congrArg List.length h1
    simp only [List.length_take] at h3
    omega
  have hb : ∀ x ∈ (List.range ((path i).length + 1)).map g, x < t.length := by
    intro x hx
    rw [List.mem_map] at hx
    obtain ⟨k, _, rfl⟩ := hx
    exact (walk_root inv (hg k)).1
  have := nodup_length_le hnd hb
  simp only [List.length_map, List.length_range] at this
  omega

theorem path_ne_nil {t : Trie} {path : Nat → Str} (inv : TrieInv t path) {i : Nat}
    (hi : i < t.length) (h0 : i ≠ 0) : path i ≠ [] := by
  intro h
  have := inv.reach i hi
  rw [h] at this
  simp only [walk, Option.some.injEq] at this
  exact h0 this.symm

theorem exists_parent {t : Trie} {path : Nat → Str} (inv : TrieInv t path) {i : Nat}
    (hi : i < t.length) (h0 : i ≠ 0) :
    ∃ p c, child t p c = some i ∧ p < t.length ∧ path i = path p ++ [c] := by
  have hne := path_ne_nil inv hi h0
  obtain ⟨u, c, hu⟩ : ∃ u c, path i = u ++ [c] := by
    rcases List.eq_nil_or_concat (path i) with h | ⟨u, c, h⟩
    · exact absurd h hne
    · exact ⟨u, c, by rw [h, List.concat_eq_append]⟩
  have hr := inv.reach i hi
  rw [hu, walk_snoc] at hr
  cases hp : walk t 0 u with
  | none => simp [hp] at hr
  | some p =>
    simp only [hp, Option.some_bind] at hr
    obtain ⟨h1, h2⟩ := walk_root inv hp
    exact ⟨p, c, hr, h1, by rw [hu, h2]⟩

theorem parent_unique {t : Trie} {path : Nat → Str} (inv : TrieInv t path) {p q i : Nat}
    {c d : Char} (h1 : child t p c = some i) (h2 : child t q d = some i) : p = q ∧ c = d := by
  have e1 := inv.child_path p c i h1
  have e2 := inv.child_path q d i h2
  rw [e1] at e2
  have h3 := List.append_inj' e2 rfl
  refine ⟨path_inj inv (child_lt_self h1) (child_lt_self h2) h3.1, ?_⟩
  simpa using h3.2

theorem child_depth {t : Trie} {path : Nat → Str} (inv : TrieInv t path) {p i : Nat} {c : Char}
    (h : child t p c = some i) : (path i).length = (path p).length + 1 := by
  rw [inv.child_path p c i h]
  simp

theorem child_ne_root {t : Trie} {path : Nat → Str} (inv : TrieInv t path) {p i : Nat} {c : Char}
    (h : child t p c = some i) : i ≠ 0 := by
  intro h0
  have := child_depth inv h
  rw [h0, inv.root_path] at this
  simp at this

theorem lookup_of_mem {l : List (Char × Nat)} (hk : (l.map Prod.fst).Nodup) {c : Char} {j : Nat}
    (h : (c, j) ∈ l) : l.lookup c = some j := by
  induction l with
  | nil => simp at h
  | cons a l ih =>
    obtain ⟨a1, a2⟩ := a
    simp only [List.map_cons, List.nodup_cons] at hk
    rw [List.lookup_cons]
    rcases List.mem_cons.mp h with h1 | h1
    · cases h1
      simp
    · have hne : ¬ c = a1 := by
        intro e
        subst e
        exact hk.1 (List.mem_map.mpr ⟨(c, j), h1, rfl⟩)
      have : (c == a1) = false := by simpa using hne
      simp only [this]
      exact ih hk.2 h1

theorem mem_of_lookup {l : List (Char × Nat)} {c : Char} {j : Nat} (h : l.lookup c = some j) :
    (c, j) ∈ l := by
  induction l with
  | nil => simp at h
  | cons a l ih =>
    obtain ⟨a1, a2⟩ := a
    rw [List.lookup_cons] at h
    by_cases e : c = a1
    · subst e
      simp at h
      subst h
      simp
    · have : (c == a1) = false := by simpa using e
      simp only [this] at h
      exact List.mem_cons_of_mem _ (ih h)

theorem mem_children_iff {t : Trie} {path : Nat → Str} (inv : TrieInv t path) (i : Nat) (c : Char)
    (j : Nat) : (c, j) ∈ childrenOf t i ↔ child t i c = some j :=
  ⟨fun h => lookup_of_mem (inv.keys i) h, fun h => mem_of_lookup h⟩

theorem children_nodup {t : Trie} {path : Nat → Str} (inv : TrieInv t path) (i : Nat) :
    (childrenOf t i).Nodup :=
  List.Nodup.of_map _ (inv.keys i)

/-! ## The specified output list -/

theorem outSpecAux_fuel (t : Trie) :
    ∀ (k m : Nat) (w : Str), w.length < k → w.length < m →
      outSpecAux t k w = outSpecAux t m w := by
  intro k
  induction k with
  | zero => intro m w h; omega
  | succ k ih =>
    intro m w hk hm
    cases m with
    | zero => omega
    | succ m =>
      simp only [outSpecAux]
      by_cases h1 : w.length ≤ 1
      · simp [h1]
      · simp only [h1, if_false]
        have hw : w ≠ [] := by
          intro e; subst e; simp at h1
        have := lps_length_lt t hw
        rw [ih m (lps t w) (by omega) (by omega)]

theorem outSpec_eq (t : Trie) (w : Str) :
    outSpec t w = ownOut t w ++ (if w.length ≤ 1 then [] else outSpec t (lps t w)) := by
  unfold outSpec
  rw [outSpecAux]
  by_cases h1 : w.length ≤ 1
  · simp [h1]
  · rw [if_neg h1, if_neg h1]
    have hw : w ≠ [] := by
      intro e; subst e; simp at h1
    have := lps_length_lt t hw
    rw [outSpecAux_fuel t w.length ((lps t w).length + 1) (lps t w) (by omega) (by omega)]

theorem ownOut_of_walk {t : Trie} {w : Str} {i : Nat} (h : walk t 0 w = some i) :
    ownOut t w = outputOf t i := by
  simp [ownOut, h]
/-! ## The breadth-first loop -/

theorem child_congr {t s : Trie} (h : ∀ i, childrenOf s i = childrenOf t i) (i : Nat) (c : Char) :
    child s i c = child t i c := by
  simp [child, h]

theorem linkChild_spec {t0 : Trie} {path : Nat → Str} (inv0 : TrieInv t0 path) {d : Nat}
    {t : Trie} {q : List Nat} {ch : Char} {chd : Nat} {rest : List (Char × Nat)}
    {done : List Nat} {cur : Nat}
    (B : BfsInv t0 path d t q ((ch, chd) :: rest) done)
    (hch : child t0 cur ch = some chd) (hcq : cur ∉ q) (hcd : (path cur).length = d)
    (hc0 : cur ≠ 0) (hnd : ((ch, chd) :: rest).Nodup) :
    ∃ t1, linkChild t cur ch chd = some t1 ∧ BfsInv t0 path d t1 (q ++ [chd]) rest done := by
  have inv : TrieInv t path := trieInv_congr inv0 B.len B.children
  have hwalk : ∀ w i, walk t i w = walk t0 i w := fun w i => walk_congr B.children w i
  have hlps : ∀ w, lps t w = lps t0 w := lps_congr B.children
  have hlong : ∀ w, longestIn t w = longestIn t0 w := longestIn_congr B.children
  have hcur_lt : cur < t.length := by rw [B.len]; exact child_lt_self hch
  have hchd_lt : chd < t.length := by rw [B.len]; exact inv0.child_lt _ _ _ hch
  have hchd0 : chd ≠ 0 := child_ne_root inv0 hch
  have hchd_d : (path chd).length = d + 1 := by rw [child_depth inv0 hch, hcd]
  have hchd_path : path chd = path cur ++ [ch] := inv0.child_path _ _ _ hch
  have hlinks : LinksUpTo t path d := by
    intro i hi hi0 hd
    rw [(B.fin i hi hi0 (Or.inl hd)).1, hwalk, hlps]
  have hcur_ne : path cur ≠ [] := path_ne_nil inv hcur_lt hc0
  obtain ⟨cn0, hcn0⟩ := get_of_lt hcur_lt
  have hfail_cur : cn0.fail = walk t 0 (lps t (path cur)) := by
    rw [← failOf_of_get hcn0, (B.fin cur hcur_lt hc0 (Or.inl (le_of_eq hcd))).1, hwalk, hlps]
  have hsome : (walk t 0 (lps t (path cur))).isSome := longestIn_isSome t _
  obtain ⟨f0, hf0⟩ := Option.isSome_iff_exists.mp hsome
  have hu_lt : (lps t (path cur)).length < (path cur).length := lps_length_lt t hcur_ne
  have hdepth := depth_lt_length inv hcur_lt
  obtain ⟨g, gn, hg1, hg2, hg3, hg4⟩ := followFail_target inv ch hf0
    (show (lps t (path cur)).length < t.length by omega)
    (fun i hi hi0 hd => hlinks i hi hi0 (by omega))
  rw [← lps_snoc t hcur_ne ch, ← hchd_path] at hg3
  obtain ⟨target, htarget, hw_target⟩ : ∃ target,
      (findChild gn ch = some target ∨ (findChild gn ch = none ∧ target = root)) ∧
        walk t 0 (lps t (path chd)) = some target := by
    cases hk : findChild gn ch with
    | some k => rw [hk] at hg3; exact ⟨k, Or.inl rfl, hg3.symm⟩
    | none =>
      have hgr : g = root := hg4 hk
      rw [hk] at hg3
      exact ⟨root, Or.inr ⟨rfl, rfl⟩, by rw [← hg3, hgr]⟩
  obtain ⟨htl, htp⟩ := walk_root inv hw_target
  obtain ⟨cn, hcn⟩ := get_of_lt hchd_lt
  obtain ⟨tn, htn⟩ := get_of_lt htl
  have hchd_notq : chd ∉ q := by
    intro hmem
    have := (B.parent cur ch chd hch hcd).mp hmem
    exact this.2 (List.mem_cons_self _ _)
  have hcn_out : cn.output = outputOf t0 chd := by
    rw [← outputOf_of_get hcn]
    apply B.unfin chd hchd_lt hchd0
    rintro (h | h)
    · omega
    · exact hchd_notq h
  have htarget_d : (path target).length ≤ d := by
    have := lps_length_lt t (path_ne_nil inv hchd_lt hchd0)
    rw [htp]
    omega
  have htn_out : tn.output = outSpec t0 (path target) := by
    rw [← outputOf_of_get htn]
    by_cases h0 : target = 0
    · subst h0
      rw [B.root_out, inv0.root_path, outSpec_eq]
      simp [ownOut, walk]
    · exact (B.fin target htl h0 (Or.inl htarget_d)).2
  have hout_new : cn.output ++ tn.output = outSpec t0 (path chd) := by
    rw [outSpec_eq t0 (path chd), hcn_out, htn_out, htp, hlps,
      ownOut_of_walk (inv0.reach chd (by rw [← B.len]; exact hchd_lt))]
    have : ¬ (path chd).length ≤ 1 := by have := B.d_pos; omega
    rw [if_neg this]
  refine ⟨t.set chd { cn with fail := some target, output := cn.output ++ tn.output }, ?_, ?_⟩
  · simp only [linkChild, hcn0, hfail_cur, hf0, hg1, hg2, hcn]
    rcases htarget with hk | ⟨hk, hr⟩
    · simp only [hk, htn]
    · subst hr
      simp only [hk, htn]
  · have hset_ne : ∀ i, i ≠ chd → failOf (t.set chd
          { cn with fail := some target, output := cn.output ++ tn.output }) i = failOf t i ∧
        outputOf (t.set chd
          { cn with fail := some target, output := cn.output ++ tn.output }) i = outputOf t i := by
      intro i hi
      rw [failOf_set hchd_lt, outputOf_set hchd_lt]
      simp [hi]
    refine ⟨by rw [List.length_set]; exact B.len, ?_, ?_, ?_, ?_, ?_, ?_, ?_, ?_, B.d_pos, ?_, ?_⟩
    · intro i
      rw [childrenOf_set hchd_lt, ← B.children]
      by_cases hi : i = chd
      · subst hi; simp [childrenOf_of_get hcn]
      · simp [hi]
    · rw [(hset_ne 0 (Ne.symm hchd0)).1]; exact B.root_fail
    · rw [(hset_ne 0 (Ne.symm hchd0)).2]; exact B.root_out
    · intro i hi hi0 hfin
      rw [List.length_set] at hi
      by_cases hic : i = chd
      · subst hic
        rw [failOf_set hchd_lt, outputOf_set hchd_lt]
        simp only [if_true]
        exact ⟨by rw [← hwalk, ← hlps, hw_target], hout_new⟩
      · rw [(hset_ne i hic).1, (hset_ne i hic).2]
        apply B.fin i hi hi0
        rcases hfin with h | h
        · exact Or.inl h
        · rw [List.mem_append, List.mem_singleton] at h
          rcases h with h | h
          · exact Or.inr h
          · exact absurd h hic
    · intro i hi hi0 hnf
      rw [List.length_set] at hi
      have hic : i ≠ chd := by
        intro e
        exact hnf (Or.inr (by rw [e]; simp))
      rw [(hset_ne i hic).2]
      apply B.unfin i hi hi0
      rintro (h | h)
      · exact hnf (Or.inl h)
      · exact hnf (Or.inr (List.mem_append_left _ h))
    · intro x hx
      rw [List.length_set]
      rw [List.mem_append, List.mem_singleton] at hx
      rcases hx with hx | hx
      · exact B.q_mem x hx
      · subst hx
        exact ⟨hchd_lt, hchd0, Or.inr hchd_d⟩
    · rw [List.pairwise_append]
      refine ⟨B.q_sorted, List.pairwise_singleton _ _, ?_⟩
      intro a ha b hb
      rw [List.mem_singleton] at hb
      subst hb
      rcases (B.q_mem a ha).2.2 with h | h <;> omega
    · intro p c i hpc hpd
      have hp_ne : p ≠ chd := by
        intro e
        rw [e] at hpd
        omega
      have hpq : p ∈ q ++ [chd] ↔ p ∈ q := by
        rw [List.mem_append, List.mem_singleton]
        constructor
        · rintro (h | h)
          · exact h
          · exact absurd h hp_ne
        · exact Or.inl
      rw [hpq]
      by_cases hic : i = chd
      · subst hic
        obtain ⟨e1, e2⟩ := parent_unique inv0 hpc hch
        subst e1; subst e2
        have hnr : (c, i) ∉ rest := (List.nodup_cons.mp hnd).1
        simp [hcq, hnr]
      · have h1 := B.parent p c i hpc hpd
        have h2 : (c, i) ∈ (ch, chd) :: rest ↔ (c, i) ∈ rest := by
          rw [List.mem_cons]
          constructor
          · rintro (h | h)
            · exact absurd (Prod.mk.inj h).2 hic
            · exact h
          · exact Or.inr
        rw [h2] at h1
        rw [← h1, List.mem_append, List.mem_singleton]
        constructor
        · rintro (h | h)
          · exact h
          · exact absurd h hic
        · exact Or.inl
    · rw [← List.append_assoc, List.nodup_append]
      refine ⟨B.all_nodup, List.nodup_singleton _, ?_⟩
      intro a ha hb
      rw [List.mem_singleton] at hb
      subst hb
      rw [List.mem_append] at ha
      rcases ha with ha | ha
      · have := (B.done_mem a ha).2.2
        omega
      · exact hchd_notq ha
    · intro x hx
      rw [List.length_set]
      exact B.done_mem x hx
theorem linkChildren_spec {t0 : Trie} {path : Nat → Str} (inv0 : TrieInv t0 path) {d : Nat}
    {done : List Nat} {cur : Nat} (hcd : (path cur).length = d) (hc0 : cur ≠ 0) :
    ∀ (pend : List (Char × Nat)) (t : Trie) (q : List Nat), BfsInv t0 path d t q pend done →
      (∀ e ∈ pend, child t0 cur e.1 = some e.2) → cur ∉ q → pend.Nodup →
      ∃ t1 q1, linkChildren t cur pend q = some (t1, q1) ∧ BfsInv t0 path d t1 q1 [] done := by
  intro pend
  induction pend with
  | nil =>
    intro t q B _ _ _
    exact ⟨t, q, rfl, B⟩
  | cons e rest ih =>
    intro t q B hch hcq hnd
    obtain ⟨ch, chd⟩ := e
    have hc : child t0 cur ch = some chd := hch (ch, chd) (List.mem_cons_self _ _)
    obtain ⟨t1, h1, B1⟩ := linkChild_spec inv0 B hc hcq hcd hc0 hnd
    have hne : cur ≠ chd := by
      intro heq
      have := child_depth inv0 hc
      rw [← heq] at this
      omega
    obtain ⟨t2, q2, h2, B2⟩ := ih t1 (q ++ [chd]) B1
      (fun e he => hch e (List.mem_cons_of_mem _ he))
      (by
        rw [List.mem_append, List.mem_singleton]
        rintro (h | h)
        · exact hcq h
        · exact hne h)
      (List.nodup_cons.mp hnd).2
    exact ⟨t2, q2, by simp only [linkChildren, h1, h2], B2⟩

theorem bfs_pop {t0 : Trie} {path : Nat → Str} (inv0 : TrieInv t0 path) {d : Nat} {t : Trie}
    {cur : Nat} {qt : List Nat} {done : List Nat} {pend : List (Char × Nat)}
    (B : BfsInv t0 path d t (cur :: qt) [] done) (hcd : (path cur).length = d)
    (hp : pend.Perm (childrenOf t0 cur)) :
    BfsInv t0 path d t qt pend (done ++ [cur]) := by
  have hnd : (cur :: qt).Nodup := (List.nodup_append.mp B.all_nodup).2.1
  have hcq : cur ∉ qt := (List.nodup_cons.mp hnd).1
  have hcm := B.q_mem cur (List.mem_cons_self _ _)
  refine ⟨B.len, B.children, B.root_fail, B.root_out, ?_, ?_, ?_, ?_, ?_, B.d_pos, ?_, ?_⟩
  · intro i hi hi0 hfin
    apply B.fin i hi hi0
    rcases hfin with h | h
    · exact Or.inl h
    · exact Or.inr (List.mem_cons_of_mem _ h)
  · intro i hi hi0 hnf
    apply B.unfin i hi hi0
    rintro (h | h)
    · exact hnf (Or.inl h)
    · rcases List.mem_cons.mp h with h | h
      · subst h
        exact hnf (Or.inl (le_of_eq hcd))
      · exact hnf (Or.inr h)
  · intro x hx
    exact B.q_mem x (List.mem_cons_of_mem _ hx)
  · exact (List.pairwise_cons.mp B.q_sorted).2
  · intro p c i hpc hpd
    have h1 := B.parent p c i hpc hpd
    have hi_ne : i ≠ cur := by
      intro e
      have := child_depth inv0 hpc
      rw [e] at this
      omega
    have h2 : (c, i) ∈ pend ↔ p = cur := by
      rw [hp.mem_iff, mem_children_iff inv0]
      constructor
      · intro h
        exact (parent_unique inv0 hpc h).1
      · intro h
        rw [← h]
        exact hpc
    rw [h2]
    constructor
    · intro h
      have := h1.mp (List.mem_cons_of_mem _ h)
      refine ⟨fun hq => this.1 (List.mem_cons_of_mem _ hq), ?_⟩
      intro e
      exact this.1 (by rw [e]; exact List.mem_cons_self _ _)
    · rintro ⟨hq, hne⟩
      have : i ∈ cur :: qt := by
        apply h1.mpr
        refine ⟨?_, List.not_mem_nil _⟩
        intro hm
        rcases List.mem_cons.mp hm with hm | hm
        · exact hne hm
        · exact hq hm
      rcases List.mem_cons.mp this with h | h
      · exact absurd h hi_ne
      · exact h
  · have := B.all_nodup
    rw [List.append_assoc]
    exact this
  · intro x hx
    rcases List.mem_append.mp hx with h | h
    · exact B.done_mem x h
    · rw [List.mem_singleton] at h
      subst h
      exact ⟨hcm.1, hcm.2.1, le_of_eq hcd⟩

theorem bfs_switch {t0 : Trie} {path : Nat → Str} (inv0 : TrieInv t0 path) {d : Nat} {t : Trie}
    {cur : Nat} {qt : List Nat} {done : List Nat}
    (B : BfsInv t0 path d t (cur :: qt) [] done) (hcd : (path cur).length = d + 1) :
    BfsInv t0 path (d + 1) t (cur :: qt) [] done := by
  have hall : ∀ x ∈ cur :: qt, (path x).length = d + 1 := by
    intro x hx
    rcases List.mem_cons.mp hx with h | h
    · rw [h]; exact hcd
    · have h1 := (List.pairwise_cons.mp B.q_sorted).1 x h
      rcases (B.q_mem x hx).2.2 with h2 | h2 <;> omega
  have hA : ∀ i, i < t.length → i ≠ 0 → (path i).length = d + 1 → i ∈ cur :: qt := by
    intro i hi hi0 hd
    rw [B.len] at hi
    obtain ⟨p, c, hpc, _, hpp⟩ := exists_parent inv0 hi hi0
    have hpd : (path p).length = d := by
      have := child_depth inv0 hpc
      omega
    apply (B.parent p c i hpc hpd).mpr
    refine ⟨?_, List.not_mem_nil _⟩
    intro hm
    have := hall p hm
    omega
  refine ⟨B.len, B.children, B.root_fail, B.root_out, ?_, ?_, ?_, B.q_sorted, ?_, by omega,
    B.all_nodup, ?_⟩
  · intro i hi hi0 hfin
    apply B.fin i hi hi0
    rcases hfin with h | h
    · by_cases h2 : (path i).length ≤ d
      · exact Or.inl h2
      · exact Or.inr (hA i hi hi0 (by omega))
    · exact Or.inr h
  · intro i hi hi0 hnf
    apply B.unfin i hi hi0
    rintro (h | h)
    · exact hnf (Or.inl (by omega))
    · exact hnf (Or.inr h)
  · intro x hx
    exact ⟨(B.q_mem x hx).1, (B.q_mem x hx).2.1, Or.inl (hall x hx)⟩
  · intro p c i hpc hpd
    have hp_lt : p < t.length := by rw [B.len]; exact child_lt_self hpc
    have hp0 : p ≠ 0 := by
      intro e
      rw [e, inv0.root_path] at hpd
      simp at hpd
    have hpq := hA p hp_lt hp0 hpd
    have hiq : i ∉ cur :: qt := by
      intro hm
      have h1 := hall i hm
      have h2 := child_depth inv0 hpc
      omega
    constructor
    · intro h; exact absurd h hiq
    · intro h; exact absurd hpq h.1
  · intro x hx
    obtain ⟨h1, h2, h3⟩ := B.done_mem x hx
    exact ⟨h1, h2, by omega⟩

theorem bfs_final {t0 : Trie} {path : Nat → Str} (inv0 : TrieInv t0 path) {d : Nat} {t : Trie}
    {done : List Nat} (B : BfsInv t0 path d t [] [] done) : Built t0 path t := by
  have hdepth : ∀ i, i < t.length → i ≠ 0 → (path i).length ≤ d := by
    intro i hi hi0
    by_contra hgt
    rw [B.len] at hi
    have hsome : (walk t0 0 ((path i).take (d + 1))).isSome :=
      walk_initial (List.take_prefix _ _) (by simp [inv0.reach i hi])
    have hlen : ((path i).take (d + 1)).length = d + 1 := by
      rw [List.length_take]; omega
    obtain ⟨u, c, hu⟩ : ∃ u c, (path i).take (d + 1) = u ++ [c] := by
      rcases List.eq_nil_or_concat ((path i).take (d + 1)) with h | ⟨u, c, h⟩
      · rw [h] at hlen; simp at hlen
      · exact ⟨u, c, by rw [h, List.concat_eq_append]⟩
    rw [hu, walk_snoc] at hsome
    rw [hu] at hlen
    cases hp : walk t0 0 u with
    | none => simp [hp] at hsome
    | some p =>
      simp only [hp, Option.some_bind] at hsome
      obtain ⟨i1, hi1⟩ := Option.isSome_iff_exists.mp hsome
      have hpd : (path p).length = d := by
        rw [(walk_root inv0 hp).2]
        simp at hlen
        exact hlen
      have := (B.parent p c i1 hi1 hpd).mpr ⟨List.not_mem_nil _, List.not_mem_nil _⟩
      exact List.not_mem_nil _ this
  exact ⟨B.len, B.children, B.root_fail, B.root_out,
    fun i hi hi0 => (B.fin i hi hi0 (Or.inl (hdepth i hi hi0))).1,
    fun i hi hi0 => (B.fin i hi hi0 (Or.inl (hdepth i hi hi0))).2⟩

theorem bfsLoop_spec {t0 : Trie} {path : Nat → Str} (inv0 : TrieInv t0 path)
    {ord : List (Char × Nat) → List (Char × Nat)} (hord : ∀ l, (ord l).Perm l) :
    ∀ (fuel d : Nat) (t : Trie) (q done : List Nat), BfsInv t0 path d t q [] done →
      t0.length ≤ fuel + done.length + 1 →
      ∃ t1, bfsLoop ord fuel t q = some t1 ∧ Built t0 path t1 := by
  intro fuel
  induction fuel with
  | zero =>
    intro d t q done B hf
    cases q with
    | nil => exact ⟨t, rfl, bfs_final inv0 B⟩
    | cons cur qt =>
      exfalso
      have hnd : (0 :: (done ++ cur :: qt)).Nodup := by
        rw [List.nodup_cons]
        refine ⟨?_, B.all_nodup⟩
        intro hm
        rcases List.mem_append.mp hm with h | h
        · exact (B.done_mem 0 h).2.1 rfl
        · exact (B.q_mem 0 h).2.1 rfl
      have hb : ∀ x ∈ 0 :: (done ++ cur :: qt), x < t0.length := by
        intro x hx
        rcases List.mem_cons.mp hx with h | h
        · rw [h]; exact inv0.pos
        · rw [← B.len]
          rcases List.mem_append.mp h with h | h
          · exact (B.done_mem x h).1
          · exact (B.q_mem x h).1
      have := nodup_length_le hnd hb
      simp only [List.length_cons, List.length_append] at this
      omega
  | succ fuel ih =>
    intro d t q done B hf
    cases q with
    | nil => exact ⟨t, by simp [bfsLoop], bfs_final inv0 B⟩
    | cons cur qt =>
      have hcm := B.q_mem cur (List.mem_cons_self _ _)
      obtain ⟨cn, hcn⟩ := get_of_lt hcm.1
      have hchildren : cn.children = childrenOf t0 cur := by
        rw [← childrenOf_of_get hcn, B.children]
      have key : ∀ d1, BfsInv t0 path d1 t (cur :: qt) [] done → (path cur).length = d1 →
          ∃ t1, bfsLoop ord (fuel + 1) t (cur :: qt) = some t1 ∧ Built t0 path t1 := by
        intro d1 B1 hcd
        have hperm : (ord cn.children).Perm (childrenOf t0 cur) := by
          rw [← hchildren]; exact hord _
        have B2 := bfs_pop inv0 B1 hcd hperm
        have hnd : (cur :: qt).Nodup := (List.nodup_append.mp B1.all_nodup).2.1
        obtain ⟨t1, q1, h1, B3⟩ := linkChildren_spec inv0 hcd hcm.2.1 (ord cn.children) t qt B2
          (fun e he => (mem_children_iff inv0 cur e.1 e.2).mp (hperm.mem_iff.mp he))
          (List.nodup_cons.mp hnd).1
          (hperm.nodup_iff.mpr (children_nodup inv0 cur))
        obtain ⟨t2, h2, hB⟩ := ih d1 t1 q1 (done ++ [cur]) B3 (by
          simp only [List.length_append, List.length_singleton]; omega)
        exact ⟨t2, by simp only [bfsLoop, hcn, h1, h2], hB⟩
      rcases hcm.2.2 with hd | hd
      · exact key d B hd
      · exact key (d + 1) (bfs_switch inv0 B hd) hd
theorem initRootChildren_spec :
    ∀ (rest : List (Char × Nat)) (t : Trie) (q : List Nat), (∀ e ∈ rest, e.2 < t.length) →
      ∃ t1, initRootChildren t rest q = some (t1, q ++ rest.map Prod.snd) ∧
        t1.length = t.length ∧ (∀ i, childrenOf t1 i = childrenOf t i) ∧
        (∀ i, outputOf t1 i = outputOf t i) ∧
        (∀ i, failOf t1 i = if i ∈ rest.map Prod.snd then some root else failOf t i) := by
  intro rest
  induction rest with
  | nil =>
    intro t q _
    exact ⟨t, by simp [initRootChildren], rfl, fun _ => rfl, fun _ => rfl, fun _ => by simp⟩
  | cons e rest ih =>
    intro t q hlt
    obtain ⟨c, chd⟩ := e
    have hchd : chd < t.length := hlt (c, chd) (List.mem_cons_self _ _)
    obtain ⟨cn, hcn⟩ := get_of_lt hchd
    obtain ⟨t1, h1, h2, h3, h4, h5⟩ := ih (t.set chd { cn with fail := some root }) (q ++ [chd])
      (fun e he => by rw [List.length_set]; exact hlt e (List.mem_cons_of_mem _ he))
    refine ⟨t1, ?_, ?_, ?_, ?_, ?_⟩
    · simp only [initRootChildren, hcn, h1]
      simp
    · rw [h2, List.length_set]
    · intro i
      rw [h3, childrenOf_set hchd]
      by_cases hi : i = chd
      · subst hi; simp [childrenOf_of_get hcn]
      · simp [hi]
    · intro i
      rw [h4, outputOf_set hchd]
      by_cases hi : i = chd
      · subst hi; simp [outputOf_of_get hcn]
      · simp [hi]
    · intro i
      rw [h5, failOf_set hchd]
      by_cases hi : i = chd
      · subst hi; simp
      · by_cases h2 : i ∈ rest.map Prod.snd
        · simp [h2]
        · have h3 : i ∉ List.map Prod.snd ((c, chd) :: rest) := by
            rw [List.map_cons, List.mem_cons]
            rintro (h | h)
            · exact hi h
            · exact h2 h
          rw [if_neg h2, if_neg hi, if_neg h3]

theorem depth_one_iff {t : Trie} {path : Nat → Str} (inv : TrieInv t path) (i : Nat) :
    (i < t.length ∧ i ≠ 0 ∧ (path i).length ≤ 1) ↔ i ∈ (childrenOf t 0).map Prod.snd := by
  constructor
  · rintro ⟨hi, hi0, hd⟩
    obtain ⟨p, c, hpc, hp, hpp⟩ := exists_parent inv hi hi0
    have hp0 : p = 0 := by
      have h1 := child_depth inv hpc
      have h2 : path p = path 0 := by
        rw [inv.root_path]
        exact List.eq_nil_of_length_eq_zero (by omega)
      exact path_inj inv hp inv.pos h2
    subst hp0
    exact List.mem_map.mpr ⟨(c, i), (mem_children_iff inv 0 c i).mpr hpc, rfl⟩
  · intro h
    obtain ⟨e, he, rfl⟩ := List.mem_map.mp h
    have hc := (mem_children_iff inv 0 e.1 e.2).mp he
    refine ⟨inv.child_lt _ _ _ hc, child_ne_root inv hc, ?_⟩
    rw [child_depth inv hc, inv.root_path]
    simp

theorem buildFailureLinks_spec {t0 : Trie} {path : Nat → Str} (inv0 : TrieInv t0 path)
    {ord : List (Char × Nat) → List (Char × Nat)} (hord : ∀ l, (ord l).Perm l) :
    ∃ t1, buildFailureLinks ord t0 = some t1 ∧ Built t0 path t1 := by
  obtain ⟨r, hr⟩ : ∃ r, t0[root]? = some r := get_of_lt inv0.pos
  have hrc : r.children = childrenOf t0 0 := (childrenOf_of_get hr).symm
  have hperm : (ord r.children).Perm (childrenOf t0 0) := by rw [← hrc]; exact hord _
  have hmem : ∀ i, i ∈ (ord r.children).map Prod.snd ↔ i ∈ (childrenOf t0 0).map Prod.snd :=
    fun i => (hperm.map Prod.snd).mem_iff
  obtain ⟨t1, h1, h2, h3, h4, h5⟩ := initRootChildren_spec (ord r.children)
    (t0.set root { r with fail := some root }) []
    (fun e he => by
      rw [List.length_set]
      exact inv0.child_lt 0 e.1 e.2 ((mem_children_iff inv0 0 e.1 e.2).mp (hperm.mem_iff.mp he)))
  rw [List.length_set] at h2
  have hpos : root < t0.length := inv0.pos
  have hch : ∀ i, childrenOf t1 i = childrenOf t0 i := by
    intro i
    rw [h3, childrenOf_set hpos]
    by_cases hi : i = root
    · subst hi; simp [childrenOf_of_get hr]
    · simp [hi]
  have hout : ∀ i, outputOf t1 i = outputOf t0 i := by
    intro i
    rw [h4, outputOf_set hpos]
    by_cases hi : i = root
    · subst hi; simp [outputOf_of_get hr]
    · simp [hi]
  have hq_depth : ∀ x ∈ (ord r.children).map Prod.snd,
      x < t0.length ∧ x ≠ 0 ∧ (path x).length = 1 := by
    intro x hx
    obtain ⟨a, b, c⟩ := (depth_one_iff inv0 x).mpr ((hmem x).mp hx)
    have := path_ne_nil inv0 a b
    have : (path x).length ≠ 0 := fun h => this (List.eq_nil_of_length_eq_zero h)
    exact ⟨a, b, by omega⟩
  have hq_nodup : ((ord r.children).map Prod.snd).Nodup := by
    apply List.Nodup.map_on _ (hperm.nodup_iff.mpr (children_nodup inv0 0))
    intro x hx y hy hxy
    have hx1 := (mem_children_iff inv0 0 x.1 x.2).mp (hperm.mem_iff.mp hx)
    have hy1 := (mem_children_iff inv0 0 y.1 y.2).mp (hperm.mem_iff.mp hy)
    rw [hxy] at hx1
    exact Prod.ext (parent_unique inv0 hx1 hy1).2 hxy
  have B : BfsInv t0 path 1 t1 ((ord r.children).map Prod.snd) [] [] := by
    refine ⟨h2, hch, ?_, hout 0, ?_, ?_, ?_, ?_, ?_, le_refl _, by simpa using hq_nodup, ?_⟩
    · rw [h5, failOf_set hpos]
      by_cases hm : 0 ∈ (ord r.children).map Prod.snd
      · simp [hm, root]
      · simp [hm, root]
    · intro i hi hi0 hfin
      rw [h2] at hi
      have hiq : i ∈ (ord r.children).map Prod.snd := by
        rcases hfin with h | h
        · exact (hmem i).mpr ((depth_one_iff inv0 i).mp ⟨hi, hi0, h⟩)
        · exact h
      have hd := (hq_depth i hiq).2.2
      obtain ⟨c, hc⟩ : ∃ c, path i = [c] := by
        cases hp : path i with
        | nil => rw [hp] at hd; simp at hd
        | cons a l =>
          cases l with
          | nil => exact ⟨a, rfl⟩
          | cons b l => rw [hp] at hd; simp at hd
      constructor
      · rw [h5, if_pos hiq, hc]
        simp [lps, longestIn, walk, root]
      · rw [hout, outSpec_eq, ownOut_of_walk (inv0.reach i hi)]
        simp [hd]
    · intro i _ _ _
      exact hout i
    · intro x hx
      obtain ⟨a, b, c⟩ := hq_depth x hx
      exact ⟨by rw [h2]; exact a, b, Or.inl c⟩
    · apply List.pairwise_of_forall_mem_list
      intro a ha b hb
      rw [(hq_depth a ha).2.2, (hq_depth b hb).2.2]
    · intro p c i hpc hpd
      have hp_lt := child_lt_self hpc
      have hp0 : p ≠ 0 := by
        intro e
        rw [e, inv0.root_path] at hpd
        simp at hpd
      have hpq : p ∈ (ord r.children).map Prod.snd :=
        (hmem p).mpr ((depth_one_iff inv0 p).mp ⟨hp_lt, hp0, le_of_eq hpd⟩)
      have hiq : i ∉ (ord r.children).map Prod.snd := by
        intro hm
        have h1 := (hq_depth i hm).2.2
        have h2 := child_depth inv0 hpc
        omega
      constructor
      · intro h; exact absurd h hiq
      · intro h; exact absurd hpq h.1
    · intro x hx
      exact absurd hx (List.not_mem_nil _)
  obtain ⟨t2, h6, hB⟩ := bfsLoop_spec inv0 hord t1.length 1 t1 _ [] B (by rw [h2]; omega)
  refine ⟨t2, ?_, hB⟩
  rw [List.nil_append] at h1
  simp only [buildFailureLinks, hr, h1, h6]

/-! ## The scan -/

theorem recordOutputs_eq (i : Nat) (out : List (Str × Int)) (b : Best) :
    recordOutputs i out b = recordAll (out.map (fun e => (i, e))) b := by
  induction out generalizing b with
  | nil => rfl
  | cons e out ih =>
    simp only [recordOutputs, List.map_cons, recordAll, List.foldl_cons]
    exact ih _

theorem recordAll_append (es fs : List (Nat × (Str × Int))) (b : Best) :
    recordAll (es ++ fs) b = recordAll fs (recordAll es b) := by
  simp [recordAll, List.foldl_append]

theorem scanLoop_entries (t : Trie) :
    ∀ (cs : List Char) (i node : Nat) (b : Best),
      (scanLoop t cs i node b).map Prod.snd =
        (scanEntries t cs i node).map (fun es => recordAll es b) := by
  intro cs
  induction cs with
  | nil =>
    intro i node b
    simp [scanLoop, scanEntries, recordAll]
  | cons c cs ih =>
    intro i node b
    simp only [scanLoop, scanEntries]
    cases h1 : stepNode t node c with
    | none => rfl
    | some node1 =>
      simp only []
      cases h2 : t[node1]? with
      | none => rfl
      | some n1 =>
        simp only []
        rw [ih (i + 1) node1 (recordOutputs i n1.output b)]
        cases h3 : scanEntries t cs (i + 1) node1 with
        | none => rfl
        | some es =>
          simp only [Option.map_some', recordAll_append, recordOutputs_eq]

theorem scan_entries (t : Trie) (text : Str) :
    scan t text = (scanEntries t text 0 root).map (fun es => recordAll es Best.init) := by
  unfold scan
  exact scanLoop_entries t text 0 root Best.init

theorem recordEntry_eq (i : Nat) (b : Best) (e : Str × Int) :
    recordEntry i b e = if (e.1.length : Int) > b.longestMatchLength then bestOf (i, e) else b :=
  rfl

/-- The best match after a list of entries: either no entry was longer than the initial best,
or the result is the first entry of maximal length. -/
theorem recordAll_first_max :
    ∀ (es : List (Nat × (Str × Int))) (b : Best),
      (recordAll es b = b ∧ ∀ y ∈ es, (y.2.1.length : Int) ≤ b.longestMatchLength) ∨
      (∃ pre x post, es = pre ++ x :: post ∧ b.longestMatchLength < (x.2.1.length : Int) ∧
        (∀ y ∈ pre, y.2.1.length < x.2.1.length) ∧
        (∀ y ∈ post, y.2.1.length ≤ x.2.1.length) ∧ recordAll es b = bestOf x) := by
  intro es
  induction es with
  | nil =>
    intro b
    left
    exact ⟨rfl, fun y hy => absurd hy (List.not_mem_nil _)⟩
  | cons y es ih =>
    intro b
    have hstep : recordAll (y :: es) b = recordAll es (recordEntry y.1 b y.2) := rfl
    rw [hstep, recordEntry_eq]
    by_cases hgt : (y.2.1.length : Int) > b.longestMatchLength
    · rw [if_pos hgt]
      right
      rcases ih (bestOf (y.1, y.2)) with ⟨h1, h2⟩ | ⟨pre, x, post, h1, h2, h3, h4, h5⟩
      · refine ⟨[], y, es, rfl, hgt, fun _ h => absurd h (List.not_mem_nil _), ?_, h1⟩
        intro z hz
        have := h2 z hz
        simp only [bestOf] at this
        exact_mod_cast this
      · refine ⟨y :: pre, x, post, by rw [h1]; rfl, ?_, ?_, h4, h5⟩
        · simp only [bestOf] at h2
          omega
        · intro z hz
          rcases List.mem_cons.mp hz with hz | hz
          · subst hz
            simp only [bestOf] at h2
            exact_mod_cast h2
          · exact h3 z hz
    · rw [if_neg hgt]
      rcases ih b with ⟨h1, h2⟩ | ⟨pre, x, post, h1, h2, h3, h4, h5⟩
      · left
        refine ⟨h1, ?_⟩
        intro z hz
        rcases List.mem_cons.mp hz with hz | hz
        · subst hz; omega
        · exact h2 z hz
      · right
        refine ⟨y :: pre, x, post, by rw [h1]; rfl, h2, ?_, h4, h5⟩
        intro z hz
        rcases List.mem_cons.mp hz with hz | hz
        · subst hz
          have : (z.2.1.length : Int) < (x.2.1.length : Int) := by omega
          exact_mod_cast this
        · exact h3 z hz
theorem built_inv {t0 : Trie} {path : Nat → Str} {t : Trie} (inv0 : TrieInv t0 path)
    (hB : Built t0 path t) : TrieInv t path :=
  trieInv_congr inv0 hB.len hB.children

theorem built_links {t0 : Trie} {path : Nat → Str} {t : Trie} (hB : Built t0 path t) (d : Nat) :
    LinksUpTo t path d := by
  intro i hi hi0 _
  rw [hB.fail i hi hi0, walk_congr hB.children, lps_congr hB.children]

theorem stepNode_spec {t0 : Trie} {path : Nat → Str} {t : Trie} (inv0 : TrieInv t0 path)
    (hB : Built t0 path t) {u : Str} {node : Nat} (hw : walk t 0 u = some node) (c : Char) :
    stepNode t node c = walk t 0 (longestIn t (u ++ [c])) := by
  have inv := built_inv inv0 hB
  obtain ⟨hn, hp⟩ := walk_root inv hw
  have hd := depth_lt_length inv hn
  rw [hp] at hd
  obtain ⟨g, gn, h1, h2, h3, _⟩ := followFail_target inv c hw hd (built_links hB _)
  rw [← h3]
  simp only [stepNode, h1, h2]

theorem take_append_cons_length {x cs : List Char} {c : Char} :
    (x ++ c :: cs).take (x.length + 1) = x ++ [c] := by
  rw [List.take_append_eq_append_take]
  simp

theorem scanEntries_spec {t0 : Trie} {path : Nat → Str} {t : Trie} (inv0 : TrieInv t0 path)
    (hB : Built t0 path t) :
    ∀ (cs x : List Char) (node : Nat), walk t 0 (longestIn t x) = some node →
      ∃ es, scanEntries t cs x.length node = some es ∧
        ∀ i e, (i, e) ∈ es ↔ (x.length ≤ i ∧ i < x.length + cs.length ∧
          ∃ k, walk t 0 (longestIn t ((x ++ cs).take (i + 1))) = some k ∧ e ∈ outputOf t k) := by
  have inv := built_inv inv0 hB
  intro cs
  induction cs with
  | nil =>
    intro x node _
    refine ⟨[], rfl, ?_⟩
    intro i e
    simp only [List.not_mem_nil, List.length_nil, Nat.add_zero, false_iff]
    rintro ⟨h1, h2, _⟩
    omega
  | cons c cs ih =>
    intro x node hw
    have hstep := stepNode_spec inv0 hB hw c
    rw [← longestIn_snoc] at hstep
    obtain ⟨node1, hn1⟩ := Option.isSome_iff_exists.mp (longestIn_isSome t (x ++ [c]))
    rw [hn1] at hstep
    obtain ⟨hlt, _⟩ := walk_root inv hn1
    obtain ⟨n1, hget⟩ := get_of_lt hlt
    obtain ⟨es, hes, hchar⟩ := ih (x ++ [c]) node1 hn1
    have hlen : (x ++ [c]).length = x.length + 1 := by simp
    rw [hlen] at hes
    refine ⟨n1.output.map (fun e => (x.length, e)) ++ es, ?_, ?_⟩
    · simp only [scanEntries, hstep, hget, hes]
    · intro i e
      rw [List.mem_append, hchar i e, hlen]
      have happ : x ++ [c] ++ cs = x ++ c :: cs := by simp
      rw [happ]
      constructor
      · rintro (h | ⟨h1, h2, h3⟩)
        · obtain ⟨e1, he1, heq⟩ := List.mem_map.mp h
          cases heq
          refine ⟨le_refl _, by simp, node1, ?_, ?_⟩
          · rw [take_append_cons_length]; exact hn1
          · rw [outputOf_of_get hget]; exact he1
        · refine ⟨by omega, by simp only [List.length_cons]; omega, h3⟩
      · rintro ⟨h1, h2, k, h3, h4⟩
        by_cases hi : i = x.length
        · left
          subst hi
          rw [take_append_cons_length, hn1] at h3
          cases h3
          rw [outputOf_of_get hget] at h4
          exact List.mem_map.mpr ⟨e, h4, rfl⟩
        · right
          simp only [List.length_cons] at h2
          exact ⟨by omega, by omega, k, h3, h4⟩

/-- Membership in the specified output list of a path of the trie: the registered pairs whose
text is a suffix of the path. -/
theorem outSpec_mem {ps : List (Str × Int)} {t0 : Trie} {path : Nat → Str}
    (hI : Inserted ps t0 path) (hne : ∀ e ∈ ps, e.1 ≠ []) (e : Str × Int) :
    ∀ (n : Nat) (w : Str), w.length ≤ n → (walk t0 0 w).isSome →
      (e ∈ outSpec t0 w ↔ e ∈ ps ∧ e.1 <:+ w) := by
  have hown : ∀ w, (walk t0 0 w).isSome → (e ∈ ownOut t0 w ↔ e ∈ ps ∧ e.1 = w) := by
    intro w hw
    obtain ⟨k, hk⟩ := Option.isSome_iff_exists.mp hw
    obtain ⟨h1, h2⟩ := walk_root hI.inv hk
    rw [ownOut_of_walk hk, hI.own k h1, h2]
    simp
  intro n
  induction n with
  | zero =>
    intro w hl hw
    have hw0 : w = [] := List.eq_nil_of_length_eq_zero (by omega)
    subst hw0
    rw [outSpec_eq]
    simp only [List.length_nil, Nat.zero_le, if_true, List.append_nil]
    rw [hown [] hw]
    constructor
    · rintro ⟨h1, h2⟩; exact ⟨h1, by rw [h2]⟩
    · rintro ⟨h1, h2⟩; exact ⟨h1, List.eq_nil_of_suffix_nil h2⟩
  | succ n ih =>
    intro w hl hw
    rw [outSpec_eq, List.mem_append, hown w hw]
    cases w with
    | nil =>
      simp only [List.length_nil, Nat.zero_le, if_true, List.not_mem_nil, or_false]
      constructor
      · rintro ⟨h1, h2⟩; exact ⟨h1, by rw [h2]⟩
      · rintro ⟨h1, h2⟩; exact ⟨h1, List.eq_nil_of_suffix_nil h2⟩
    | cons a w =>
      by_cases h1 : (a :: w).length ≤ 1
      · have hw0 : w = [] := by
          simp only [List.length_cons] at h1
          exact List.eq_nil_of_length_eq_zero (by omega)
        subst hw0
        simp only [h1, if_true, List.not_mem_nil, or_false]
        constructor
        · rintro ⟨h2, h3⟩; exact ⟨h2, by rw [h3]⟩
        · rintro ⟨h2, h3⟩
          refine ⟨h2, ?_⟩
          rcases List.suffix_cons_iff.mp h3 with h4 | h4
          · exact h4
          · exact absurd (List.eq_nil_of_suffix_nil h4) (hne e h2)
      · rw [if_neg h1]
        have hlps : (lps t0 (a :: w)).length ≤ n := by
          have := lps_length_lt t0 (List.cons_ne_nil a w)
          omega
        rw [ih (lps t0 (a :: w)) hlps (longestIn_isSome t0 _)]
        constructor
        · rintro (⟨h2, h3⟩ | ⟨h2, h3⟩)
          · exact ⟨h2, by rw [h3]⟩
          · exact ⟨h2, h3.trans (lps_suffix t0 _)⟩
        · rintro ⟨h2, h3⟩
          rcases List.suffix_cons_iff.mp h3 with h4 | h4
          · exact Or.inl ⟨h2, h4⟩
          · right
            refine ⟨h2, ?_⟩
            obtain ⟨k, hk1, hk2⟩ := hI.present e h2
            have hin : (walk t0 0 e.1).isSome := by
              rw [← hk2, hI.inv.reach k hk1]; rfl
            exact longestIn_max t0 w h4 hin

theorem built_output_mem {ps : List (Str × Int)} {t0 : Trie} {path : Nat → Str} {t : Trie}
    (hI : Inserted ps t0 path) (hne : ∀ e ∈ ps, e.1 ≠ []) (hB : Built t0 path t) {w : Str}
    {k : Nat} (hw : walk t 0 w = some k) (e : Str × Int) :
    e ∈ outputOf t k ↔ e ∈ ps ∧ e.1 <:+ w := by
  rw [walk_congr hB.children] at hw
  obtain ⟨h1, h2⟩ := walk_root hI.inv hw
  by_cases hk : k = 0
  · subst hk
    rw [hB.root_out, hI.own 0 h1, ← h2, hI.inv.root_path]
    simp only [List.mem_filter, decide_eq_true_eq]
    constructor
    · rintro ⟨h3, h4⟩; exact ⟨h3, by rw [h4]⟩
    · rintro ⟨h3, h4⟩; exact ⟨h3, List.eq_nil_of_suffix_nil h4⟩
  · rw [hB.out k (by rw [hB.len]; exact h1) hk, h2]
    exact outSpec_mem hI hne e w.length w (le_refl _) (by rw [hw]; rfl)

/-- The entries visited by the scan of `text` over the automaton built from the non-empty
pairs `ps`: the pair `e` is visited at position `i` exactly when it is registered and its text
ends at position `i` of the text. -/
theorem scanEntries_built {ps : List (Str × Int)} {t0 : Trie} {path : Nat → Str} {t : Trie}
    (hI : Inserted ps t0 path) (hne : ∀ e ∈ ps, e.1 ≠ []) (hB : Built t0 path t) (text : Str) :
    ∃ es, scanEntries t text 0 root = some es ∧
      ∀ i e, (i, e) ∈ es ↔ (i < text.length ∧ e ∈ ps ∧ e.1 <:+ text.take (i + 1)) := by
  obtain ⟨es, h1, h2⟩ := scanEntries_spec hI.inv hB text [] root (by simp [longestIn, walk, root])
  refine ⟨es, h1, ?_⟩
  intro i e
  rw [h2 i e]
  simp only [List.length_nil, Nat.zero_le, true_and, Nat.zero_add, List.nil_append]
  constructor
  · rintro ⟨h3, k, h4, h5⟩
    obtain ⟨h6, h7⟩ := (built_output_mem hI hne hB h4 e).mp h5
    exact ⟨h3, h6, h7.trans (longestIn_suffix t _)⟩
  · rintro ⟨h3, h4, h5⟩
    obtain ⟨k, hk⟩ := Option.isSome_iff_exists.mp (longestIn_isSome t (text.take (i + 1)))
    refine ⟨h3, k, hk, (built_output_mem hI hne hB hk e).mpr ⟨h4, ?_⟩⟩
    obtain ⟨j, hj1, hj2⟩ := hI.present e h4
    have hin : (walk t 0 e.1).isSome := by
      rw [walk_congr hB.children, ← hj2, hI.inv.reach j hj1]; rfl
    exact longestIn_max t _ h5 hin

/-! ## generateSubstrings -/

theorem mem_countDown (n k : Nat) : k ∈ countDown n ↔ 1 ≤ k ∧ k ≤ n := by
  induction n with
  | zero => simp [countDown]; omega
  | succ n ih =>
    simp only [countDown, List.mem_cons, ih]
    omega

theorem countDown_eq_range (m : Nat) :
    countDown m = (List.range m).map (fun k => m - k) := by
  induction m with
  | zero => rfl
  | succ m ih =>
    rw [countDown, List.range_succ_eq_map, List.map_cons, List.map_map, ih]
    simp only [Nat.sub_zero, List.cons.injEq, true_and]
    apply List.map_congr_left
    intro k _
    simp only [Function.comp, Nat.succ_eq_add_one]
    omega

theorem substr_length {str : Str} {start length : Nat} (h : start + length ≤ str.length) :
    (substr str start length).length = length := by
  simp only [substr, List.length_take, List.length_drop]
  omega

theorem substr_eq_take_drop (str : Str) (start length : Nat) :
    substr str start length = (str.take (start + length)).drop start := by
  rw [substr, List.take_drop]

theorem toInt32_eq (n : Int) :
    toInt32 n = (n + 2147483648) % 4294967296 - 2147483648 := by
  unfold toInt32
  norm_num

/-- A length below `2^31` is kept by the conversion to `int`. -/
theorem toInt32_of_lt {n : Nat} (h : n < 2 ^ 31) : toInt32 (n : Int) = (n : Int) := by
  rw [toInt32_eq]
  have : (2 : Nat) ^ 31 = 2147483648 := by norm_num
  rw [this] at h
  omega

/-- The conversion to `int` never yields more than the length itself. -/
theorem toInt32_le (n : Nat) : toInt32 (n : Int) ≤ (n : Int) := by
  rw [toInt32_eq]
  omega

theorem mem_substringsOfLength (str : Str) (len : Int) (length : Nat) (e : Str × Int) :
    e ∈ substringsOfLength str len (length : Int) ↔
      ∃ start : Nat, ((start + length : Nat) : Int) ≤ len ∧
        e = (substr str start length, (start : Int)) := by
  unfold substringsOfLength
  rw [List.mem_map]
  simp only [Int.toNat_ofNat, List.mem_range]
  constructor
  · rintro ⟨start, h1, h2⟩
    exact ⟨start, by omega, h2.symm⟩
  · rintro ⟨start, h1, h2⟩
    exact ⟨start, by omega, h2.symm⟩

/-- The pairs that `generateSubstrings` enumerates: the substrings of length between `1` and
`L` that lie within the first `len` characters, `len` being the length converted to `int`. -/
theorem mem_generateSubstrings_iff (str : Str) (L : Int) (e : Str × Int) :
    e ∈ generateSubstrings str L ↔
      ∃ length start : Nat, 1 ≤ length ∧ (length : Int) ≤ L ∧
        ((start + length : Nat) : Int) ≤ toInt32 (str.length : Int) ∧
        e = (substr str start length, (start : Int)) := by
  unfold generateSubstrings
  rw [List.mem_flatMap]
  constructor
  · rintro ⟨length, h1, h2⟩
    rw [mem_countDown] at h1
    obtain ⟨start, h3, h4⟩ := (mem_substringsOfLength str _ length e).mp h2
    exact ⟨length, start, h1.1, by omega, h3, h4⟩
  · rintro ⟨length, start, h1, h2, h3, h4⟩
    exact ⟨length, (mem_countDown _ _).mpr ⟨h1, by omega⟩,
      (mem_substringsOfLength str _ length e).mpr ⟨start, h3, h4⟩⟩

/-- Every enumerated pair is a substring of the string together with its start offset. -/
theorem generated_sound {str : Str} {L : Int} {e : Str × Int}
    (h : e ∈ generateSubstrings str L) :
    ∃ length start : Nat, 1 ≤ length ∧ (length : Int) ≤ L ∧ start + length ≤ str.length ∧
      e = (substr str start length, (start : Int)) := by
  obtain ⟨length, start, h1, h2, h3, h4⟩ := (mem_generateSubstrings_iff str L e).mp h
  have := toInt32_le str.length
  exact ⟨length, start, h1, h2, by omega, h4⟩

/-- For a string shorter than `2^31`, the enumerated pairs are all its substrings of length
between `1` and `L`. -/
theorem mem_generateSubstrings (str : Str) (hlen : str.length < 2 ^ 31) (L : Int)
    (e : Str × Int) :
    e ∈ generateSubstrings str L ↔
      ∃ length start : Nat, 1 ≤ length ∧ (length : Int) ≤ L ∧ start + length ≤ str.length ∧
        e = (substr str start length, (start : Int)) := by
  rw [mem_generateSubstrings_iff, toInt32_of_lt hlen]
  constructor
  · rintro ⟨length, start, h1, h2, h3, h4⟩
    exact ⟨length, start, h1, h2, by omega, h4⟩
  · rintro ⟨length, start, h1, h2, h3, h4⟩
    exact ⟨length, start, h1, h2, by omega, h4⟩

theorem substringsOfLength_nat (str : Str) (length : Nat) :
    substringsOfLength str (str.length : Int) (length : Int) =
      (List.range (str.length + 1 - length)).map
        (fun start => (substr str start length, (start : Int))) := by
  unfold substringsOfLength
  have h1 : ((str.length : Int) - (length : Int) + 1).toNat = str.length + 1 - length := by
    omega
  rw [h1]
  simp

theorem substringsOfLength_long (str : Str) (length : Nat) (h : str.length < length) :
    substringsOfLength str (str.length : Int) (length : Int) = [] := by
  rw [substringsOfLength_nat]
  have : str.length + 1 - length = 0 := by omega
  rw [this]
  rfl

theorem flatMap_countDown_min (str : Str) (L : Nat) :
    (countDown L).flatMap
        (fun length => substringsOfLength str (str.length : Int) (length : Int)) =
      (countDown (min L str.length)).flatMap
        (fun length => substringsOfLength str (str.length : Int) (length : Int)) := by
  induction L with
  | zero => simp
  | succ L ih =>
    by_cases h : L + 1 ≤ str.length
    · rw [Nat.min_eq_left h]
    · have h1 : min (L + 1) str.length = min L str.length := by omega
      rw [h1, ← ih, countDown, List.flatMap_cons,
        substringsOfLength_long str (L + 1) (by omega)]
      rfl

theorem generateSubstrings_eq_enumSpec (S : Str) (hlen : S.length < 2 ^ 31) (L : Nat) :
    generateSubstrings S (L : Int) = enumSpec S L := by
  unfold generateSubstrings enumSpec
  rw [toInt32_of_lt hlen, Int.toNat_ofNat, flatMap_countDown_min, countDown_eq_range]
  apply List.flatMap_congr
  intro len hlen
  rw [List.mem_map] at hlen
  obtain ⟨k, hk, rfl⟩ := hlen
  rw [List.mem_range] at hk
  rw [substringsOfLength_nat]
  have h1 : S.length + 1 - (min L S.length - k) = S.length - (min L S.length - k) + 1 := by
    omega
  rw [h1]
  apply List.map_congr_left
  intro start _
  rw [substr_eq_take_drop]

theorem generateSubstrings_ne_nil (str : Str) (L : Int) :
    ∀ e ∈ generateSubstrings str L, e.1 ≠ [] := by
  intro e he
  obtain ⟨length, start, h1, _, h3, h4⟩ := generated_sound he
  intro h
  have := substr_length h3
  rw [h4] at h
  simp only at h
  rw [h] at this
  simp at this
  omega

/-- In a string shorter than `2^31`, a word of length between `1` and `L` is enumerated
exactly when it is a substring. -/
theorem infix_iff_generated (str : Str) (hlen : str.length < 2 ^ 31) (L : Int) (w : Str) :
    (w ≠ [] ∧ (w.length : Int) ≤ L ∧ w <:+: str) ↔
      ∃ start : Nat, (w, (start : Int)) ∈ generateSubstrings str L ∧
        start + w.length ≤ str.length ∧ substr str start w.length = w := by
  constructor
  · rintro ⟨h1, h2, a, c, h3⟩
    have hw : substr str a.length w.length = w := by
      rw [← h3]
      simp [substr]
    have hl : a.length + w.length ≤ str.length := by
      rw [← h3]; simp
    refine ⟨a.length, (mem_generateSubstrings str hlen L _).mpr
      ⟨w.length, a.length, ?_, h2, hl, by rw [hw]⟩, hl, hw⟩
    have : w.length ≠ 0 := fun h => h1 (List.eq_nil_of_length_eq_zero h)
    omega
  · rintro ⟨start, h1, h2, h3⟩
    obtain ⟨length, s2, h4, h5, h6, h7⟩ := generated_sound h1
    have h8 : w = substr str s2 length := (Prod.mk.inj h7).1
    have h9 : w.length = length := by rw [h8]; exact substr_length h6
    refine ⟨?_, by omega, ?_⟩
    · intro h
      rw [h] at h9
      simp at h9
      omega
    · rw [← h3]
      unfold substr
      exact (List.take_prefix _ _).isInfix.trans (List.drop_suffix _ _).isInfix

theorem infix_iff_suffix_take (text w : Str) (hw : w ≠ []) :
    w <:+: text ↔ ∃ i, i < text.length ∧ w <:+ text.take (i + 1) := by
  constructor
  · rintro ⟨a, c, h⟩
    have hpos : 0 < w.length := List.length_pos.mpr hw
    refine ⟨a.length + w.length - 1, ?_, ?_⟩
    · rw [← h]; simp; omega
    · have h1 : a.length + w.length - 1 + 1 = (a ++ w).length := by simp; omega
      rw [h1, ← h, List.take_left' rfl]
      exact List.suffix_append a w
  · rintro ⟨i, _, h⟩
    exact h.isInfix.trans (List.take_prefix _ _).isInfix

/-! ## One round -/

theorem buildAutomaton_spec {ord : List (Char × Nat) → List (Char × Nat)}
    (hord : ∀ l, (ord l).Perm l) (str1 : Str) (L : Int) :
    ∃ t0 path t, insertAll [TrieNode.new] (generateSubstrings str1 L) = some t0 ∧
      Inserted (generateSubstrings str1 L) t0 path ∧ Built t0 path t ∧
      buildFailureLinks ord t0 = some t ∧ buildAutomaton ord str1 L = some t := by
  obtain ⟨t0, path, h1, hI⟩ := insertAll_fresh (generateSubstrings str1 L)
  obtain ⟨t, h2, hB⟩ := buildFailureLinks_spec hI.inv hord
  exact ⟨t0, path, t, h1, hI, hB, h2, by simp only [buildAutomaton, h1, h2]⟩

theorem scan_outcome {ps : List (Str × Int)} {t0 : Trie} {path : Nat → Str} {t : Trie}
    {src : Str} {L : Int} (hps : ps = generateSubstrings src L)
    (hI : Inserted ps t0 path) (hB : Built t0 path t) (tgt : Str) :
    ∃ b, scan t tgt = some b ∧
      ((b = Best.init ∧ NoEntry src tgt L) ∨
        ∃ i e, IsBestAt src tgt L i e ∧ b = bestOf (i, e)) := by
  subst hps
  have hne := generateSubstrings_ne_nil src L
  obtain ⟨es, h1, h2⟩ := scanEntries_built hI hne hB tgt
  refine ⟨recordAll es Best.init, by rw [scan_entries, h1]; rfl, ?_⟩
  rcases recordAll_first_max es Best.init with ⟨h3, h4⟩ | ⟨pre, x, post, h3, _, h5, h6, h7⟩
  · left
    refine ⟨h3, ?_⟩
    intro j f hj hf hsuf
    have hm : (j, f) ∈ es := (h2 j f).mpr ⟨hj, hf, hsuf⟩
    have := h4 (j, f) hm
    simp only [Best.init] at this
    have hpos : 0 < f.1.length := List.length_pos.mpr (hne f hf)
    omega
  · right
    obtain ⟨i, e⟩ := x
    have hx : (i, e) ∈ es := by rw [h3]; simp
    obtain ⟨a, b, c⟩ := (h2 i e).mp hx
    refine ⟨i, e, ⟨a, b, c, ?_⟩, h7⟩
    intro j f hj hf hsuf
    have hm : (j, f) ∈ es := (h2 j f).mpr ⟨hj, hf, hsuf⟩
    rw [h3, List.mem_append, List.mem_cons] at hm
    rcases hm with hm | hm | hm
    · exact le_of_lt (h5 _ hm)
    · rw [(Prod.mk.inj hm).2]
    · exact h6 _ hm

theorem two_pow_64 : (2 ^ 64 : Int) = 18446744073709551616 := by norm_num

theorem startIndexOf_add_le {i len : Nat} (h : len ≤ i + 1) :
    startIndexOf i len + len ≤ i + 1 := by
  unfold startIndexOf
  simp only [two_pow_64]
  omega

theorem startIndexOf_exact {i len : Nat} (h : len ≤ i + 1) (h1 : 1 ≤ len) (hi : i < 2 ^ 64) :
    startIndexOf i len = i + 1 - len := by
  unfold startIndexOf
  simp only [two_pow_64]
  have : (2 : Nat) ^ 64 = 18446744073709551616 := by norm_num
  rw [this] at hi
  omega

theorem startIndexOf_ne_npos {i len : Nat} (h : len ≤ i + 1) (h1 : 1 ≤ len)
    (hi : i + 1 < 2 ^ 64) : startIndexOf i len ≠ npos := by
  rw [startIndexOf_exact h h1 (by omega)]
  unfold npos
  omega

theorem find_isSome_of_occurs (pat : Str) :
    ∀ s : Str, pat <:+: s → (find s pat).isSome := by
  intro s
  induction s with
  | nil =>
    intro h
    have : pat = [] := List.eq_nil_of_infix_nil h
    simp [find, this]
  | cons c cs ih =>
    intro h
    simp only [find]
    by_cases hp : pat.isPrefixOf (c :: cs) = true
    · simp [hp]
    · simp only [hp]
      rcases List.infix_cons_iff.mp h with h1 | h1
      · exact absurd (List.isPrefixOf_iff_prefix.mpr h1) hp
      · have := ih h1
        obtain ⟨k, hk⟩ := Option.isSome_iff_exists.mp this
        simp [hk]

theorem find_spec (pat : Str) :
    ∀ (s : Str) (k : Nat), find s pat = some k →
      k + pat.length ≤ s.length ∧ substr s k pat.length = pat := by
  intro s
  induction s with
  | nil =>
    intro k h
    simp only [find] at h
    by_cases hp : pat = []
    · subst hp
      simp at h
      subst h
      simp [substr]
    · simp [hp] at h
  | cons c cs ih =>
    intro k h
    simp only [find] at h
    by_cases hp : pat.isPrefixOf (c :: cs) = true
    · simp only [hp, if_true, Option.some.injEq] at h
      subst h
      have hpre := List.isPrefixOf_iff_prefix.mp hp
      refine ⟨by have := hpre.length_le; omega, ?_⟩
      simp only [substr, List.drop_zero]
      exact (List.prefix_iff_eq_take.mp hpre).symm
    · simp only [hp, Bool.false_eq_true, if_false] at h
      cases hf : find cs pat with
      | none => simp [hf] at h
      | some j =>
        simp only [hf, Option.map_some', Option.some.injEq] at h
        subst h
        obtain ⟨h1, h2⟩ := ih j hf
        refine ⟨by simp only [List.length_cons]; omega, ?_⟩
        simpa [substr] using h2

theorem erase_spec {s : Str} {pos n : Nat} (h : pos + n ≤ s.length) :
    ∃ s1, erase s pos n = some s1 ∧ s1 = s.take pos ++ s.drop (pos + n) ∧
      s1.length + n = s.length := by
  refine ⟨s.take pos ++ s.drop (pos + n), ?_, rfl, ?_⟩
  · simp only [erase]
    rw [if_pos (by omega)]
  · simp only [List.length_append, List.length_take, List.length_drop]
    omega

theorem isBestAt_facts {src tgt : Str} {L : Int} {i : Nat} {e : Str × Int}
    (h : IsBestAt src tgt L i e) :
    1 ≤ e.1.length ∧ (e.1.length : Int) ≤ L ∧ e.1.length ≤ i + 1 ∧ i < tgt.length ∧
      0 ≤ e.2 ∧ e.2.toNat + e.1.length ≤ src.length ∧ substr src e.2.toNat e.1.length = e.1 ∧
      substr tgt (i + 1 - e.1.length) e.1.length = e.1 ∧ e.1 <:+: src ∧ e.1 <:+: tgt := by
  obtain ⟨h1, h2, h3, _⟩ := h
  obtain ⟨length, start, h4, h5, h6, h7⟩ := generated_sound h2
  have hlen : e.1.length = length := by rw [h7]; exact substr_length h6
  have hle : e.1.length ≤ i + 1 := by
    have := h3.length_le
    rw [List.length_take] at this
    omega
  have hsub : substr src start length = e.1 := by rw [h7]
  have he2 : e.2 = (start : Int) := by rw [h7]
  have htgt : substr tgt (i + 1 - e.1.length) e.1.length = e.1 := by
    have h8 := List.suffix_iff_eq_drop.mp h3
    rw [List.length_take, Nat.min_eq_left (by omega)] at h8
    unfold substr
    have h9 : List.drop (i + 1 - e.1.length) (List.take (i + 1) tgt) =
        List.take e.1.length (List.drop (i + 1 - e.1.length) tgt) := by
      rw [List.drop_take]
      congr 1
      omega
    rw [← h9, ← h8]
  refine ⟨by omega, by omega, hle, h1, by omega, ?_, ?_, htgt, ?_, ?_⟩
  · rw [he2, Int.toNat_ofNat]; omega
  · rw [he2, Int.toNat_ofNat, hlen]; exact hsub
  · rw [← hsub]
    unfold substr
    exact (List.take_prefix _ _).isInfix.trans (List.drop_suffix _ _).isInfix
  · exact h3.isInfix.trans (List.take_prefix _ _).isInfix

/-- What one round does: the automaton is built, the scan returns, and the round either finds
no registered pair in the text, or records a longest one `e`, found at position `i`, searches
it in the first string and erases it from both strings. -/
theorem round_outcome {ord : List (Char × Nat) → List (Char × Nat)}
    (hord : ∀ l, (ord l).Perm l) (src tgt : Str) (L : Int) :
    ∃ t b r, buildAutomaton ord src L = some t ∧ scan t tgt = some b ∧
      round ord L src tgt = some r ∧
      ((b = Best.init ∧ NoEntry src tgt L ∧ r = ⟨false, tgt, src, none⟩) ∨
        ∃ i e k, IsBestAt src tgt L i e ∧ b = bestOf (i, e) ∧ find src e.1 = some k ∧
          k + e.1.length ≤ src.length ∧ substr src k e.1.length = e.1 ∧
          ((startIndexOf i e.1.length = npos ∧ r = ⟨false, tgt, src, none⟩) ∨
            (startIndexOf i e.1.length ≠ npos ∧
              r = ⟨true,
                tgt.take (startIndexOf i e.1.length) ++
                  tgt.drop (startIndexOf i e.1.length + e.1.length),
                src.take k ++ src.drop (k + e.1.length),
                some ⟨e.1, startIndexOf i e.1.length, e.2⟩⟩))) := by
  obtain ⟨t0, path, t, _, hI, hB, _, hbuild⟩ := buildAutomaton_spec hord src L
  obtain ⟨b, hscan, hb⟩ := scan_outcome rfl hI hB tgt
  rcases hb with ⟨hb1, hb2⟩ | ⟨i, e, hbest, hb1⟩
  · refine ⟨t, b, ⟨false, tgt, src, none⟩, hbuild, hscan, ?_, Or.inl ⟨hb1, hb2, rfl⟩⟩
    simp only [round, hbuild, searchAndRemoveLongestMatch, hscan]
    rw [hb1]
    simp [Best.init]
  · obtain ⟨f1, f2, f3, f4, f5, f6, f7, f8, f9, f10⟩ := isBestAt_facts hbest
    obtain ⟨k, hk⟩ := Option.isSome_iff_exists.mp (find_isSome_of_occurs e.1 src f9)
    obtain ⟨hk1, hk2⟩ := find_spec e.1 src k hk
    by_cases hs : startIndexOf i e.1.length = npos
    · refine ⟨t, b, ⟨false, tgt, src, none⟩, hbuild, hscan, ?_,
        Or.inr ⟨i, e, k, hbest, hb1, hk, hk1, hk2, Or.inl ⟨hs, rfl⟩⟩⟩
      simp only [round, hbuild, searchAndRemoveLongestMatch, hscan]
      rw [hb1]
      simp [bestOf, hs]
    · have hadd := startIndexOf_add_le f3
      obtain ⟨s1, he1, he2, _⟩ := @erase_spec tgt (startIndexOf i e.1.length) e.1.length
        (by omega)
      obtain ⟨s2, he3, he4, _⟩ := @erase_spec src k e.1.length hk1
      refine ⟨t, b, _, hbuild, hscan, ?_,
        Or.inr ⟨i, e, k, hbest, hb1, hk, hk1, hk2, Or.inr ⟨hs, rfl⟩⟩⟩
      simp only [round, hbuild, searchAndRemoveLongestMatch, hscan]
      rw [hb1]
      simp only [bestOf, ne_eq, hs, not_false_eq_true, if_true, hk, Int.toNat_ofNat, he1, he3,
        he2, he4]

/-! ## The round loop -/

theorem noEntry_closure {src tgt : Str} {L : Int} (hlen : src.length < 2 ^ 31)
    (h : NoEntry src tgt L) (w : Str)
    (hw : w ≠ []) (hl : (w.length : Int) ≤ L) (hs : w <:+: src) : ¬ w <:+: tgt := by
  intro ht
  obtain ⟨start, h1, _, _⟩ := (infix_iff_generated src hlen L w).mp ⟨hw, hl, hs⟩
  obtain ⟨i, hi, h2⟩ := (infix_iff_suffix_take tgt w hw).mp ht
  exact h i (w, (start : Int)) hi h1 h2

theorem isBestAt_longest {src tgt : Str} {L : Int} {i : Nat} {e : Str × Int}
    (hlen : src.length < 2 ^ 31)
    (h : IsBestAt src tgt L i e) (w : Str) (hl : (w.length : Int) ≤ L) (hs : w <:+: src)
    (ht : w <:+: tgt) : w.length ≤ e.1.length := by
  by_cases hw : w = []
  · subst hw; simp
  · obtain ⟨start, h1, _, _⟩ := (infix_iff_generated src hlen L w).mp ⟨hw, hl, hs⟩
    obtain ⟨j, hj, h2⟩ := (infix_iff_suffix_take tgt w hw).mp ht
    exact h.2.2.2 j (w, (start : Int)) hj h1 h2

theorem built_unique {t0 : Trie} {path : Nat → Str} {t1 t2 : Trie} (h1 : Built t0 path t1)
    (h2 : Built t0 path t2) : t1 = t2 := by
  apply List.ext_getElem?
  intro i
  by_cases hi : i < t0.length
  · obtain ⟨n1, hn1⟩ := get_of_lt (show i < t1.length by rw [h1.len]; exact hi)
    obtain ⟨n2, hn2⟩ := get_of_lt (show i < t2.length by rw [h2.len]; exact hi)
    rw [hn1, hn2]
    have hc : n1.children = n2.children := by
      rw [← childrenOf_of_get hn1, ← childrenOf_of_get hn2, h1.children, h2.children]
    have hf : n1.fail = n2.fail := by
      rw [← failOf_of_get hn1, ← failOf_of_get hn2]
      by_cases h0 : i = 0
      · subst h0; rw [h1.root_fail, h2.root_fail]
      · rw [h1.fail i (by rw [h1.len]; exact hi) h0, h2.fail i (by rw [h2.len]; exact hi) h0]
    have ho : n1.output = n2.output := by
      rw [← outputOf_of_get hn1, ← outputOf_of_get hn2]
      by_cases h0 : i = 0
      · subst h0; rw [h1.root_out, h2.root_out]
      · rw [h1.out i (by rw [h1.len]; exact hi) h0, h2.out i (by rw [h2.len]; exact hi) h0]
    cases n1
    cases n2
    simp only at hc hf ho
    rw [hc, hf, ho]
  · rw [List.getElem?_eq_none (by rw [h1.len]; omega),
      List.getElem?_eq_none (by rw [h2.len]; omega)]

theorem buildFailureLinks_order {ord1 ord2 : List (Char × Nat) → List (Char × Nat)}
    (h1 : ∀ l, (ord1 l).Perm l) (h2 : ∀ l, (ord2 l).Perm l) {t0 : Trie} {path : Nat → Str}
    (inv : TrieInv t0 path) :
    ∃ t, buildFailureLinks ord1 t0 = some t ∧ buildFailureLinks ord2 t0 = some t := by
  obtain ⟨t1, e1, b1⟩ := buildFailureLinks_spec inv h1
  obtain ⟨t2, e2, b2⟩ := buildFailureLinks_spec inv h2
  exact ⟨t1, e1, by rw [e2, built_unique b1 b2]⟩

theorem buildAutomaton_order {ord1 ord2 : List (Char × Nat) → List (Char × Nat)}
    (h1 : ∀ l, (ord1 l).Perm l) (h2 : ∀ l, (ord2 l).Perm l) (src : Str) (L : Int) :
    buildAutomaton ord1 src L = buildAutomaton ord2 src L := by
  obtain ⟨t0, path, e0, hI⟩ := insertAll_fresh (generateSubstrings src L)
  obtain ⟨t, e1, e2⟩ := buildFailureLinks_order h1 h2 hI.inv
  simp only [buildAutomaton, e0, e1, e2]

theorem mainLoop_order {ord1 ord2 : List (Char × Nat) → List (Char × Nat)}
    (h1 : ∀ l, (ord1 l).Perm l) (h2 : ∀ l, (ord2 l).Perm l) (L : Int) :
    ∀ (fuel : Nat) (src tgt : Str), mainLoop ord1 L fuel src tgt = mainLoop ord2 L fuel src tgt := by
  intro fuel
  induction fuel with
  | zero => intro src tgt; rfl
  | succ fuel ih =>
    intro src tgt
    simp only [mainLoop, round, buildAutomaton_order h1 h2 src L]
    cases buildAutomaton ord2 src L with
    | none => rfl
    | some t =>
      simp only []
      cases searchAndRemoveLongestMatch t tgt src with
      | none => rfl
      | some r =>
        simp only [ih]

/-- The effect of a round on the lengths: nothing changes, or both strings lose the same
positive number of characters. -/
theorem round_lengths {ord : List (Char × Nat) → List (Char × Nat)}
    (hord : ∀ l, (ord l).Perm l) (src tgt : Str) (L : Int) :
    ∃ r, round ord L src tgt = some r ∧
      ((r.removed = false ∧ r = ⟨false, tgt, src, none⟩) ∨
        (r.removed = true ∧ ∃ rep, r.report = some rep ∧ 1 ≤ rep.pattern.length ∧
          r.patternText.length + rep.pattern.length = src.length ∧
          r.text.length + rep.pattern.length = tgt.length)) := by
  obtain ⟨t, b, r, _, _, hr, hcase⟩ := round_outcome hord src tgt L
  refine ⟨r, hr, ?_⟩
  rcases hcase with ⟨_, _, h3⟩ | ⟨i, e, k, hbest, _, _, hk1, _, hs⟩
  · left; rw [h3]; exact ⟨rfl, rfl⟩
  · rcases hs with ⟨_, h3⟩ | ⟨_, h3⟩
    · left; rw [h3]; exact ⟨rfl, rfl⟩
    · right
      obtain ⟨f1, _, f3, f4, _⟩ := isBestAt_facts hbest
      have hadd := startIndexOf_add_le f3
      rw [h3]
      refine ⟨rfl, _, rfl, f1, ?_, ?_⟩
      · simp only [List.length_append, List.length_take, List.length_drop]
        omega
      · simp only [List.length_append, List.length_take, List.length_drop]
        omega

theorem mainLoop_terminates {ord : List (Char × Nat) → List (Char × Nat)}
    (hord : ∀ l, (ord l).Perm l) (L : Int) :
    ∀ (fuel : Nat) (src tgt : Str), src.length + tgt.length < 2 * fuel →
      ∃ o, mainLoop ord L fuel src tgt = some o ∧
        2 * o.events.length ≤ src.length + tgt.length := by
  intro fuel
  induction fuel with
  | zero => intro src tgt h; omega
  | succ fuel ih =>
    intro src tgt h
    obtain ⟨r, hr, hcase⟩ := round_lengths hord src tgt L
    rcases hcase with ⟨h1, _⟩ | ⟨h1, rep, h2, h3, h4, h5⟩
    · refine ⟨⟨[], src, tgt⟩, ?_, by simp⟩
      simp only [mainLoop, hr, h1]
      simp
    · obtain ⟨o, ho, hlen⟩ := ih r.patternText r.text (by omega)
      refine ⟨⟨r.report.toList ++ o.events, o.str1, o.str2⟩, ?_, ?_⟩
      · simp only [mainLoop, hr, h1, ho]
        simp
      · simp only [h2, Option.toList_some, List.length_append, List.length_singleton]
        omega

theorem mainLoop_closure {ord : List (Char × Nat) → List (Char × Nat)}
    (hord : ∀ l, (ord l).Perm l) (L : Int) :
    ∀ (fuel : Nat) (src tgt : Str) (o : Outcome), src.length < 2 ^ 31 → tgt.length < 2 ^ 64 →
      mainLoop ord L fuel src tgt = some o →
      ∀ w : Str, w ≠ [] → (w.length : Int) ≤ L → w <:+: o.str1 → ¬ w <:+: o.str2 := by
  intro fuel
  induction fuel with
  | zero => intro src tgt o _ _ h; simp [mainLoop] at h
  | succ fuel ih =>
    intro src tgt o hsrc hb h
    obtain ⟨t, b, r, _, _, hr, hcase⟩ := round_outcome hord src tgt L
    have hno : NoEntry src tgt L → r = ⟨false, tgt, src, none⟩ →
        ∀ w : Str, w ≠ [] → (w.length : Int) ≤ L → w <:+: o.str1 → ¬ w <:+: o.str2 := by
      intro hn hreq
      simp only [mainLoop, hr, hreq] at h
      simp at h
      rw [← h]
      exact noEntry_closure hsrc hn
    rcases hcase with ⟨_, h2, h3⟩ | ⟨i, e, k, hbest, _, _, _, _, hs⟩
    · exact hno h2 h3
    · obtain ⟨f1, _, f3, f4, _⟩ := isBestAt_facts hbest
      rcases hs with ⟨h2, _⟩ | ⟨_, h3⟩
      · exact absurd h2 (startIndexOf_ne_npos f3 f1 (by omega))
      · have hadd := startIndexOf_add_le f3
        simp only [mainLoop, hr, h3] at h
        simp only [if_true] at h
        cases hrec : mainLoop ord L fuel (src.take k ++ src.drop (k + e.1.length))
            (tgt.take (startIndexOf i e.1.length) ++
              tgt.drop (startIndexOf i e.1.length + e.1.length)) with
        | none => rw [hrec] at h; simp at h
        | some o1 =>
          rw [hrec] at h
          simp only [Option.some.injEq] at h
          have := ih _ _ o1 (by
            simp only [List.length_append, List.length_take, List.length_drop]
            omega) (by
            simp only [List.length_append, List.length_take, List.length_drop]
            omega) hrec
          rw [← h]
          exact this

theorem mainLoop_fuel_succ (ord : List (Char × Nat) → List (Char × Nat)) (L : Int) :
    ∀ (fuel : Nat) (src tgt : Str) (o : Outcome), mainLoop ord L fuel src tgt = some o →
      mainLoop ord L (fuel + 1) src tgt = some o := by
  intro fuel
  induction fuel with
  | zero => intro src tgt o h; simp [mainLoop] at h
  | succ fuel ih =>
    intro src tgt o h
    rw [mainLoop] at h ⊢
    cases hr : round ord L src tgt with
    | none => rw [hr] at h; simp at h
    | some r =>
      rw [hr] at h
      simp only at h ⊢
      by_cases hrem : r.removed = true
      · rw [if_pos hrem] at h ⊢
        cases hrec : mainLoop ord L fuel r.patternText r.text with
        | none => rw [hrec] at h; simp at h
        | some o1 =>
          rw [hrec] at h
          rw [ih _ _ o1 hrec]
          exact h
      · rw [if_neg hrem] at h ⊢
        exact h

theorem mainLoop_fuel_le (ord : List (Char × Nat) → List (Char × Nat)) (L : Int)
    {fuel fuel1 : Nat} (hle : fuel ≤ fuel1) {src tgt : Str} {o : Outcome}
    (h : mainLoop ord L fuel src tgt = some o) : mainLoop ord L fuel1 src tgt = some o := by
  induction hle with
  | refl => exact h
  | step _ ih => exact mainLoop_fuel_succ ord L _ src tgt o ih

/-- A round that removes nothing ends the loop: no event, both strings as they were. -/
theorem mainLoop_of_no_removal {ord : List (Char × Nat) → List (Char × Nat)} {L : Int}
    {src tgt : Str} (h : round ord L src tgt = some ⟨false, tgt, src, none⟩) (fuel : Nat)
    (hf : 0 < fuel) : mainLoop ord L fuel src tgt = some ⟨[], src, tgt⟩ := by
  cases fuel with
  | zero => omega
  | succ fuel =>
    simp only [mainLoop, h]
    simp


/-! ## Sources of `2^31` characters or more -/

theorem srcWide_length : srcWide.length = 2 ^ 31 + 1 := by
  unfold srcWide
  rw [List.length_replicate]

theorem srcWrapped_length : srcWrapped.length = 2 ^ 32 + 1 := by
  unfold srcWrapped
  rw [List.length_cons, List.length_cons, List.length_replicate]
  norm_num

theorem toInt32_srcWide : toInt32 (srcWide.length : Int) = -2147483647 := by
  rw [srcWide_length, toInt32_eq]
  norm_num

theorem toInt32_srcWrapped : toInt32 (srcWrapped.length : Int) = 1 := by
  rw [srcWrapped_length, toInt32_eq]
  norm_num

/-- For the source of `2^31 + 1` characters nothing is enumerated. -/
theorem generateSubstrings_srcWide (L : Int) : generateSubstrings srcWide L = [] := by
  apply List.eq_nil_iff_forall_not_mem.mpr
  intro e he
  obtain ⟨length, start, h1, _, h3, _⟩ := (mem_generateSubstrings_iff srcWide L e).mp he
  rw [toInt32_srcWide] at h3
  omega

theorem substr_srcWrapped_zero_one : substr srcWrapped 0 1 = ['a'] := by
  unfold substr srcWrapped
  rw [List.drop_zero, List.take_succ_cons, List.take_zero]

theorem ab_infix_srcWrapped : (['a', 'b'] : Str) <:+: srcWrapped :=
  ⟨[], List.replicate (2 ^ 32 - 1) 'c', rfl⟩

theorem b_infix_srcWrapped : (['b'] : Str) <:+: srcWrapped :=
  ⟨['a'], List.replicate (2 ^ 32 - 1) 'c', rfl⟩

theorem a_mem_srcWide : 'a' ∈ srcWide := by
  unfold srcWide
  rw [List.mem_replicate]
  exact ⟨by norm_num, rfl⟩

theorem round_srcWide {ord : List (Char × Nat) → List (Char × Nat)}
    (hord : ∀ l, (ord l).Perm l) (tgt : Str) (L : Int) :
    round ord L srcWide tgt = some ⟨false, tgt, srcWide, none⟩ := by
  obtain ⟨t, b, r, _, _, hr, hcase⟩ := round_outcome hord srcWide tgt L
  rcases hcase with ⟨_, _, h3⟩ | ⟨i, e, k, hbest, _⟩
  · rw [hr, h3]
  · exfalso
    have := hbest.2.1
    rw [generateSubstrings_srcWide] at this
    exact List.not_mem_nil _ this

theorem range_one_eq : List.range 1 = [0] := rfl

/-- For the source of `2^32 + 1` characters and `maxLength = 1` only the first character is
enumerated. -/
theorem generateSubstrings_srcWrapped_one :
    generateSubstrings srcWrapped 1 = [(['a'], 0)] := by
  unfold generateSubstrings
  rw [toInt32_srcWrapped]
  show (countDown 1).flatMap _ = _
  simp only [countDown, List.flatMap_cons, List.flatMap_nil, substringsOfLength, List.append_nil]
  show (List.range 1).map _ = _
  rw [range_one_eq, List.map_cons, List.map_nil]
  show [(substr srcWrapped 0 1, (0 : Int))] = _
  rw [substr_srcWrapped_zero_one]

/-- For the source of `2^32 + 1` characters and `maxLength = 2` only the first character is
enumerated: `len - 2` is negative. -/
theorem generateSubstrings_srcWrapped_two :
    generateSubstrings srcWrapped 2 = [(['a'], 0)] := by
  unfold generateSubstrings
  rw [toInt32_srcWrapped]
  show (countDown 2).flatMap _ = _
  simp only [countDown, List.flatMap_cons, List.flatMap_nil, substringsOfLength, List.append_nil]
  show (List.range 0).map _ ++ (List.range 1).map _ = _
  rw [List.range_zero, List.map_nil, List.nil_append, range_one_eq, List.map_cons, List.map_nil]
  show [(substr srcWrapped 0 1, (0 : Int))] = _
  rw [substr_srcWrapped_zero_one]

/-- The automaton of the single pattern `a` registered at offset `0`. -/
theorem automaton_a :
    (match insertAll [TrieNode.new] [((['a'] : Str), (0 : Int))] with
      | none => none
      | some t => buildFailureLinks id t) =
      some [⟨[('a', 1)], some 0, []⟩, ⟨[], some 0, [(['a'], 0)]⟩] := by
  decide

theorem buildAutomaton_eq (ord : List (Char × Nat) → List (Char × Nat)) (s : Str) (L : Int)
    (g : List (Str × Int)) (h : generateSubstrings s L = g) :
    buildAutomaton ord s L =
      match insertAll [TrieNode.new] g with
      | none => none
      | some t => buildFailureLinks ord t := by
  subst h
  rfl

theorem buildAutomaton_srcWrapped_one :
    buildAutomaton id srcWrapped 1 =
      some [⟨[('a', 1)], some 0, []⟩, ⟨[], some 0, [(['a'], 0)]⟩] :=
  (buildAutomaton_eq id srcWrapped 1 _ generateSubstrings_srcWrapped_one).trans automaton_a

theorem buildAutomaton_srcWrapped_two :
    buildAutomaton id srcWrapped 2 =
      some [⟨[('a', 1)], some 0, []⟩, ⟨[], some 0, [(['a'], 0)]⟩] :=
  (buildAutomaton_eq id srcWrapped 2 _ generateSubstrings_srcWrapped_two).trans automaton_a

theorem find_srcWrapped : find srcWrapped ['a'] = some 0 := by
  unfold srcWrapped find
  rfl

theorem erase_srcWrapped :
    erase srcWrapped 0 1 = some ('b' :: List.replicate (2 ^ 32 - 1) 'c') := by
  unfold erase
  rw [if_pos (Nat.zero_le _)]
  unfold srcWrapped
  rfl

/-- A round whose scan recorded a match that `find` locates removes it from both strings. -/
theorem round_removed {ord : List (Char × Nat) → List (Char × Nat)} {L : Int} {src tgt : Str}
    {t : Trie} {b : Best} {k : Nat} {text1 patternText1 : Str}
    (h1 : buildAutomaton ord src L = some t) (h2 : scan t tgt = some b)
    (h3 : b.matchStartIndex ≠ npos) (h4 : find src b.longestMatch = some k)
    (h5 : erase tgt b.matchStartIndex b.longestMatchLength.toNat = some text1)
    (h6 : erase src k b.longestMatchLength.toNat = some patternText1) :
    round ord L src tgt =
      some ⟨true, text1, patternText1,
        some ⟨b.longestMatch, b.matchStartIndex, b.str1MatchIndex⟩⟩ := by
  unfold round
  rw [h1]
  show searchAndRemoveLongestMatch t tgt src = _
  unfold searchAndRemoveLongestMatch
  rw [h2]
  simp only []
  rw [if_pos h3, h4]
  simp only []
  rw [h5, h6]

theorem scan_automaton_a_ba :
    scan [⟨[('a', 1)], some 0, []⟩, ⟨[], some 0, [(['a'], 0)]⟩] ['b', 'a'] =
      some ⟨1, 1, ['a'], 0⟩ := by
  decide

theorem scan_automaton_a_ab :
    scan [⟨[('a', 1)], some 0, []⟩, ⟨[], some 0, [(['a'], 0)]⟩] ['a', 'b'] =
      some ⟨1, 0, ['a'], 0⟩ := by
  decide

theorem round_srcWrapped_ba :
    round id 1 srcWrapped ['b', 'a'] =
      some ⟨true, ['b'], 'b' :: List.replicate (2 ^ 32 - 1) 'c', some ⟨['a'], 1, 0⟩⟩ :=
  round_removed buildAutomaton_srcWrapped_one scan_automaton_a_ba (by decide)
    find_srcWrapped (by decide) erase_srcWrapped

theorem a_infix_srcWide : (['a'] : Str) <:+: srcWide := by
  refine ⟨[], List.replicate (2 ^ 31) 'a', ?_⟩
  unfold srcWide
  rw [List.replicate_succ]
  rfl

theorem mainLoop_srcWide {ord : List (Char × Nat) → List (Char × Nat)}
    (hord : ∀ l, (ord l).Perm l) (tgt : Str) (L : Int) (fuel : Nat) :
    mainLoop ord L (fuel + 1) srcWide tgt = some ⟨[], srcWide, tgt⟩ :=
  mainLoop_of_no_removal (round_srcWide hord tgt L) (fuel + 1) (Nat.succ_pos fuel)

theorem take_one_srcWide : (srcWide.take (0 + 1)).drop 0 = ['a'] := by
  unfold srcWide
  rw [List.replicate_succ, List.take_succ_cons, List.take_zero, List.drop_zero]

/-- Every pair that the specification lists is in `enumSpec`. -/
theorem mem_enumSpec (S : Str) (L len start : Nat) (h1 : 1 ≤ len) (h2 : len ≤ min L S.length)
    (h3 : start + len ≤ S.length) :
    ((S.take (start + len)).drop start, (start : Int)) ∈ enumSpec S L := by
  unfold enumSpec
  rw [List.mem_flatMap]
  refine ⟨len, ?_, ?_⟩
  · rw [List.mem_map]
    exact ⟨min L S.length - len, List.mem_range.mpr (by omega), by omega⟩
  · rw [List.mem_map]
    exact ⟨start, List.mem_range.mpr (by omega), rfl⟩

/-! ## The claims -/

theorem singleton_infix_of_mem {c : Char} {l : Str} (h : c ∈ l) : [c] <:+: l := by
  obtain ⟨s, t, rfl⟩ := List.append_of_mem h
  exact ⟨s, t, by simp⟩

/-- C1, as stated for every source, fails once the length of the source does not fit `int`:
for the source `ab` followed by `2^32 - 1` characters `c`, whose length `2^32 + 1` becomes
`len = 1`, and `L = 2`, only `("a", 0)` is registered, and the scan of the target `ab` records
`a` although `ab`, of length `2`, is a substring of both. -/
theorem longest_registered_match_counterexample :
    generateSubstrings srcWrapped 2 = [(['a'], 0)] ∧
      buildAutomaton id srcWrapped 2 =
        some [⟨[('a', 1)], some 0, []⟩, ⟨[], some 0, [(['a'], 0)]⟩] ∧
      scan [⟨[('a', 1)], some 0, []⟩, ⟨[], some 0, [(['a'], 0)]⟩] ['a', 'b'] =
        some ⟨1, 0, ['a'], 0⟩ ∧
      ((['a', 'b'] : Str).length : Int) ≤ 2 ∧
      (['a', 'b'] : Str) <:+: srcWrapped ∧ (['a', 'b'] : Str) <:+: ['a', 'b'] ∧
      (['a'] : Str).length < (['a', 'b'] : Str).length :=
  ⟨generateSubstrings_srcWrapped_two, buildAutomaton_srcWrapped_two, scan_automaton_a_ab,
    by decide, ab_infix_srcWrapped, List.infix_refl _, by decide⟩

/-- C1, amended (longest registered match, for a source whose length fits `int`).  For every
source shorter than `2^31`, every target and bound `L` the automaton of
`generateSubstrings source L` is built and the scan of the target returns; if the scan recorded
a best match `P` (its recorded length is positive), then `P` has length between `1` and `L`, is
a contiguous substring of the source and of the target, and every string of length at most `L`
that is a substring of both is at most as long as `P`. -/
theorem longest_registered_match (ord : List (Char × Nat) → List (Char × Nat))
    (hord : ∀ l, (ord l).Perm l) (src tgt : Str) (L : Int) (hsrc : src.length < 2 ^ 31) :
    ∃ t b, buildAutomaton ord src L = some t ∧ scan t tgt = some b ∧
      (0 < b.longestMatchLength →
        b.longestMatchLength = (b.longestMatch.length : Int) ∧
        (b.longestMatch.length : Int) ≤ L ∧
        b.longestMatch <:+: src ∧ b.longestMatch <:+: tgt ∧
        ∀ w : Str, (w.length : Int) ≤ L → w <:+: src → w <:+: tgt →
          w.length ≤ b.longestMatch.length) := by
  obtain ⟨t, b, r, h1, h2, _, hcase⟩ := round_outcome hord src tgt L
  refine ⟨t, b, h1, h2, ?_⟩
  intro hpos
  rcases hcase with ⟨h3, _, _⟩ | ⟨i, e, k, hbest, h3, _⟩
  · rw [h3] at hpos
    simp [Best.init] at hpos
  · obtain ⟨_, f2, _, _, _, _, _, _, f9, f10⟩ := isBestAt_facts hbest
    rw [h3]
    exact ⟨rfl, f2, f9, f10, isBestAt_longest hsrc hbest⟩

/-- Witness for C1: source `"AB"`, target `"AB"`, `L = 1`, enumeration in insertion order. -/
theorem longest_registered_match_witness :
    (∀ l : List (Char × Nat), (id l).Perm l) ∧ (['A', 'B'] : Str).length < 2 ^ 31 ∧
    ∃ t b, buildAutomaton id ['A', 'B'] 1 = some t ∧ scan t ['A', 'B'] = some b ∧
      (0 < b.longestMatchLength →
        b.longestMatchLength = (b.longestMatch.length : Int) ∧
        (b.longestMatch.length : Int) ≤ 1 ∧
        b.longestMatch <:+: ['A', 'B'] ∧ b.longestMatch <:+: ['A', 'B'] ∧
        ∀ w : Str, (w.length : Int) ≤ 1 → w <:+: ['A', 'B'] → w <:+: ['A', 'B'] →
          w.length ≤ b.longestMatch.length) :=
  ⟨fun l => List.Perm.refl l, by decide,
    longest_registered_match id (fun l => List.Perm.refl l) ['A', 'B'] ['A', 'B'] 1
      (by decide)⟩

/-- C3, as stated for every source, fails once the length of the source does not fit `int`:
for the source of `2^31 + 1` characters `a`, whose length becomes a negative `len`, nothing is
enumerated, the first round finds no match and the loop stops with both strings unchanged,
although the character `a` is in the source and in the target `a`. -/
theorem no_match_closure_counterexample :
    generateSubstrings srcWide 1 = [] ∧
      round id 1 srcWide ['a'] = some ⟨false, ['a'], srcWide, none⟩ ∧
      (∀ fuel : Nat, mainLoop id 1 (fuel + 1) srcWide ['a'] = some ⟨[], srcWide, ['a']⟩) ∧
      (['a'] : Str) ≠ [] ∧ ((['a'] : Str).length : Int) ≤ 1 ∧
      (['a'] : Str) <:+: srcWide ∧ (['a'] : Str) <:+: ['a'] ∧
      'a' ∈ srcWide ∧ 'a' ∈ (['a'] : Str) := by
  exact ⟨generateSubstrings_srcWide 1,
    round_srcWide (fun l : List (Char × Nat) => List.Perm.refl l) ['a'] 1,
    fun fuel => mainLoop_srcWide (fun l : List (Char × Nat) => List.Perm.refl l) ['a'] 1 fuel,
    by decide, by decide, a_infix_srcWide, List.infix_refl _, a_mem_srcWide, by decide⟩

/-- C3, amended (no-match closure, for a source whose length fits `int`).  For `L ≥ 1`, a source
shorter than `2^31` and a target shorter than `2^64`, the round loop run with a budget of more
than `(|source| + |target|) / 2` rounds stops, and then no non-empty string of length at most
`L` is a substring of both final strings; equivalently the final strings have no character in
common. -/
theorem no_match_closure (ord : List (Char × Nat) → List (Char × Nat))
    (hord : ∀ l, (ord l).Perm l) (src tgt : Str) (L : Int) (hL : 1 ≤ L)
    (hsrc : src.length < 2 ^ 31) (htgt : tgt.length < 2 ^ 64) (fuel : Nat)
    (hfuel : src.length + tgt.length < 2 * fuel) :
    ∃ o, mainLoop ord L fuel src tgt = some o ∧
      (∀ w : Str, w ≠ [] → (w.length : Int) ≤ L → w <:+: o.str1 → ¬ w <:+: o.str2) ∧
      (∀ c : Char, c ∈ o.str1 → c ∉ o.str2) := by
  obtain ⟨o, ho, _⟩ := mainLoop_terminates hord L fuel src tgt hfuel
  have hclos := mainLoop_closure hord L fuel src tgt o hsrc htgt ho
  refine ⟨o, ho, hclos, ?_⟩
  intro c h1 h2
  exact hclos [c] (by simp) (by simpa using hL) (singleton_infix_of_mem h1)
    (singleton_infix_of_mem h2)

/-- Witness for C3: source `"XYZ"`, target `"ZYXW"`, `L = 3`, four rounds. -/
theorem no_match_closure_witness :
    (∀ l : List (Char × Nat), (id l).Perm l) ∧ (1 : Int) ≤ 3 ∧
    (['X', 'Y', 'Z'] : Str).length < 2 ^ 31 ∧
    (['Z', 'Y', 'X', 'W'] : Str).length < 2 ^ 64 ∧
    (['X', 'Y', 'Z'] : Str).length + (['Z', 'Y', 'X', 'W'] : Str).length < 2 * 4 ∧
    ∃ o, mainLoop id 3 4 ['X', 'Y', 'Z'] ['Z', 'Y', 'X', 'W'] = some o ∧
      (∀ w : Str, w ≠ [] → (w.length : Int) ≤ 3 → w <:+: o.str1 → ¬ w <:+: o.str2) ∧
      (∀ c : Char, c ∈ o.str1 → c ∉ o.str2) :=
  ⟨fun l => List.Perm.refl l, by decide, by decide, by decide, by decide,
    no_match_closure id (fun l => List.Perm.refl l) ['X', 'Y', 'Z'] ['Z', 'Y', 'X', 'W'] 3
      (by decide) (by decide) (by decide) 4 (by decide)⟩

set_option maxRecDepth 1000000 in
/-- C4, as stated, fails on the inputs hardcoded in `main`: with `maxLength = 6` the first
round reports `"CGTACG"` (length 6) although `"CGTACGT"` (length 7) is a substring of `str1`
and occurs in `str2`. -/
theorem longest_match_unbounded_counterexample :
    round id maxLengthMain str1Main str2Main =
        some ⟨true, ['T', 'G', 'C', 'G'], ['A', 'T', 'T', 'A'],
          some ⟨['C', 'G', 'T', 'A', 'C', 'G'], 0, 2⟩⟩ ∧
      (['C', 'G', 'T', 'A', 'C', 'G', 'T'] : Str) <:+: str1Main ∧
      (['C', 'G', 'T', 'A', 'C', 'G', 'T'] : Str) <:+: str2Main ∧
      (['C', 'G', 'T', 'A', 'C', 'G'] : Str).length <
        (['C', 'G', 'T', 'A', 'C', 'G', 'T'] : Str).length := by
  refine ⟨by decide, ⟨['A', 'T'], ['A'], rfl⟩, ⟨[], ['G', 'C', 'G'], rfl⟩, by decide⟩

/-- C4, amended (longest match among the registered lengths, for a source whose length fits
`int`).  For a source shorter than `2^31`, in any round that reports a match `P`, no string of
length at most `L` that is a substring of the current source and occurs in the current target
is longer than `P`. -/
theorem longest_match_within_bound (ord : List (Char × Nat) → List (Char × Nat))
    (hord : ∀ l, (ord l).Perm l) (src tgt : Str) (L : Int) (hsrc : src.length < 2 ^ 31) :
    ∃ r, round ord L src tgt = some r ∧
      ∀ rep, r.report = some rep →
        ∀ w : Str, (w.length : Int) ≤ L → w <:+: src → w <:+: tgt →
          w.length ≤ rep.pattern.length := by
  obtain ⟨t, b, r, _, _, hr, hcase⟩ := round_outcome hord src tgt L
  refine ⟨r, hr, ?_⟩
  intro rep hrep
  rcases hcase with ⟨_, _, h3⟩ | ⟨i, e, k, hbest, _, _, _, _, hs⟩
  · rw [h3] at hrep
    simp at hrep
  · rcases hs with ⟨_, h3⟩ | ⟨_, h3⟩
    · rw [h3] at hrep
      simp at hrep
    · rw [h3] at hrep
      simp only [Option.some.injEq] at hrep
      rw [← hrep]
      exact isBestAt_longest hsrc hbest

/-- Witness for the amended C4 on the inputs of `main`. -/
theorem longest_match_within_bound_witness :
    (∀ l : List (Char × Nat), (id l).Perm l) ∧ str1Main.length < 2 ^ 31 ∧
    ∃ r, round id maxLengthMain str1Main str2Main = some r ∧
      ∀ rep, r.report = some rep →
        ∀ w : Str, (w.length : Int) ≤ maxLengthMain → w <:+: str1Main → w <:+: str2Main →
          w.length ≤ rep.pattern.length :=
  ⟨fun l => List.Perm.refl l, by decide,
    longest_match_within_bound id (fun l => List.Perm.refl l) str1Main str2Main maxLengthMain
      (by decide)⟩

/-- C7, as stated for every string, fails once the length of the string does not fit `int`:
for the string of `2^31 + 1` characters `a` and `L = 1` the value of `len` is negative and
`generateSubstrings` returns nothing, while the enumeration of the specification contains the
pair `("a", 0)`. -/
theorem generateSubstrings_contract_counterexample :
    toInt32 (srcWide.length : Int) = -2147483647 ∧
      generateSubstrings srcWide ((1 : Nat) : Int) = [] ∧
      ((['a'] : Str), (0 : Int)) ∈ enumSpec srcWide 1 ∧
      generateSubstrings srcWide ((1 : Nat) : Int) ≠ enumSpec srcWide 1 := by
  have hmem : ((['a'] : Str), (0 : Int)) ∈ enumSpec srcWide 1 := by
    have h := mem_enumSpec srcWide 1 1 0 (le_refl 1)
      (by rw [srcWide_length]; norm_num) (by rw [srcWide_length]; norm_num)
    rw [take_one_srcWide] at h
    exact h
  refine ⟨toInt32_srcWide, generateSubstrings_srcWide _, hmem, ?_⟩
  intro h
  rw [generateSubstrings_srcWide, eq_comm] at h
  rw [h] at hmem
  exact List.not_mem_nil _ hmem

/-- C7, amended (enumerator contract, for a string whose length fits `int`).  For every string
`S` of length `n < 2^31` and every `L` (in particular `L ≥ 1`), `generateSubstrings S L` is the
sequence of the pairs `(S[start .. start + len), start)` for `len = min(L, n), ..., 1` and,
within each `len`, for `start = 0, ..., n - len`; it is empty when `n = 0`, and equals
`generateSubstrings S n` when `L > n`. -/
theorem generateSubstrings_contract (S : Str) (L : Nat) (hlen : S.length < 2 ^ 31) :
    generateSubstrings S (L : Int) = enumSpec S L ∧
    (S.length = 0 → generateSubstrings S (L : Int) = []) ∧
    (S.length < L → generateSubstrings S (L : Int) = generateSubstrings S (S.length : Int)) := by
  refine ⟨generateSubstrings_eq_enumSpec S hlen L, ?_, ?_⟩
  · intro h
    rw [generateSubstrings_eq_enumSpec S hlen]
    simp [enumSpec, h]
  · intro h
    rw [generateSubstrings_eq_enumSpec S hlen, generateSubstrings_eq_enumSpec S hlen]
    unfold enumSpec
    rw [Nat.min_eq_right (le_of_lt h), Nat.min_self]

/-- Witness for the amended C7: the string `"ABA"` with `L = 2`. -/
theorem generateSubstrings_contract_witness :
    (['A', 'B', 'A'] : Str).length < 2 ^ 31 ∧
    generateSubstrings ['A', 'B', 'A'] ((2 : Nat) : Int) = enumSpec ['A', 'B', 'A'] 2 ∧
    ((['A', 'B', 'A'] : Str).length = 0 →
      generateSubstrings ['A', 'B', 'A'] ((2 : Nat) : Int) = []) ∧
    ((['A', 'B', 'A'] : Str).length < 2 →
      generateSubstrings ['A', 'B', 'A'] ((2 : Nat) : Int) =
        generateSubstrings ['A', 'B', 'A'] (((['A', 'B', 'A'] : Str).length : Nat) : Int)) :=
  ⟨by decide, generateSubstrings_contract ['A', 'B', 'A'] 2 (by decide)⟩

/-- C9 (determinism).  For any two enumeration orders of the child maps, `buildFailureLinks`
returns, on every trie built by insertions, the same arena, so the same failure link and the
same output list at every node; and the round loop, whatever its budget of rounds, returns
the same removal events and the same final strings: these are a function of source, target
and `L` alone. -/
theorem enumeration_order_irrelevant (ord1 ord2 : List (Char × Nat) → List (Char × Nat))
    (h1 : ∀ l, (ord1 l).Perm l) (h2 : ∀ l, (ord2 l).Perm l) :
    (∀ (ps : List (Str × Int)) (t0 : Trie), insertAll [TrieNode.new] ps = some t0 →
      ∃ t1 t2, buildFailureLinks ord1 t0 = some t1 ∧ buildFailureLinks ord2 t0 = some t2 ∧
        t1 = t2 ∧ ∀ i, failOf t1 i = failOf t2 i ∧ outputOf t1 i = outputOf t2 i) ∧
    (∀ (L : Int) (fuel : Nat) (src tgt : Str),
      mainLoop ord1 L fuel src tgt = mainLoop ord2 L fuel src tgt) ∧
    ∀ (L : Int) (fuel1 fuel2 : Nat) (src tgt : Str) (o1 o2 : Outcome),
      mainLoop ord1 L fuel1 src tgt = some o1 → mainLoop ord2 L fuel2 src tgt = some o2 →
        o1 = o2 := by
  refine ⟨?_, ?_, ?_⟩
  · intro ps t0 h0
    obtain ⟨t1, path, e1, hI⟩ := insertAll_fresh ps
    rw [h0] at e1
    cases e1
    obtain ⟨t, e2, e3⟩ := buildFailureLinks_order h1 h2 hI.inv
    exact ⟨t, t, e2, e3, rfl, fun _ => ⟨rfl, rfl⟩⟩
  · intro L fuel src tgt
    exact mainLoop_order h1 h2 L fuel src tgt
  · intro L fuel1 fuel2 src tgt o1 o2 e1 e2
    have e3 := mainLoop_fuel_le ord1 L (Nat.le_max_left fuel1 fuel2) e1
    have e4 := mainLoop_fuel_le ord2 L (Nat.le_max_right fuel1 fuel2) e2
    rw [mainLoop_order h1 h2 L, e4] at e3
    exact (Option.some.inj e3).symm

/-- Witness for C9: insertion order against the reverse order. -/
theorem enumeration_order_irrelevant_witness :
    (∀ l : List (Char × Nat), (id l).Perm l) ∧
    (∀ l : List (Char × Nat), (List.reverse l).Perm l) ∧
    ((∀ (ps : List (Str × Int)) (t0 : Trie), insertAll [TrieNode.new] ps = some t0 →
      ∃ t1 t2, buildFailureLinks id t0 = some t1 ∧ buildFailureLinks List.reverse t0 = some t2 ∧
        t1 = t2 ∧ ∀ i, failOf t1 i = failOf t2 i ∧ outputOf t1 i = outputOf t2 i) ∧
    (∀ (L : Int) (fuel : Nat) (src tgt : Str),
      mainLoop id L fuel src tgt = mainLoop List.reverse L fuel src tgt) ∧
    ∀ (L : Int) (fuel1 fuel2 : Nat) (src tgt : Str) (o1 o2 : Outcome),
      mainLoop id L fuel1 src tgt = some o1 → mainLoop List.reverse L fuel2 src tgt = some o2 →
        o1 = o2) :=
  ⟨fun l => List.Perm.refl l, fun l => List.reverse_perm l,
    enumeration_order_irrelevant id List.reverse (fun l => List.Perm.refl l)
      (fun l => List.reverse_perm l)⟩

theorem round_order {ord1 ord2 : List (Char × Nat) → List (Char × Nat)}
    (h1 : ∀ l, (ord1 l).Perm l) (h2 : ∀ l, (ord2 l).Perm l) (L : Int) (src tgt : Str) :
    round ord1 L src tgt = round ord2 L src tgt := by
  simp only [round, buildAutomaton_order h1 h2 src L]

theorem id_perm : ∀ l : List (Char × Nat), (id l).Perm l := fun l => List.Perm.refl l

/-- C12 (scenario 1).  On source `"XYZ"`, target `"ZYXW"`, `L = 3`, whatever the enumeration
order of the child maps: round 1 removes `"Z"` (target offset 0, source offset 2) and leaves
`("XY", "YXW")`, round 2 removes `"Y"` (0, 1) and leaves `("X", "XW")`, round 3 removes `"X"`
(0, 0) and leaves `("", "W")`, round 4 finds no match; the loop ends with exactly these three
events, source `""` and target `"W"`. -/
theorem scenario_one (ord : List (Char × Nat) → List (Char × Nat))
    (hord : ∀ l, (ord l).Perm l) :
    round ord 3 ['X', 'Y', 'Z'] ['Z', 'Y', 'X', 'W'] =
        some ⟨true, ['Y', 'X', 'W'], ['X', 'Y'], some ⟨['Z'], 0, 2⟩⟩ ∧
    round ord 3 ['X', 'Y'] ['Y', 'X', 'W'] =
        some ⟨true, ['X', 'W'], ['X'], some ⟨['Y'], 0, 1⟩⟩ ∧
    round ord 3 ['X'] ['X', 'W'] = some ⟨true, ['W'], [], some ⟨['X'], 0, 0⟩⟩ ∧
    round ord 3 [] ['W'] = some ⟨false, ['W'], [], none⟩ ∧
    ∀ fuel : Nat, 4 ≤ fuel →
      mainLoop ord 3 fuel ['X', 'Y', 'Z'] ['Z', 'Y', 'X', 'W'] =
        some ⟨[⟨['Z'], 0, 2⟩, ⟨['Y'], 0, 1⟩, ⟨['X'], 0, 0⟩], [], ['W']⟩ := by
  refine ⟨?_, ?_, ?_, ?_, ?_⟩
  · rw [round_order hord id_perm]; decide
  · rw [round_order hord id_perm]; decide
  · rw [round_order hord id_perm]; decide
  · rw [round_order hord id_perm]; decide
  · intro fuel hf
    rw [mainLoop_order hord id_perm]
    exact mainLoop_fuel_le id 3 hf (by decide)

/-- Witness for C12: enumeration in insertion order. -/
theorem scenario_one_witness :
    (∀ l : List (Char × Nat), (id l).Perm l) ∧
    (round id 3 ['X', 'Y', 'Z'] ['Z', 'Y', 'X', 'W'] =
        some ⟨true, ['Y', 'X', 'W'], ['X', 'Y'], some ⟨['Z'], 0, 2⟩⟩ ∧
    round id 3 ['X', 'Y'] ['Y', 'X', 'W'] =
        some ⟨true, ['X', 'W'], ['X'], some ⟨['Y'], 0, 1⟩⟩ ∧
    round id 3 ['X'] ['X', 'W'] = some ⟨true, ['W'], [], some ⟨['X'], 0, 0⟩⟩ ∧
    round id 3 [] ['W'] = some ⟨false, ['W'], [], none⟩ ∧
    ∀ fuel : Nat, 4 ≤ fuel →
      mainLoop id 3 fuel ['X', 'Y', 'Z'] ['Z', 'Y', 'X', 'W'] =
        some ⟨[⟨['Z'], 0, 2⟩, ⟨['Y'], 0, 1⟩, ⟨['X'], 0, 0⟩], [], ['W']⟩) :=
  ⟨fun l => List.Perm.refl l, scenario_one id (fun l => List.Perm.refl l)⟩

/-- C13 (scenario 3).  On source `"AAAA"`, target `"AA"`, `L = 4`, whatever the enumeration
order: patterns of length 3 and 4 are registered, round 1 removes `"AA"` and leaves the target
empty, round 2 finds no match, and the loop ends with exactly one removal event, whose text
is `"AA"`. -/
theorem scenario_three (ord : List (Char × Nat) → List (Char × Nat))
    (hord : ∀ l, (ord l).Perm l) :
    ((['A', 'A', 'A', 'A'] : Str), (0 : Int)) ∈ generateSubstrings ['A', 'A', 'A', 'A'] 4 ∧
    ((['A', 'A', 'A'] : Str), (0 : Int)) ∈ generateSubstrings ['A', 'A', 'A', 'A'] 4 ∧
    round ord 4 ['A', 'A', 'A', 'A'] ['A', 'A'] =
        some ⟨true, [], ['A', 'A'], some ⟨['A', 'A'], 0, 0⟩⟩ ∧
    round ord 4 ['A', 'A'] [] = some ⟨false, [], ['A', 'A'], none⟩ ∧
    ∀ fuel : Nat, 2 ≤ fuel →
      mainLoop ord 4 fuel ['A', 'A', 'A', 'A'] ['A', 'A'] =
        some ⟨[⟨['A', 'A'], 0, 0⟩], ['A', 'A'], []⟩ := by
  refine ⟨by decide, by decide, ?_, ?_, ?_⟩
  · rw [round_order hord id_perm]; decide
  · rw [round_order hord id_perm]; decide
  · intro fuel hf
    rw [mainLoop_order hord id_perm]
    exact mainLoop_fuel_le id 4 hf (by decide)

/-- Witness for C13: enumeration in insertion order. -/
theorem scenario_three_witness :
    (∀ l : List (Char × Nat), (id l).Perm l) ∧
    (((['A', 'A', 'A', 'A'] : Str), (0 : Int)) ∈ generateSubstrings ['A', 'A', 'A', 'A'] 4 ∧
    ((['A', 'A', 'A'] : Str), (0 : Int)) ∈ generateSubstrings ['A', 'A', 'A', 'A'] 4 ∧
    round id 4 ['A', 'A', 'A', 'A'] ['A', 'A'] =
        some ⟨true, [], ['A', 'A'], some ⟨['A', 'A'], 0, 0⟩⟩ ∧
    round id 4 ['A', 'A'] [] = some ⟨false, [], ['A', 'A'], none⟩ ∧
    ∀ fuel : Nat, 2 ≤ fuel →
      mainLoop id 4 fuel ['A', 'A', 'A', 'A'] ['A', 'A'] =
        some ⟨[⟨['A', 'A'], 0, 0⟩], ['A', 'A'], []⟩) :=
  ⟨fun l => List.Perm.refl l, scenario_three id (fun l => List.Perm.refl l)⟩

/-- C14 (builder registration contract).  Inserting any sequence of pairs into a fresh root
succeeds, and for every pattern text `p` of the sequence the characters of `p` lead from the
root to a node whose output is exactly the subsequence of the inserted pairs with text `p`, in
registration order and with repetitions kept; no failure link is set by the insertions. -/
theorem insert_registers (ps : List (Str × Int)) :
    ∃ t, insertAll [TrieNode.new] ps = some t ∧
      (∀ e ∈ ps, ∃ i, walk t root e.1 = some i ∧ i < t.length ∧
        outputOf t i = ps.filter (fun x => x.1 = e.1)) ∧
      ∀ i, failOf t i = none := by
  obtain ⟨t, path, h1, hI⟩ := insertAll_fresh ps
  refine ⟨t, h1, ?_, hI.fail_none⟩
  intro e he
  obtain ⟨i, hi, hp⟩ := hI.present e he
  refine ⟨i, ?_, hi, ?_⟩
  · rw [← hp]
    exact hI.inv.reach i hi
  · rw [hI.own i hi, hp]

/-! ## The automaton of an arbitrary pattern sequence -/

theorem automaton_general {ord : List (Char × Nat) → List (Char × Nat)}
    (hord : ∀ l, (ord l).Perm l) (ps : List (Str × Int)) :
    ∃ t0 path t, insertAll [TrieNode.new] ps = some t0 ∧ Inserted ps t0 path ∧
      buildFailureLinks ord t0 = some t ∧ Built t0 path t := by
  obtain ⟨t0, path, h1, hI⟩ := insertAll_fresh ps
  obtain ⟨t, h2, hB⟩ := buildFailureLinks_spec hI.inv hord
  exact ⟨t0, path, t, h1, hI, h2, hB⟩

/-- The arena after `buildFailureLinks` has the nodes and the child maps of the inserted trie;
its paths are the empty word and the prefixes of the inserted patterns, and different paths
lead to different nodes. -/
theorem built_shape {ps : List (Str × Int)} {t0 : Trie} {path : Nat → Str} {t : Trie}
    (hI : Inserted ps t0 path) (hB : Built t0 path t) :
    t.length = t0.length ∧ (∀ i, childrenOf t i = childrenOf t0 i) ∧
    (∀ w, (walk t root w).isSome ↔ (w = [] ∨ ∃ e ∈ ps, w <+: e.1)) ∧
    (∀ i w v, walk t root w = some i → walk t root v = some i → i < t.length ∧ w = v) := by
  have inv := built_inv hI.inv hB
  refine ⟨hB.len, hB.children, ?_, ?_⟩
  · intro w
    constructor
    · intro h
      obtain ⟨i, hi⟩ := Option.isSome_iff_exists.mp h
      obtain ⟨hlt, hp⟩ := walk_root inv hi
      rw [← hp]
      exact hI.covered i (by rw [← hB.len]; exact hlt)
    · rintro (h | ⟨e, he, hpre⟩)
      · rw [h]
        rfl
      · obtain ⟨i, hi, hp⟩ := hI.present e he
        have hw : walk t root e.1 = some i := by
          rw [← hp]
          exact inv.reach i (by rw [hB.len]; exact hi)
        exact walk_initial hpre (by rw [hw]; rfl)
  · intro i w v hw hv
    obtain ⟨h1, h2⟩ := walk_root inv hw
    obtain ⟨_, h3⟩ := walk_root inv hv
    exact ⟨h1, by rw [← h2, ← h3]⟩

theorem built_fail_node {t0 : Trie} {path : Nat → Str} {t : Trie} (inv0 : TrieInv t0 path)
    (hB : Built t0 path t) {i : Nat} {w : Str} (hi : i ≠ 0) (hw : walk t 0 w = some i) :
    w ≠ [] ∧ ∃ f, failOf t i = some f ∧ walk t 0 (lps t w) = some f ∧ f < t.length ∧
      path f = lps t w := by
  have inv := built_inv inv0 hB
  obtain ⟨hlt, hp⟩ := walk_root inv hw
  have hne : w ≠ [] := by rw [← hp]; exact path_ne_nil inv hlt hi
  obtain ⟨f, hf⟩ := Option.isSome_iff_exists.mp (longestIn_isSome t w.tail)
  have hf2 : walk t 0 (lps t w) = some f := hf
  obtain ⟨h1, h2⟩ := walk_root inv hf2
  refine ⟨hne, f, ?_, hf2, h1, h2⟩
  rw [hB.fail i hlt hi, hp, ← walk_congr hB.children, ← lps_congr hB.children, hf2]

theorem lps_max (t : Trie) {w u : Str} (hu : u <:+ w) (hlen : u.length < w.length)
    (hin : (walk t 0 u).isSome) : u.length ≤ (lps t w).length := by
  cases w with
  | nil => simp at hlen
  | cons a w =>
    rcases List.suffix_cons_iff.mp hu with h | h
    · rw [h] at hlen; omega
    · exact (longestIn_max t w h hin).length_le

theorem every_node_has_path {t : Trie} {path : Nat → Str} (inv : TrieInv t path) (i : Nat)
    (hi : i < t.length) : ∃ w, walk t root w = some i :=
  ⟨path i, inv.reach i hi⟩

/-- C16 (failure-link correctness).  For every pattern sequence and every enumeration order,
the insertions and `buildFailureLinks` return; the resulting arena has the nodes and the child
maps of the inserted trie, its paths are the empty word and the prefixes of the patterns, and
each node has one path; the root links to itself and every other node, of path `w`, links to
the node whose path `v` is the longest proper suffix of `w` that is a path of the trie (the
root, of path `""`, when there is no other). -/
theorem fail_link_correct (ord : List (Char × Nat) → List (Char × Nat))
    (hord : ∀ l, (ord l).Perm l) (ps : List (Str × Int)) :
    ∃ t0 t, insertAll [TrieNode.new] ps = some t0 ∧ buildFailureLinks ord t0 = some t ∧
      t.length = t0.length ∧
      (∀ i, childrenOf t i = childrenOf t0 i) ∧
      (∀ w, (walk t root w).isSome ↔ (w = [] ∨ ∃ e ∈ ps, w <+: e.1)) ∧
      (∀ i w v, walk t root w = some i → walk t root v = some i → i < t.length ∧ w = v) ∧
      failOf t root = some root ∧
      (∀ i, i < t.length → ∃ w, walk t root w = some i) ∧
      ∀ i w, i ≠ root → walk t root w = some i →
        ∃ f v, failOf t i = some f ∧ walk t root v = some f ∧ v <:+ w ∧
          v.length < w.length ∧
          ∀ u : Str, u <:+ w → u.length < w.length → (walk t root u).isSome →
            u.length ≤ v.length := by
  obtain ⟨t0, path, t, h1, hI, h2, hB⟩ := automaton_general hord ps
  have inv := built_inv hI.inv hB
  obtain ⟨s1, s2, s3, s4⟩ := built_shape hI hB
  refine ⟨t0, t, h1, h2, s1, s2, s3, s4, hB.root_fail, every_node_has_path inv, ?_⟩
  intro i w hi hw
  obtain ⟨hne, f, hf1, hf2, _, _⟩ := built_fail_node hI.inv hB hi hw
  exact ⟨f, lps t w, hf1, hf2, lps_suffix t w, lps_length_lt t hne,
    fun u hu hlen hin => lps_max t hu hlen hin⟩

/-- Witness for C16: the patterns `"ab"`, `"b"`, enumeration in insertion order. -/
theorem fail_link_correct_witness :
    (∀ l : List (Char × Nat), (id l).Perm l) ∧
    ∃ t0 t, insertAll [TrieNode.new] [(['a', 'b'], 0), (['b'], 1)] = some t0 ∧
      buildFailureLinks id t0 = some t ∧
      t.length = t0.length ∧
      (∀ i, childrenOf t i = childrenOf t0 i) ∧
      (∀ w, (walk t root w).isSome ↔ (w = [] ∨ ∃ e ∈ [((['a', 'b'] : Str), (0 : Int)), (['b'], 1)], w <+: e.1)) ∧
      (∀ i w v, walk t root w = some i → walk t root v = some i → i < t.length ∧ w = v) ∧
      failOf t root = some root ∧
      (∀ i, i < t.length → ∃ w, walk t root w = some i) ∧
      ∀ i w, i ≠ root → walk t root w = some i →
        ∃ f v, failOf t i = some f ∧ walk t root v = some f ∧ v <:+ w ∧
          v.length < w.length ∧
          ∀ u : Str, u <:+ w → u.length < w.length → (walk t root u).isSome →
            u.length ≤ v.length :=
  ⟨fun l => List.Perm.refl l,
    fail_link_correct id (fun l => List.Perm.refl l) [(['a', 'b'], 0), (['b'], 1)]⟩

theorem failChain_reaches_root {t0 : Trie} {path : Nat → Str} {t : Trie}
    (inv0 : TrieInv t0 path) (hB : Built t0 path t) :
    ∀ (n : Nat) (w : Str) (i : Nat), w.length ≤ n → walk t 0 w = some i →
      ∃ m, m ≤ w.length ∧ failChain t m i = some root := by
  intro n
  induction n with
  | zero =>
    intro w i hl hw
    have hw0 : w = [] := List.eq_nil_of_length_eq_zero (by omega)
    subst hw0
    simp only [walk, Option.some.injEq] at hw
    exact ⟨0, le_refl _, by rw [← hw]; rfl⟩
  | succ n ih =>
    intro w i hl hw
    by_cases hi : i = 0
    · exact ⟨0, Nat.zero_le _, by rw [hi]; rfl⟩
    · obtain ⟨hne, f, hf1, hf2, _, _⟩ := built_fail_node inv0 hB hi hw
      have hlt := lps_length_lt t hne
      obtain ⟨m, hm1, hm2⟩ := ih (lps t w) f (by omega) hf2
      exact ⟨m + 1, by omega, by simp only [failChain, hf1, hm2]⟩

/-- C19 (failure links strictly decrease depth).  For every pattern sequence and every
enumeration order, the insertions and `buildFailureLinks` return; the resulting arena has the
nodes and the child maps of the inserted trie, its paths are the empty word and the prefixes of
the patterns, and each node has one path; no node has a null failure link; the link of a node other than the root, of path `w`, points to a node of strictly
shorter path, hence never to the node itself; from a node of path `w` at most `|w|` links lead
to the root; and the loop that follows failure links returns from every node and for every
character within the budget of one iteration per node. -/
theorem fail_links_decrease_depth (ord : List (Char × Nat) → List (Char × Nat))
    (hord : ∀ l, (ord l).Perm l) (ps : List (Str × Int)) :
    ∃ t0 t, insertAll [TrieNode.new] ps = some t0 ∧ buildFailureLinks ord t0 = some t ∧
      t.length = t0.length ∧
      (∀ i, childrenOf t i = childrenOf t0 i) ∧
      (∀ w, (walk t root w).isSome ↔ (w = [] ∨ ∃ e ∈ ps, w <+: e.1)) ∧
      (∀ i w v, walk t root w = some i → walk t root v = some i → i < t.length ∧ w = v) ∧
      (∀ i, i < t.length → ∃ w, walk t root w = some i) ∧
      (∀ i, i < t.length → ∃ f, failOf t i = some f ∧ f < t.length) ∧
      (∀ i w, i ≠ root → walk t root w = some i →
        ∃ f v, failOf t i = some f ∧ walk t root v = some f ∧ v.length < w.length ∧ f ≠ i) ∧
      (∀ i w, walk t root w = some i → ∃ m, m ≤ w.length ∧ failChain t m i = some root) ∧
      ∀ i c, i < t.length → ∃ g, followFail t c t.length i = some g ∧ g < t.length := by
  obtain ⟨t0, path, t, h1, hI, h2, hB⟩ := automaton_general hord ps
  have inv := built_inv hI.inv hB
  have hdec : ∀ i w, i ≠ root → walk t root w = some i →
      ∃ f v, failOf t i = some f ∧ walk t root v = some f ∧ v.length < w.length ∧ f ≠ i := by
    intro i w hi hw
    obtain ⟨hne, f, hf1, hf2, _, hf4⟩ := built_fail_node hI.inv hB hi hw
    have hlt := lps_length_lt t hne
    refine ⟨f, lps t w, hf1, hf2, hlt, ?_⟩
    intro e
    rw [e, (walk_root inv hw).2] at hf4
    rw [← hf4] at hlt
    omega
  obtain ⟨s1, s2, s3, s4⟩ := built_shape hI hB
  refine ⟨t0, t, h1, h2, s1, s2, s3, s4, every_node_has_path inv, ?_, hdec, ?_, ?_⟩
  · intro i hi
    by_cases h0 : i = 0
    · rw [h0]
      exact ⟨0, hB.root_fail, inv.pos⟩
    · obtain ⟨_, f, hf1, _, hf3, _⟩ := built_fail_node hI.inv hB h0 (inv.reach i hi)
      exact ⟨f, hf1, hf3⟩
  · intro i w hw
    exact failChain_reaches_root hI.inv hB w.length w i (le_refl _) hw
  · intro i c hi
    obtain ⟨v, g, hg1, hg2, _⟩ := followFail_spec inv c t.length (path i) i (inv.reach i hi)
      (depth_lt_length inv hi) (built_links hB _)
    exact ⟨g, hg1, (walk_root inv hg2).1⟩

/-- Witness for C19: the patterns `"ab"`, `"b"`, enumeration in insertion order. -/
theorem fail_links_decrease_depth_witness :
    (∀ l : List (Char × Nat), (id l).Perm l) ∧
    ∃ t0 t, insertAll [TrieNode.new] [(['a', 'b'], 0), (['b'], 1)] = some t0 ∧
      buildFailureLinks id t0 = some t ∧
      t.length = t0.length ∧
      (∀ i, childrenOf t i = childrenOf t0 i) ∧
      (∀ w, (walk t root w).isSome ↔ (w = [] ∨ ∃ e ∈ [((['a', 'b'] : Str), (0 : Int)), (['b'], 1)], w <+: e.1)) ∧
      (∀ i w v, walk t root w = some i → walk t root v = some i → i < t.length ∧ w = v) ∧
      (∀ i, i < t.length → ∃ w, walk t root w = some i) ∧
      (∀ i, i < t.length → ∃ f, failOf t i = some f ∧ f < t.length) ∧
      (∀ i w, i ≠ root → walk t root w = some i →
        ∃ f v, failOf t i = some f ∧ walk t root v = some f ∧ v.length < w.length ∧ f ≠ i) ∧
      (∀ i w, walk t root w = some i → ∃ m, m ≤ w.length ∧ failChain t m i = some root) ∧
      ∀ i c, i < t.length → ∃ g, followFail t c t.length i = some g ∧ g < t.length :=
  ⟨fun l => List.Perm.refl l,
    fail_links_decrease_depth id (fun l => List.Perm.refl l) [(['a', 'b'], 0), (['b'], 1)]⟩

/-! ## Output lists with multiplicities -/

theorem filter_text_filter (ps : List (Str × Int)) (w p : Str) :
    (ps.filter (fun e => e.1 = w)).filter (fun e => e.1 = p) =
      if w = p then ps.filter (fun e => e.1 = p) else [] := by
  rw [List.filter_filter]
  by_cases h : w = p
  · subst h
    simp
  · rw [if_neg h, List.filter_eq_nil_iff]
    intro e _
    simp only [Bool.and_eq_true, decide_eq_true_eq, not_and]
    intro h1 h2
    exact h (by rw [← h1, h2])

theorem registered_in_trie {ps : List (Str × Int)} {t0 : Trie} {path : Nat → Str}
    (hI : Inserted ps t0 path) {e : Str × Int} (he : e ∈ ps) : (walk t0 0 e.1).isSome := by
  obtain ⟨k, hk1, hk2⟩ := hI.present e he
  rw [← hk2, hI.inv.reach k hk1]
  rfl

theorem filter_text_nil_of_not_in_trie {ps : List (Str × Int)} {t0 : Trie} {path : Nat → Str}
    (hI : Inserted ps t0 path) {p : Str} (h : ¬ (walk t0 0 p).isSome) :
    ps.filter (fun e => e.1 = p) = [] := by
  rw [List.filter_eq_nil_iff]
  intro e he
  simp only [decide_eq_true_eq]
  intro heq
  apply h
  rw [← heq]
  exact registered_in_trie hI he

/-- The entries of text `p` in the specified output list of a path `w`: all the pairs
registered for `p`, in registration order, when `p` is a suffix of `w`, and none otherwise. -/
theorem outSpec_filter {ps : List (Str × Int)} {t0 : Trie} {path : Nat → Str}
    (hI : Inserted ps t0 path) (p : Str) (hp : p ≠ []) :
    ∀ (n : Nat) (w : Str), w.length ≤ n → (walk t0 0 w).isSome →
      (p <:+ w → (outSpec t0 w).filter (fun e => e.1 = p) = ps.filter (fun e => e.1 = p)) ∧
      (¬ p <:+ w → (outSpec t0 w).filter (fun e => e.1 = p) = []) := by
  have hown : ∀ w, (walk t0 0 w).isSome →
      (ownOut t0 w).filter (fun e => e.1 = p) =
        if w = p then ps.filter (fun e => e.1 = p) else [] := by
    intro w hw
    obtain ⟨k, hk⟩ := Option.isSome_iff_exists.mp hw
    obtain ⟨h1, h2⟩ := walk_root hI.inv hk
    rw [ownOut_of_walk hk, hI.own k h1, h2]
    exact filter_text_filter ps w p
  have hshort : ∀ w : Str, w.length ≤ 1 → (walk t0 0 w).isSome →
      (p <:+ w → (outSpec t0 w).filter (fun e => e.1 = p) = ps.filter (fun e => e.1 = p)) ∧
      (¬ p <:+ w → (outSpec t0 w).filter (fun e => e.1 = p) = []) := by
    intro w hl hw
    rw [outSpec_eq, if_pos hl, List.append_nil, hown w hw]
    constructor
    · intro hs
      have hwp : w = p := by
        cases w with
        | nil => exact absurd (List.eq_nil_of_suffix_nil hs) hp
        | cons a w =>
          have hw0 : w = [] := by
            simp only [List.length_cons] at hl
            exact List.eq_nil_of_length_eq_zero (by omega)
          subst hw0
          rcases List.suffix_cons_iff.mp hs with h | h
          · exact h.symm
          · exact absurd (List.eq_nil_of_suffix_nil h) hp
      rw [if_pos hwp]
    · intro hs
      have hwp : ¬ w = p := by
        intro e
        exact hs (by rw [e])
      rw [if_neg hwp]
  intro n
  induction n with
  | zero =>
    intro w hl hw
    exact hshort w (by omega) hw
  | succ n ih =>
    intro w hl hw
    by_cases h1 : w.length ≤ 1
    · exact hshort w h1 hw
    · have hne : w ≠ [] := by
        intro e; rw [e] at h1; simp at h1
      have hlps := lps_length_lt t0 hne
      obtain ⟨ih1, ih2⟩ := ih (lps t0 w) (by omega) (longestIn_isSome t0 _)
      rw [outSpec_eq, if_neg h1, List.filter_append, hown w hw]
      constructor
      · intro hs
        by_cases hwp : w = p
        · rw [if_pos hwp]
          have hnot : ¬ p <:+ lps t0 w := by
            intro h
            have := h.length_le
            rw [← hwp] at this
            omega
          rw [ih2 hnot, List.append_nil]
        · rw [if_neg hwp, List.nil_append]
          by_cases hsl : p <:+ lps t0 w
          · exact ih1 hsl
          · rw [ih2 hsl]
            symm
            apply filter_text_nil_of_not_in_trie hI
            intro hin
            apply hsl
            obtain ⟨a, w1, rfl⟩ := List.exists_cons_of_ne_nil hne
            rcases List.suffix_cons_iff.mp hs with h | h
            · exact absurd h.symm hwp
            · exact longestIn_max t0 w1 h hin
      · intro hs
        have hwp : ¬ w = p := by
          intro e
          exact hs (by rw [e])
        have hnot : ¬ p <:+ lps t0 w := fun h => hs (h.trans (lps_suffix t0 w))
        rw [if_neg hwp, ih2 hnot]
        rfl

theorem built_output_eq {ps : List (Str × Int)} {t0 : Trie} {path : Nat → Str} {t : Trie}
    (hI : Inserted ps t0 path) (hB : Built t0 path t) {w : Str}
    {k : Nat} (hw : walk t 0 w = some k) : outputOf t k = outSpec t0 w := by
  rw [walk_congr hB.children] at hw
  obtain ⟨h1, h2⟩ := walk_root hI.inv hw
  by_cases hk : k = 0
  · subst hk
    have hw0 : w = [] := by rw [← h2]; exact hI.inv.root_path
    subst hw0
    rw [hB.root_out, outSpec_eq]
    simp [ownOut, walk]
  · rw [hB.out k (by rw [hB.len]; exact h1) hk, h2]

theorem built_output_filter {ps : List (Str × Int)} {t0 : Trie} {path : Nat → Str} {t : Trie}
    (hI : Inserted ps t0 path) (hB : Built t0 path t) {w : Str}
    {k : Nat} (hw : walk t 0 w = some k) (p : Str) (hp : p ≠ []) :
    (p <:+ w → (outputOf t k).filter (fun e => e.1 = p) = ps.filter (fun e => e.1 = p)) ∧
    (¬ p <:+ w → (outputOf t k).filter (fun e => e.1 = p) = []) := by
  rw [built_output_eq hI hB hw]
  apply outSpec_filter hI p hp w.length w (le_refl _)
  rw [← walk_congr hB.children, hw]
  rfl

theorem count_eq_count_filter_text (l : List (Str × Int)) (e : Str × Int) :
    List.count e l = List.count e (l.filter (fun x => x.1 = e.1)) := by
  rw [List.count_filter]
  simp

/-- C15 (output completeness).  For every sequence of non-empty pairs and every enumeration
order, the insertions and `buildFailureLinks` return; the resulting arena has the nodes and the
child maps of the inserted trie, its paths are the empty word and the prefixes of the patterns,
and each node has one path; the output of every node other than the root, of path `w`, is the node's own registered pairs followed by the whole output of its
failure node; so it holds exactly the registered pairs whose text is a suffix of `w`, each as
many times as it was registered. -/
theorem output_complete (ord : List (Char × Nat) → List (Char × Nat))
    (hord : ∀ l, (ord l).Perm l) (ps : List (Str × Int)) (hne : ∀ e ∈ ps, e.1 ≠ []) :
    ∃ t0 t, insertAll [TrieNode.new] ps = some t0 ∧ buildFailureLinks ord t0 = some t ∧
      t.length = t0.length ∧
      (∀ i, childrenOf t i = childrenOf t0 i) ∧
      (∀ w, (walk t root w).isSome ↔ (w = [] ∨ ∃ e ∈ ps, w <+: e.1)) ∧
      (∀ i w v, walk t root w = some i → walk t root v = some i → i < t.length ∧ w = v) ∧
      (∀ i, i < t.length → ∃ w, walk t root w = some i) ∧
      ∀ i w, i ≠ root → walk t root w = some i →
        ∃ f, failOf t i = some f ∧
          outputOf t0 i = ps.filter (fun e => e.1 = w) ∧
          outputOf t i = outputOf t0 i ++ outputOf t f ∧
          (∀ e, e ∈ outputOf t i ↔ (e ∈ ps ∧ e.1 <:+ w)) ∧
          (∀ e, e.1 <:+ w → List.count e (outputOf t i) = List.count e ps) ∧
          (∀ e, ¬ e.1 <:+ w → List.count e (outputOf t i) = 0) := by
  obtain ⟨t0, path, t, h1, hI, h2, hB⟩ := automaton_general hord ps
  have inv := built_inv hI.inv hB
  obtain ⟨s1, s2, s3, s4⟩ := built_shape hI hB
  refine ⟨t0, t, h1, h2, s1, s2, s3, s4, every_node_has_path inv, ?_⟩
  intro i w hi hw
  obtain ⟨hwne, f, hf1, hf2, _, _⟩ := built_fail_node hI.inv hB hi hw
  obtain ⟨hlt, hp⟩ := walk_root inv hw
  have hlt0 : i < t0.length := by rw [← hB.len]; exact hlt
  have hmem := built_output_mem hI hne hB hw
  have hown : outputOf t0 i = ps.filter (fun e => e.1 = w) := by
    rw [hI.own i hlt0, hp]
  have hw0 : walk t0 0 w = some i := by rw [← walk_congr hB.children]; exact hw
  refine ⟨f, hf1, hown, ?_, hmem, ?_, ?_⟩
  · rw [built_output_eq hI hB hw, built_output_eq hI hB hf2, outSpec_eq,
      ownOut_of_walk hw0, lps_congr hB.children]
    by_cases hl : w.length ≤ 1
    · rw [if_pos hl]
      have hlps : lps t0 w = [] := by
        have := lps_length_lt t0 hwne
        exact List.eq_nil_of_length_eq_zero (by omega)
      rw [hlps, outSpec_eq]
      have hroot : ownOut t0 [] = [] := by
        rw [ownOut_of_walk (show walk t0 0 [] = some 0 from rfl), hI.own 0 hI.inv.pos,
          hI.inv.root_path, List.filter_eq_nil_iff]
        intro e he
        simp only [decide_eq_true_eq]
        exact hne e he
      simp [hroot]
    · rw [if_neg hl]
  · intro e hs
    by_cases hin : e ∈ ps
    · rw [count_eq_count_filter_text (outputOf t i),
        (built_output_filter hI hB hw e.1 (hne e hin)).1 hs,
        ← count_eq_count_filter_text]
    · rw [List.count_eq_zero_of_not_mem hin, List.count_eq_zero_of_not_mem]
      intro h
      exact hin ((hmem e).mp h).1
  · intro e hs
    apply List.count_eq_zero_of_not_mem
    intro h
    exact hs ((hmem e).mp h).2

/-- Witness for C15: the patterns `"ab"`, `"b"`, `"b"`, enumeration in insertion order. -/
theorem output_complete_witness :
    (∀ l : List (Char × Nat), (id l).Perm l) ∧
    (∀ e ∈ [((['a', 'b'] : Str), (0 : Int)), (['b'], 1), (['b'], 7)], e.1 ≠ []) ∧
    ∃ t0 t, insertAll [TrieNode.new] [(['a', 'b'], 0), (['b'], 1), (['b'], 7)] = some t0 ∧
      buildFailureLinks id t0 = some t ∧
      t.length = t0.length ∧
      (∀ i, childrenOf t i = childrenOf t0 i) ∧
      (∀ w, (walk t root w).isSome ↔ (w = [] ∨ ∃ e ∈ [((['a', 'b'] : Str), (0 : Int)), (['b'], 1), (['b'], 7)], w <+: e.1)) ∧
      (∀ i w v, walk t root w = some i → walk t root v = some i → i < t.length ∧ w = v) ∧
      (∀ i, i < t.length → ∃ w, walk t root w = some i) ∧
      ∀ i w, i ≠ root → walk t root w = some i →
        ∃ f, failOf t i = some f ∧
          outputOf t0 i =
            [((['a', 'b'] : Str), (0 : Int)), (['b'], 1), (['b'], 7)].filter
              (fun e => e.1 = w) ∧
          outputOf t i = outputOf t0 i ++ outputOf t f ∧
          (∀ e, e ∈ outputOf t i ↔
            (e ∈ [((['a', 'b'] : Str), (0 : Int)), (['b'], 1), (['b'], 7)] ∧ e.1 <:+ w)) ∧
          (∀ e, e.1 <:+ w → List.count e (outputOf t i) =
            List.count e [((['a', 'b'] : Str), (0 : Int)), (['b'], 1), (['b'], 7)]) ∧
          (∀ e, ¬ e.1 <:+ w → List.count e (outputOf t i) = 0) :=
  ⟨fun l => List.Perm.refl l, by decide,
    output_complete id (fun l => List.Perm.refl l) [(['a', 'b'], 0), (['b'], 1), (['b'], 7)]
      (by decide)⟩

/-! ## The order of the visited entries -/

theorem scanEntries_order {t0 : Trie} {path : Nat → Str} {t : Trie} (inv0 : TrieInv t0 path)
    (hB : Built t0 path t) :
    ∀ (cs x : List Char) (node : Nat) (es : List (Nat × (Str × Int))),
      walk t 0 (longestIn t x) = some node → scanEntries t cs x.length node = some es →
      es.Pairwise (fun a b => a.1 ≤ b.1) ∧
      ∀ i k, x.length ≤ i → i < x.length + cs.length →
        walk t 0 (longestIn t ((x ++ cs).take (i + 1))) = some k →
        es.filter (fun y => y.1 = i) = (outputOf t k).map (fun e => (i, e)) := by
  have inv := built_inv inv0 hB
  intro cs
  induction cs with
  | nil =>
    intro x node es _ hes
    simp only [scanEntries, Option.some.injEq] at hes
    subst hes
    refine ⟨List.Pairwise.nil, ?_⟩
    intro i k h1 h2
    simp only [List.length_nil, Nat.add_zero] at h2
    omega
  | cons c cs ih =>
    intro x node es hw hes
    have hstep := stepNode_spec inv0 hB hw c
    rw [← longestIn_snoc] at hstep
    obtain ⟨node1, hn1⟩ := Option.isSome_iff_exists.mp (longestIn_isSome t (x ++ [c]))
    rw [hn1] at hstep
    obtain ⟨hlt, _⟩ := walk_root inv hn1
    obtain ⟨n1, hget⟩ := get_of_lt hlt
    obtain ⟨es1, hes1, hchar⟩ := scanEntries_spec inv0 hB cs (x ++ [c]) node1 hn1
    have hlen : (x ++ [c]).length = x.length + 1 := by simp
    obtain ⟨hpw, hblock⟩ := ih (x ++ [c]) node1 es1 hn1 hes1
    rw [hlen] at hes1 hchar hblock
    simp only [scanEntries, hstep, hget, hes1, Option.some.injEq] at hes
    subst hes
    have happ : x ++ [c] ++ cs = x ++ c :: cs := by simp
    rw [happ] at hblock
    have htag : ∀ y ∈ es1, x.length + 1 ≤ y.1 := by
      intro y hy
      exact ((hchar y.1 y.2).mp hy).1
    constructor
    · rw [List.pairwise_append]
      refine ⟨?_, hpw, ?_⟩
      · rw [List.pairwise_map]
        exact List.pairwise_of_forall (fun _ _ => le_refl _)
      · intro a ha b hb
        obtain ⟨e1, _, rfl⟩ := List.mem_map.mp ha
        have := htag b hb
        simp only
        omega
    · intro i k h1 h2 hk
      rw [List.filter_append]
      by_cases hi : i = x.length
      · subst hi
        rw [take_append_cons_length, hn1] at hk
        cases hk
        have h3 : es1.filter (fun y => y.1 = x.length) = [] := by
          rw [List.filter_eq_nil_iff]
          intro y hy
          have := htag y hy
          simp only [decide_eq_true_eq]
          omega
        rw [h3, List.append_nil, outputOf_of_get hget, List.filter_eq_self]
        intro a ha
        obtain ⟨e1, _, rfl⟩ := List.mem_map.mp ha
        simp
      · have h3 : (n1.output.map (fun e => (x.length, e))).filter (fun y => y.1 = i) = [] := by
          rw [List.filter_eq_nil_iff]
          intro a ha
          obtain ⟨e1, _, rfl⟩ := List.mem_map.mp ha
          simp only [decide_eq_true_eq]
          exact fun h => hi h.symm
        rw [h3, List.nil_append]
        simp only [List.length_cons] at h2
        exact hblock i k (by omega) (by omega) hk

/-! ## The order of the enumerated pairs -/

theorem countDown_pairwise (n : Nat) : (countDown n).Pairwise (fun a b => b < a) := by
  induction n with
  | zero => exact List.Pairwise.nil
  | succ n ih =>
    rw [countDown, List.pairwise_cons]
    refine ⟨?_, ih⟩
    intro a ha
    have := (mem_countDown n a).mp ha
    omega

/-- Pairs with the same text are enumerated by increasing start offset. -/
theorem generateSubstrings_pairwise (str : Str) (L : Int) :
    (generateSubstrings str L).Pairwise (fun a b => a.1 = b.1 → a.2 < b.2) := by
  have hle := toInt32_le str.length
  unfold generateSubstrings
  rw [List.pairwise_flatMap]
  constructor
  · intro length _
    unfold substringsOfLength
    rw [List.pairwise_map]
    apply List.Pairwise.imp _ (List.pairwise_lt_range _)
    intro a b hab _
    simp only
    exact_mod_cast hab
  · apply List.Pairwise.imp _ (countDown_pairwise L.toNat)
    intro a b hab x hx y hy hxy
    exfalso
    obtain ⟨s1, hs1, rfl⟩ := (mem_substringsOfLength str _ a x).mp hx
    obtain ⟨s2, hs2, rfl⟩ := (mem_substringsOfLength str _ b y).mp hy
    have h1 := substr_length (show s1 + a ≤ str.length by omega)
    have h2 := substr_length (show s2 + b ≤ str.length by omega)
    simp only at hxy
    rw [hxy] at h1
    omega

theorem find_min (pat : Str) :
    ∀ (s : Str) (k : Nat), find s pat = some k → ∀ j, j < k → ¬ pat <+: s.drop j := by
  intro s
  induction s with
  | nil =>
    intro k h j hj
    simp only [find] at h
    by_cases hp : pat = []
    · simp [hp] at h
      omega
    · simp [hp] at h
  | cons c cs ih =>
    intro k h j hj
    simp only [find] at h
    by_cases hp : pat.isPrefixOf (c :: cs) = true
    · simp only [hp, if_true, Option.some.injEq] at h
      omega
    · simp only [hp, Bool.false_eq_true, if_false] at h
      cases hf : find cs pat with
      | none => simp [hf] at h
      | some m =>
        simp only [hf, Option.map_some', Option.some.injEq] at h
        subst h
        cases j with
        | zero =>
          intro hpre
          exact hp (List.isPrefixOf_iff_prefix.mpr hpre)
        | succ j =>
          simp only [List.drop_succ_cons]
          exact ih m hf j (by omega)

/-- The first pair enumerated for a text carries the offset of the first occurrence of the
text, the one that `find` returns. -/
theorem first_generated_is_find (str : Str) (L : Int) (e : Str × Int)
    (rest : List (Str × Int))
    (h : (generateSubstrings str L).filter (fun x => x.1 = e.1) = e :: rest) :
    0 ≤ e.2 ∧ find str e.1 = some e.2.toNat := by
  have hmem : e ∈ generateSubstrings str L := by
    have : e ∈ (generateSubstrings str L).filter (fun x => x.1 = e.1) := by
      rw [h]; exact List.mem_cons_self _ _
    exact (List.mem_filter.mp this).1
  obtain ⟨length, start, h1, h2, h3w, h4⟩ := (mem_generateSubstrings_iff str L e).mp hmem
  have h3 : start + length ≤ str.length := by
    have := toInt32_le str.length
    omega
  have hlen : e.1.length = length := by rw [h4]; exact substr_length h3
  have he2 : e.2 = (start : Int) := by rw [h4]
  have hsub : substr str start e.1.length = e.1 := by rw [hlen, h4]
  have hinf : e.1 <:+: str := by
    rw [← hsub]
    unfold substr
    exact (List.take_prefix _ _).isInfix.trans (List.drop_suffix _ _).isInfix
  obtain ⟨k, hk⟩ := Option.isSome_iff_exists.mp (find_isSome_of_occurs e.1 str hinf)
  obtain ⟨hk1, hk2⟩ := find_spec e.1 str k hk
  have hle1 : k ≤ start := by
    by_contra hgt
    apply find_min e.1 str k hk start (by omega)
    rw [← hsub]
    unfold substr
    exact List.take_prefix _ _
  have hle2 : start ≤ k := by
    have hk_mem : (e.1, (k : Int)) ∈ generateSubstrings str L :=
      (mem_generateSubstrings_iff str L _).mpr
        ⟨e.1.length, k, by omega, by omega, by omega, by rw [hk2]⟩
    have hk_f : (e.1, (k : Int)) ∈ (generateSubstrings str L).filter (fun x => x.1 = e.1) :=
      List.mem_filter.mpr ⟨hk_mem, by simp⟩
    rw [h] at hk_f
    rcases List.mem_cons.mp hk_f with h5 | h5
    · have : (k : Int) = e.2 := by rw [← h5]
      omega
    · have hpw := List.Pairwise.filter (fun x => decide (x.1 = e.1))
        (generateSubstrings_pairwise str L)
      rw [h, List.pairwise_cons] at hpw
      have := hpw.1 _ h5 rfl
      simp only at this
      omega
  refine ⟨by omega, ?_⟩
  rw [hk, he2, Int.toNat_ofNat]
  congr 1
  omega

/-! ## The first longest entry -/

/-- The scan of the automaton of `generateSubstrings src L`: when something is recorded, it
is a longest registered pair `e` ending at a position `i` of the text such that `e` is the
first pair registered for its text and no registered pair of the same length ends before
`i`. -/
theorem scan_outcome_first {t0 : Trie} {path : Nat → Str} {t : Trie} {src : Str} {L : Int}
    (hI : Inserted (generateSubstrings src L) t0 path) (hB : Built t0 path t) (tgt : Str) :
    ∃ b, scan t tgt = some b ∧
      ((b = Best.init ∧ NoEntry src tgt L) ∨
        ∃ i e, IsBestAt src tgt L i e ∧ b = bestOf (i, e) ∧
          (∃ rest, (generateSubstrings src L).filter (fun x => x.1 = e.1) = e :: rest) ∧
          ∀ j f, j < tgt.length → f ∈ generateSubstrings src L → f.1 <:+ tgt.take (j + 1) →
            f.1.length = e.1.length → i ≤ j) := by
  have hne := generateSubstrings_ne_nil src L
  obtain ⟨es, h1, h2⟩ := scanEntries_built hI hne hB tgt
  have hroot : walk t 0 (longestIn t []) = some root := by simp [longestIn, walk, root]
  obtain ⟨hpw, hblock⟩ := scanEntries_order hI.inv hB tgt [] root es hroot h1
  refine ⟨recordAll es Best.init, by rw [scan_entries, h1]; rfl, ?_⟩
  rcases recordAll_first_max es Best.init with ⟨h3, h4⟩ | ⟨pre, x, post, h3, _, h5, h6, h7⟩
  · left
    refine ⟨h3, ?_⟩
    intro j f hj hf hsuf
    have hm : (j, f) ∈ es := (h2 j f).mpr ⟨hj, hf, hsuf⟩
    have := h4 (j, f) hm
    simp only [Best.init] at this
    have hpos : 0 < f.1.length := List.length_pos.mpr (hne f hf)
    omega
  · right
    obtain ⟨i, e⟩ := x
    have hx : (i, e) ∈ es := by rw [h3]; simp
    obtain ⟨a, b, c⟩ := (h2 i e).mp hx
    have hmax : ∀ j f, j < tgt.length → f ∈ generateSubstrings src L →
        f.1 <:+ tgt.take (j + 1) → f.1.length ≤ e.1.length := by
      intro j f hj hf hsuf
      have hm : (j, f) ∈ es := (h2 j f).mpr ⟨hj, hf, hsuf⟩
      rw [h3, List.mem_append, List.mem_cons] at hm
      rcases hm with hm | hm | hm
      · exact le_of_lt (h5 _ hm)
      · rw [(Prod.mk.inj hm).2]
      · exact h6 _ hm
    refine ⟨i, e, ⟨a, b, c, hmax⟩, h7, ?_, ?_⟩
    · obtain ⟨k, hk⟩ := Option.isSome_iff_exists.mp (longestIn_isSome t (tgt.take (i + 1)))
      have hb1 := hblock i k (Nat.zero_le _) (by simpa using a) (by simpa using hk)
      have hsuf : e.1 <:+ longestIn t (tgt.take (i + 1)) := by
        apply longestIn_max t _ c
        rw [walk_congr hB.children]
        exact registered_in_trie hI b
      have hf1 := (built_output_filter hI hB hk e.1 (hne e b)).1 hsuf
      have hsplit : (es.filter (fun y => y.1 = i)).filter (fun y => y.2.1 = e.1) =
          (i, e) :: (post.filter (fun y => y.1 = i)).filter (fun y => y.2.1 = e.1) := by
        rw [h3, List.filter_append, List.filter_append]
        have hpre : (pre.filter (fun y => y.1 = i)).filter (fun y => y.2.1 = e.1) = [] := by
          rw [List.filter_eq_nil_iff]
          intro y hy
          have hy1 := (List.mem_filter.mp hy).1
          have := h5 y hy1
          simp only [decide_eq_true_eq]
          intro heq
          rw [heq] at this
          simp only at this
          omega
        rw [hpre, List.nil_append]
        simp [List.filter_cons]
      rw [hb1, List.filter_map] at hsplit
      have hcomp : ((fun y : Nat × (Str × Int) => decide (y.2.1 = e.1)) ∘
          fun e1 : Str × Int => (i, e1)) = fun x => decide (x.1 = e.1) := rfl
      rw [hcomp, hf1] at hsplit
      obtain ⟨a1, l1, hl, ha1, _⟩ := List.map_eq_cons_iff.mp hsplit
      have : a1 = e := (Prod.mk.inj ha1).2
      rw [this] at hl
      exact ⟨l1, hl⟩
    · intro j f hj hf hsuf hlen
      have hm : (j, f) ∈ es := (h2 j f).mpr ⟨hj, hf, hsuf⟩
      rw [h3, List.mem_append, List.mem_cons] at hm
      rw [h3, List.pairwise_append, List.pairwise_cons] at hpw
      rcases hm with hm | hm | hm
      · have := h5 _ hm
        simp only at this
        omega
      · rw [(Prod.mk.inj hm).1]
      · exact hpw.2.1.1 _ hm

/-- One round, with the position of the recorded match: the round of `round_outcome`, where
the recorded pair is moreover the first one registered for its text and ends at the first
position at which a registered pair of that length ends. -/
theorem round_outcome_first {ord : List (Char × Nat) → List (Char × Nat)}
    (hord : ∀ l, (ord l).Perm l) (src tgt : Str) (L : Int) :
    ∃ r, round ord L src tgt = some r ∧
      (r = ⟨false, tgt, src, none⟩ ∨
        ∃ i e, IsBestAt src tgt L i e ∧
          0 ≤ e.2 ∧ find src e.1 = some e.2.toNat ∧
          (∀ j f, j < tgt.length → f ∈ generateSubstrings src L →
            f.1 <:+ tgt.take (j + 1) → f.1.length = e.1.length → i ≤ j) ∧
          startIndexOf i e.1.length ≠ npos ∧
          r = ⟨true,
            tgt.take (startIndexOf i e.1.length) ++
              tgt.drop (startIndexOf i e.1.length + e.1.length),
            src.take e.2.toNat ++ src.drop (e.2.toNat + e.1.length),
            some ⟨e.1, startIndexOf i e.1.length, e.2⟩⟩) := by
  obtain ⟨t0, path, t, _, hI, hB, _, hbuild⟩ := buildAutomaton_spec hord src L
  obtain ⟨b, hscan, hb⟩ := scan_outcome_first hI hB tgt
  rcases hb with ⟨hb1, _⟩ | ⟨i, e, hbest, hb1, ⟨rest, hfirst⟩, hleft⟩
  · refine ⟨⟨false, tgt, src, none⟩, ?_, Or.inl rfl⟩
    simp only [round, hbuild, searchAndRemoveLongestMatch, hscan]
    rw [hb1]
    simp [Best.init]
  · obtain ⟨f1, f2, f3, f4, f5, f6, f7, f8, f9, f10⟩ := isBestAt_facts hbest
    obtain ⟨hpos, hfind⟩ := first_generated_is_find src L e rest hfirst
    by_cases hs : startIndexOf i e.1.length = npos
    · refine ⟨⟨false, tgt, src, none⟩, ?_, Or.inl rfl⟩
      simp only [round, hbuild, searchAndRemoveLongestMatch, hscan]
      rw [hb1]
      simp [bestOf, hs]
    · have hadd := startIndexOf_add_le f3
      obtain ⟨s1, he1, he2, _⟩ := @erase_spec tgt (startIndexOf i e.1.length) e.1.length
        (by omega)
      obtain ⟨s2, he3, he4, _⟩ := @erase_spec src e.2.toNat e.1.length f6
      refine ⟨_, ?_, Or.inr ⟨i, e, hbest, hpos, hfind, hleft, hs, rfl⟩⟩
      simp only [round, hbuild, searchAndRemoveLongestMatch, hscan]
      rw [hb1]
      simp only [bestOf, ne_eq, hs, not_false_eq_true, if_true, hfind, Int.toNat_ofNat, he1,
        he3, he2, he4]

theorem suffix_take_of_substr {tgt q : Str} {s : Nat} (h : substr tgt s q.length = q) :
    q <:+ tgt.take (s + q.length) := by
  rw [List.take_add]
  have : List.take q.length (List.drop s tgt) = q := h
  rw [this]
  exact List.suffix_append _ _

/-- C18, as stated for every source, fails once the length of the source does not fit `int`:
for the source `ab` followed by `2^32 - 1` characters `c`, whose length `2^32 + 1` becomes
`len = 1`, and `L = 1`, only `("a", 0)` is registered, and on the target `ba` the round reports
`a` at offset `1` although `b`, a substring of the source of the same length, occurs in the
target at offset `0`. -/
theorem leftmost_occurrence_counterexample :
    generateSubstrings srcWrapped 1 = [(['a'], 0)] ∧
      round id 1 srcWrapped ['b', 'a'] =
        some ⟨true, ['b'], 'b' :: List.replicate (2 ^ 32 - 1) 'c', some ⟨['a'], 1, 0⟩⟩ ∧
      (['b'] : Str).length = (['a'] : Str).length ∧ (['b'] : Str) <:+: srcWrapped ∧
      0 + (['b'] : Str).length ≤ (['b', 'a'] : Str).length ∧
      substr ['b', 'a'] 0 (['b'] : Str).length = ['b'] ∧ ¬ (1 ≤ 0) :=
  ⟨generateSubstrings_srcWrapped_one, round_srcWrapped_ba, by decide, b_infix_srcWrapped,
    by decide, by decide, by decide⟩

/-- C18, amended (leftmost occurrence in the target, for a source whose length fits `int`).  For
a source shorter than `2^31` and a target shorter than `2^64`, when a round reports a match
`(P, s, o)`, `P` is a substring of the source that occurs in the target at offset `s`, and no
string of length `|P|` that is a substring of the source occurs in the target at an offset
smaller than `s`. -/
theorem leftmost_occurrence (ord : List (Char × Nat) → List (Char × Nat))
    (hord : ∀ l, (ord l).Perm l) (src tgt : Str) (L : Int) (hsrc : src.length < 2 ^ 31)
    (htgt : tgt.length < 2 ^ 64) :
    ∃ r, round ord L src tgt = some r ∧
      ∀ rep, r.report = some rep →
        rep.pattern <:+: src ∧ rep.textIndex + rep.pattern.length ≤ tgt.length ∧
          substr tgt rep.textIndex rep.pattern.length = rep.pattern ∧
          ∀ (q : Str) (s1 : Nat), q.length = rep.pattern.length → q <:+: src →
            s1 + q.length ≤ tgt.length → substr tgt s1 q.length = q → rep.textIndex ≤ s1 := by
  obtain ⟨r, hr, hcase⟩ := round_outcome_first hord src tgt L
  refine ⟨r, hr, ?_⟩
  intro rep hrep
  rcases hcase with h | ⟨i, e, hbest, _, _, hleft, _, h⟩
  · rw [h] at hrep
    simp at hrep
  · obtain ⟨f1, f2, f3, f4, _, _, _, f8, f9, _⟩ := isBestAt_facts hbest
    have hexact := startIndexOf_exact f3 f1 (show i < 2 ^ 64 by omega)
    rw [h] at hrep
    simp only [Option.some.injEq] at hrep
    rw [← hrep]
    simp only [hexact]
    refine ⟨f9, by omega, f8, ?_⟩
    intro q s1 hq hqs hs1 hsub
    have hqne : q ≠ [] := by
      intro e0
      rw [e0] at hq
      simp only [List.length_nil] at hq
      omega
    obtain ⟨start, hgen, _, _⟩ := (infix_iff_generated src hsrc L q).mp ⟨hqne, by omega, hqs⟩
    have hsuf := suffix_take_of_substr hsub
    have hj : s1 + q.length - 1 + 1 = s1 + q.length := by omega
    have := hleft (s1 + q.length - 1) (q, (start : Int)) (by omega) hgen
      (by rw [hj]; exact hsuf) hq
    omega

/-- Witness for C18 on the inputs of `main`. -/
theorem leftmost_occurrence_witness :
    (∀ l : List (Char × Nat), (id l).Perm l) ∧ str1Main.length < 2 ^ 31 ∧
    str2Main.length < 2 ^ 64 ∧
    ∃ r, round id maxLengthMain str1Main str2Main = some r ∧
      ∀ rep, r.report = some rep →
        rep.pattern <:+: str1Main ∧ rep.textIndex + rep.pattern.length ≤ str2Main.length ∧
          substr str2Main rep.textIndex rep.pattern.length = rep.pattern ∧
          ∀ (q : Str) (s1 : Nat), q.length = rep.pattern.length → q <:+: str1Main →
            s1 + q.length ≤ str2Main.length → substr str2Main s1 q.length = q →
            rep.textIndex ≤ s1 :=
  ⟨fun l => List.Perm.refl l, by decide, by decide,
    leftmost_occurrence id (fun l => List.Perm.refl l) str1Main str2Main maxLengthMain
      (by decide) (by decide)⟩

/-- C8 (tie-break rule).  For every pattern sequence, every enumeration order and every text,
the automaton is built and the scan of the text returns.  The entries the scan visits come in
order of increasing text position and, at one position, in the order of the output list of the
node reached there; for non-empty patterns they are the registered pairs that end at that
position.  The recorded best match is the first visited entry whose pattern length equals the
final best length: every entry visited before it is strictly shorter, and no entry visited
after it is longer; when every visited entry is empty, nothing is recorded. -/
theorem scan_tie_break (ord : List (Char × Nat) → List (Char × Nat))
    (hord : ∀ l, (ord l).Perm l) (ps : List (Str × Int)) (text : Str) :
    ∃ t0 t b es, insertAll [TrieNode.new] ps = some t0 ∧ buildFailureLinks ord t0 = some t ∧
      scan t text = some b ∧ scanEntries t text 0 root = some es ∧
      es.Pairwise (fun x y => x.1 ≤ y.1) ∧
      (∀ i k, i < text.length → walk t root (longestIn t (text.take (i + 1))) = some k →
        es.filter (fun y => y.1 = i) = (outputOf t k).map (fun e => (i, e))) ∧
      ((∀ e ∈ ps, e.1 ≠ []) →
        ∀ i e, (i, e) ∈ es ↔ (i < text.length ∧ e ∈ ps ∧ e.1 <:+ text.take (i + 1))) ∧
      ((b = Best.init ∧ ∀ y ∈ es, y.2.1.length = 0) ∨
        ∃ pre x post, es = pre ++ x :: post ∧ 0 < x.2.1.length ∧
          (∀ y ∈ pre, y.2.1.length < x.2.1.length) ∧
          (∀ y ∈ post, y.2.1.length ≤ x.2.1.length) ∧ b = bestOf x) := by
  obtain ⟨t0, path, t, h1, hI, h2, hB⟩ := automaton_general hord ps
  have hroot : walk t 0 (longestIn t []) = some root := by simp [longestIn, walk, root]
  obtain ⟨es, hes, _⟩ := scanEntries_spec hI.inv hB text [] root hroot
  have hes0 : scanEntries t text 0 root = some es := hes
  obtain ⟨hpw, hfil⟩ := scanEntries_order hI.inv hB text [] root es hroot hes
  have hscan : scan t text = some (recordAll es Best.init) := by
    rw [scan_entries, hes0]
    rfl
  refine ⟨t0, t, recordAll es Best.init, es, h1, h2, hscan, hes0, hpw, ?_, ?_, ?_⟩
  · intro i k hi hk
    have := hfil i k (Nat.zero_le _) (by simpa using hi) (by simpa using hk)
    exact this
  · intro hne i e
    obtain ⟨es1, h3, h4⟩ := scanEntries_built hI hne hB text
    rw [hes0] at h3
    simp only [Option.some.injEq] at h3
    rw [h3]
    exact h4 i e
  · rcases recordAll_first_max es Best.init with ⟨h3, h4⟩ | ⟨pre, x, post, h3, h4, h5, h6, h7⟩
    · left
      refine ⟨h3, ?_⟩
      intro y hy
      have := h4 y hy
      simp only [Best.init] at this
      omega
    · right
      refine ⟨pre, x, post, h3, ?_, h5, h6, h7⟩
      simp only [Best.init] at h4
      omega

/-- Witness for C8: the patterns `("A", 0)`, `("A", 1)` (the enumeration of the source `"AA"`
with `L = 1`) and the text `"AA"`, enumeration in insertion order. -/
theorem scan_tie_break_witness :
    (∀ l : List (Char × Nat), (id l).Perm l) ∧
    ∃ t0 t b es, insertAll [TrieNode.new] [((['A'] : Str), (0 : Int)), (['A'], 1)] = some t0 ∧
      buildFailureLinks id t0 = some t ∧
      scan t ['A', 'A'] = some b ∧ scanEntries t ['A', 'A'] 0 root = some es ∧
      es.Pairwise (fun x y => x.1 ≤ y.1) ∧
      (∀ i k, i < (['A', 'A'] : Str).length →
        walk t root (longestIn t ((['A', 'A'] : Str).take (i + 1))) = some k →
        es.filter (fun y => y.1 = i) = (outputOf t k).map (fun e => (i, e))) ∧
      ((∀ e ∈ [((['A'] : Str), (0 : Int)), (['A'], 1)], e.1 ≠ []) →
        ∀ i e, (i, e) ∈ es ↔
          (i < (['A', 'A'] : Str).length ∧ e ∈ [((['A'] : Str), (0 : Int)), (['A'], 1)] ∧
            e.1 <:+ (['A', 'A'] : Str).take (i + 1))) ∧
      ((b = Best.init ∧ ∀ y ∈ es, y.2.1.length = 0) ∨
        ∃ pre x post, es = pre ++ x :: post ∧ 0 < x.2.1.length ∧
          (∀ y ∈ pre, y.2.1.length < x.2.1.length) ∧
          (∀ y ∈ post, y.2.1.length ≤ x.2.1.length) ∧ b = bestOf x) :=
  ⟨fun l => List.Perm.refl l,
    scan_tie_break id (fun l => List.Perm.refl l) [(['A'], 0), (['A'], 1)] ['A', 'A']⟩

end StringMatch
